import Mathlib

/-! euro-scraper: the scrape, parse and serve contract of `main.go`.

`main.go` has two functions of interest.  `getEuroPrice` performs one
`http.Get`, parses the body with goquery, selects
`div.col-sm-6.col-xs-6.centrado strong`, trims the selection's text, replaces
commas by periods and scans a `float64` with `fmt.Sscanf(.., "%f", ..)`.
`euroHandler` answers with `{"euro_price": %.8f}` or with `http.Error(.., 500)`.

The embedding is shallow.  The network and the HTML tokenizer are inputs
(`http.Get` is a function parameter whose response carries the outcome of
`goquery.NewDocumentFromReader` on its body).  Everything downstream of the
parsed document is executable: the selector match, `Selection.Text`,
`strings.TrimSpace`, `strings.ReplaceAll`, the `%f` scanner of package `fmt`,
`strconv.ParseFloat` with IEEE 754 binary64 round-to-nearest-even,
`math.Ldexp`, `strconv.Atoi`, and the `%.8f` and `%d` printers.

Go strings are modelled as lists of Unicode code points, `int` is 64 bits wide.
-/

namespace EuroScraper

/-- A Go string, as its sequence of code points. -/
abbrev Str := List Char

deriving instance DecidableEq for Except

/-! ## Package `unicode` and package `strings` -/

/-- Go `unicode.IsSpace`: the Unicode White_Space code points. -/
def unicode.IsSpace (r : Char) : Bool :=
  let c := r.toNat
  (0x09 ≤ c && c ≤ 0x0D) || c == 0x20 || c == 0x85 || c == 0xA0 || c == 0x1680
    || (0x2000 ≤ c && c ≤ 0x200A) || c == 0x2028 || c == 0x2029 || c == 0x202F
    || c == 0x205F || c == 0x3000

/-- Go `strings.TrimLeftFunc(s, unicode.IsSpace)`. -/
def strings.TrimLeftSpace : Str → Str
  | [] => []
  | c :: cs => if unicode.IsSpace c then strings.TrimLeftSpace cs else c :: cs

/-- Go `strings.TrimSpace`: leading and trailing white space removed. -/
def strings.TrimSpace (s : Str) : Str :=
  (strings.TrimLeftSpace (strings.TrimLeftSpace s).reverse).reverse

/-- Loop of Go `strings.Replace(s, old, new, -1)` for a non-empty `old`: scan left
to right, copy `new` at each non-overlapping occurrence of `old`.  `skip` counts
the characters of an occurrence still to be dropped. -/
def strings.replaceLoop (old new : Str) : Nat → Str → Str
  | _, [] => []
  | skip + 1, _ :: cs => strings.replaceLoop old new skip cs
  | 0, c :: cs =>
    if old.isPrefixOf (c :: cs) then new ++ strings.replaceLoop old new (old.length - 1) cs
    else c :: strings.replaceLoop old new 0 cs

/-- Go `strings.ReplaceAll(s, old, new)`.  For an empty `old` Go inserts `new`
before every code point and at the end. -/
def strings.ReplaceAll (s old new : Str) : Str :=
  if old = [] then new ++ s.flatMap (fun c => c :: new)
  else strings.replaceLoop old new 0 s

/-! ## Package `golang.org/x/net/html`: the parsed document -/

/-- Go `html.NodeType`. -/
inductive html.NodeType
  | ErrorNode | TextNode | DocumentNode | ElementNode | CommentNode | DoctypeNode | RawNode
  deriving DecidableEq, Repr

/-- Go `html.Attribute`. -/
structure html.Attribute where
  Namespace : Str
  Key : Str
  Val : Str
  deriving DecidableEq, Repr

/-- Go `html.Node`, as a tree: the node type, `Data` (tag name of an element,
content of a text node), the attributes and the children in document order. -/
inductive html.Node
  | mk (Typ : html.NodeType) (Data : Str) (Attr : List html.Attribute)
      (Children : List html.Node)

namespace html.Node

/-- Field `Type` of a node. -/
def Typ : html.Node → html.NodeType
  | mk t _ _ _ => t

/-- Field `Data` of a node. -/
def Data : html.Node → Str
  | mk _ d _ _ => d

/-- Field `Attr` of a node. -/
def Attr : html.Node → List html.Attribute
  | mk _ _ a _ => a

/-- The children of a node (`FirstChild` and its `NextSibling` chain). -/
def Children : html.Node → List html.Node
  | mk _ _ _ cs => cs

end html.Node

/-! ## Package `cascadia`: the compiled selector -/

/-- Go `strings.IndexAny(s, " \t\r\n\f")`, the separators of a class attribute. -/
def cascadia.indexSpace : Str → Option Nat
  | [] => none
  | c :: cs =>
    if c = ' ' ∨ c = '\t' ∨ c = '\r' ∨ c = '\n' ∨ c = Char.ofNat 12 then some 0
    else (cascadia.indexSpace cs).map (· + 1)

/-- Loop of cascadia `matchInclude(val, s, false)`; `fuel` bounds the iterations. -/
def cascadia.matchIncludeLoop (val : Str) : Nat → Str → Bool
  | 0, _ => false
  | fuel + 1, s =>
    if s = [] then false
    else match cascadia.indexSpace s with
      | none => s == val
      | some i => if s.take i == val then true
                  else cascadia.matchIncludeLoop val fuel (s.drop (i + 1))

/-- Go cascadia `matchInclude(val, s, false)`: `val` is one of the
white-space-separated words of `s`. -/
def cascadia.matchInclude (val s : Str) : Bool :=
  cascadia.matchIncludeLoop val (s.length + 1) s

/-- Go cascadia `tagSelector.Match`. -/
def cascadia.matchTag (tag : Str) (n : html.Node) : Bool :=
  n.Typ == html.NodeType.ElementNode && n.Data == tag

/-- Go cascadia `classSelector.Match`, through `matchAttribute(n, "class", ..)`. -/
def cascadia.matchClass (cls : Str) (n : html.Node) : Bool :=
  n.Typ == html.NodeType.ElementNode &&
    n.Attr.any (fun a => a.Key == "class".toList && cascadia.matchInclude cls a.Val)

/-- A compound selector: a tag selector followed by class selectors. -/
structure cascadia.Compound where
  tag : Str
  classes : List Str

/-- Go cascadia `compoundSelector.Match`: every sub-selector matches. -/
def cascadia.Compound.Match (c : cascadia.Compound) (n : html.Node) : Bool :=
  cascadia.matchTag c.tag n && c.classes.all (fun k => cascadia.matchClass k n)

/-- The selectors this program needs: a compound selector, or a descendant
combinator (`a d`, written with a blank) of a selector and a compound selector. -/
inductive cascadia.Sel
  | simple (c : cascadia.Compound)
  | descendant (a : cascadia.Sel) (d : cascadia.Compound)

/-- Walk of the `Parent` chain: `ancestors` lists the parent first, then its
parent, up to the document node. -/
def cascadia.anyAncestor (m : List html.Node → html.Node → Bool) :
    List html.Node → Bool
  | [] => false
  | p :: ps => m ps p || cascadia.anyAncestor m ps

/-- Go cascadia `Match` on a node whose chain of parents is `ancestors`.  The
descendant combinator is
`d.Match(n) && (for p := n.Parent; p != nil; p = p.Parent { if a.Match(p) ..})`. -/
def cascadia.Sel.Match : cascadia.Sel → List html.Node → html.Node → Bool
  | .simple c => fun _ n => c.Match n
  | .descendant a d => fun ancestors n =>
    d.Match n && cascadia.anyAncestor (cascadia.Sel.Match a) ancestors

mutual
/-- Go cascadia `matchAllInto`: the node itself when it matches, then the
matches below each child, in document order. -/
def cascadia.matchAll (s : cascadia.Sel) (ancestors : List html.Node) :
    html.Node → List html.Node
  | .mk t d a cs =>
    (if s.Match ancestors (.mk t d a cs) then [html.Node.mk t d a cs] else [])
      ++ cascadia.matchAllList s (html.Node.mk t d a cs :: ancestors) cs
/-- The matches below a list of siblings. -/
def cascadia.matchAllList (s : cascadia.Sel) (ancestors : List html.Node) :
    List html.Node → List html.Node
  | [] => []
  | n :: ns => cascadia.matchAll s ancestors n ++ cascadia.matchAllList s ancestors ns
end

/-! ## Package `goquery` -/

/-- Go goquery `findWithMatcher` on the document selection `[root]`: for each
element child of the root, every match in that child's subtree. -/
def goquery.Find (root : html.Node) (s : cascadia.Sel) : List html.Node :=
  root.Children.flatMap (fun c =>
    if c.Typ = html.NodeType.ElementNode then cascadia.matchAll s [root] c else [])

mutual
/-- The closure `f` of Go goquery `Selection.Text`: the data of every text node of
the subtree, in document order. -/
def goquery.nodeText : html.Node → Str
  | .mk t d _ cs => (if t = html.NodeType.TextNode then d else []) ++ goquery.nodesText cs
/-- Go goquery `Selection.Text`: the combined text of every node of the
selection, descendants included. -/
def goquery.nodesText : List html.Node → Str
  | [] => []
  | n :: ns => goquery.nodeText n ++ goquery.nodesText ns
end

/-- Go goquery `Selection.Text`. -/
def goquery.Text (sel : List html.Node) : Str := goquery.nodesText sel

/-- The compiled form of `"div.col-sm-6.col-xs-6.centrado strong"`. -/
def euroSelector : cascadia.Sel :=
  .descendant
    (.simple ⟨"div".toList, ["col-sm-6".toList, "col-xs-6".toList, "centrado".toList]⟩)
    ⟨"strong".toList, []⟩

/-! ## IEEE 754 binary64 -/

/-- A Go `float64`.  `Finite neg mant exp` is `(-1)^neg * mant * 2^exp`; the
values the library produces are canonical: `mant < 2^53`, `-1074 ≤ exp ≤ 971`,
and `exp = -1074` when `mant < 2^52` (zero and the subnormal numbers). -/
inductive Float64
  | NaN
  | Inf (neg : Bool)
  | Finite (neg : Bool) (mant : Nat) (exp : Int)
  deriving DecidableEq, Repr

/-- The rational value of a finite `float64` (zero for NaN and the infinities). -/
def Float64.toRat : Float64 → ℚ
  | .Finite neg mant exp => (if neg then -1 else 1) * (mant : ℚ) * (2 : ℚ) ^ exp
  | _ => 0

/-- A finite value, as opposed to NaN and the infinities. -/
def Float64.isFinite : Float64 → Bool
  | .Finite _ _ _ => true
  | _ => false

/-- The sign bit. -/
def Float64.signbit : Float64 → Bool
  | .Finite neg _ _ => neg
  | .Inf neg => neg
  | .NaN => false

/-- Number of binary digits of `n`, by halving; `fuel` bounds the iterations. -/
def bitLenAux : Nat → Nat → Nat
  | 0, _ => 0
  | fuel + 1, n => if n = 0 then 0 else bitLenAux fuel (n / 2) + 1

/-- Number of binary digits of `n` (zero for `n = 0`). -/
def bitLen (n : Nat) : Nat := bitLenAux n n

/-- Numerator and denominator of `(num / den) / 2^k`. -/
def scalePow2 (num den : Nat) (k : Int) : Nat × Nat :=
  if 0 ≤ k then (num, den * 2 ^ k.toNat) else (num * 2 ^ (-k).toNat, den)

/-- The integer nearest to `num / den`, ties to the even one. -/
def roundHalfEven (num den : Nat) : Nat :=
  let q := num / den
  let r := num % den
  if 2 * r < den then q else if den < 2 * r then q + 1 else if q % 2 = 0 then q else q + 1

/-- The integer `e` with `2^e ≤ num / den < 2^(e+1)`, for positive `num`, `den`. -/
def floorLog2 (num den : Nat) : Int :=
  let e : Int := (bitLen num : Int) - (bitLen den : Int)
  let sc := scalePow2 num den e
  if sc.2 ≤ sc.1 then e else e - 1

/-- IEEE 754 round-to-nearest-even of the exact value `num / den` (`den > 0`) to
binary64, with the given sign; `none` when the rounded magnitude exceeds the
largest finite `float64`. -/
def roundFloat64 (neg : Bool) (num den : Nat) : Option Float64 :=
  if num = 0 then some (.Finite neg 0 (-1074))
  else
    let qe : Int := max (floorLog2 num den - 52) (-1074)
    let sc := scalePow2 num den qe
    let m := roundHalfEven sc.1 sc.2
    if m = 2 ^ 53 then
      (if 971 < qe + 1 then none else some (.Finite neg (2 ^ 52) (qe + 1)))
    else if 971 < qe then none else some (.Finite neg m qe)

/-- Go `int` arithmetic wraps modulo `2^64`. -/
def wrapInt64 (x : Int) : Int := (x + 2 ^ 63) % 2 ^ 64 - 2 ^ 63

/-- Go `math.Ldexp(frac, exp)`: `frac * 2^exp`.  The library adds the binary
exponent of `frac` to `exp` in `int` arithmetic, answers a zero below `-1075`
and an infinity above `1023`, and otherwise rescales with one rounding. -/
def math.Ldexp (frac : Float64) (exp : Int) : Float64 :=
  match frac with
  | .Finite neg mant e =>
    if mant = 0 then frac
    else
      let lg : Int := (bitLen mant : Int) - 1 + e
      let exp2 := wrapInt64 (exp + lg)
      if exp2 < -1075 then .Finite neg 0 (-1074)
      else if 1023 < exp2 then .Inf neg
      else
        let k := e + (exp2 - lg)
        match (if 0 ≤ k then roundFloat64 neg (mant * 2 ^ k.toNat) 1
               else roundFloat64 neg mant (2 ^ (-k).toNat)) with
        | some f => f
        | none => .Inf neg
  | _ => frac

/-! ## Package `strconv` -/

/-- Go `strconv.ErrSyntax` and `strconv.ErrRange`, the `Err` of a `NumError`. -/
inductive strconv.ErrKind
  | ErrSyntax
  | ErrRange
  deriving DecidableEq, Repr

/-- A decimal digit `'0'`..`'9'`. -/
def strconv.isDigit (c : Char) : Bool := '0'.toNat ≤ c.toNat && c.toNat ≤ '9'.toNat

/-- Value of a decimal digit, `c - '0'`. -/
def strconv.digitVal (c : Char) : Nat := c.toNat - '0'.toNat

/-- A hexadecimal letter: `'a' <= lower(c) && lower(c) <= 'f'`. -/
def strconv.isHexLetter (c : Char) : Bool :=
  ('a'.toNat ≤ c.toNat && c.toNat ≤ 'f'.toNat) || ('A'.toNat ≤ c.toNat && c.toNat ≤ 'F'.toNat)

/-- Value of a hexadecimal letter, `lower(c) - 'a' + 10`. -/
def strconv.hexLetterVal (c : Char) : Nat :=
  (if 'a'.toNat ≤ c.toNat then c.toNat - 'a'.toNat else c.toNat - 'A'.toNat) + 10

/-- The case folding in Go `strconv` `commonPrefixLenIgnoreCase`:
`if 'A' <= c && c <= 'Z' { c += 'a' - 'A' }`. -/
def strconv.lowerASCII (c : Char) : Char :=
  if 'A'.toNat ≤ c.toNat ∧ c.toNat ≤ 'Z'.toNat then Char.ofNat (c.toNat + 32) else c

/-- Go `strconv` `commonPrefixLenIgnoreCase(s, pat)`; `pat` is lower case. -/
def strconv.commonPrefixLenIgnoreCase : Str → Str → Nat
  | c :: cs, p :: ps =>
    if strconv.lowerASCII c = p then strconv.commonPrefixLenIgnoreCase cs ps + 1 else 0
  | _, _ => 0

/-- The `case 'i', 'I'` body of Go `strconv` `special`, entered directly or by
`fallthrough` from the sign case. -/
def strconv.specialInf (neg : Bool) (nsign : Nat) (s : Str) : Option (Float64 × Nat) :=
  let n := strconv.commonPrefixLenIgnoreCase s "infinity".toList
  let n := if 3 < n ∧ n < 8 then 3 else n
  if n = 3 ∨ n = 8 then some (.Inf neg, nsign + n) else none

/-- Go `strconv` `special`: the value and length of a leading "nan", or of an
optionally signed "inf" or "infinity", in any letter case. -/
def strconv.special (s : Str) : Option (Float64 × Nat) :=
  match s with
  | [] => none
  | c :: rest =>
    if c = '+' ∨ c = '-' then strconv.specialInf (c = '-') 1 rest
    else if c = 'i' ∨ c = 'I' then strconv.specialInf false 0 s
    else if c = 'n' ∨ c = 'N' then
      (if strconv.commonPrefixLenIgnoreCase s "nan".toList = 3 then some (.NaN, 3) else none)
    else none

/-- Loop of Go `strconv` `underscoreOK`; `saw` is the class of the last character
(`'^'`, `'0'`, `'_'` or `'!'`). -/
def strconv.underscoreLoop (hex : Bool) : Char → Str → Bool
  | saw, [] => saw ≠ '_'
  | saw, c :: cs =>
    if strconv.isDigit c || (hex && strconv.isHexLetter c) then strconv.underscoreLoop hex '0' cs
    else if c = '_' then (if saw ≠ '0' then false else strconv.underscoreLoop hex '_' cs)
    else if saw = '_' then false
    else strconv.underscoreLoop hex '!' cs

/-- Go `strconv` `underscoreOK`: underscores stand only between digits, or
between a base prefix and a digit. -/
def strconv.underscoreOK (s : Str) : Bool :=
  let s1 := match s with
    | c :: cs => if c = '-' ∨ c = '+' then cs else s
    | [] => s
  match s1 with
  | a :: b :: cs =>
    if a = '0' ∧ (b = 'b' ∨ b = 'B' ∨ b = 'o' ∨ b = 'O' ∨ b = 'x' ∨ b = 'X') then
      strconv.underscoreLoop (b = 'x' ∨ b = 'X') '0' cs
    else strconv.underscoreLoop false '^' s1
  | _ => strconv.underscoreLoop false '^' s1

/-- The local variables of the mantissa loop of Go `strconv` `readFloat`.  The
library keeps the first 19 digits in a `uint64` and a `trunc` flag for the rest,
and rounds the full digit string in its fallback; here `mantissa` holds all `nd`
digits, so that the exact value is at hand. -/
structure strconv.mantState where
  sawdot : Bool
  sawdigits : Bool
  nd : Nat
  dp : Int
  mantissa : Nat
  underscores : Bool

/-- The mantissa loop of Go `strconv` `readFloat` (`base` 16 when `hex`): the final
variables and the unread input. -/
def strconv.readMantissa (hex : Bool) : strconv.mantState → Str → strconv.mantState × Str
  | st, [] => (st, [])
  | st, c :: cs =>
    if c = '_' then strconv.readMantissa hex { st with underscores := true } cs
    else if c = '.' then
      (if st.sawdot then (st, c :: cs)
       else strconv.readMantissa hex { st with sawdot := true, dp := st.nd } cs)
    else if strconv.isDigit c then
      (if c = '0' ∧ st.nd = 0 then
        strconv.readMantissa hex { st with sawdigits := true, dp := st.dp - 1 } cs
       else
        strconv.readMantissa hex
          { st with sawdigits := true, nd := st.nd + 1,
                    mantissa := st.mantissa * (if hex then 16 else 10) + strconv.digitVal c } cs)
    else if hex ∧ strconv.isHexLetter c then
      strconv.readMantissa hex
        { st with sawdigits := true, nd := st.nd + 1,
                  mantissa := st.mantissa * 16 + strconv.hexLetterVal c } cs
    else (st, c :: cs)

/-- The exponent digit loop of Go `strconv` `readFloat`: the exponent (no longer
accumulated once it reaches 10000), whether an underscore was seen, and the
unread input. -/
def strconv.readExpDigits : Nat → Bool → Str → Nat × Bool × Str
  | e, u, [] => (e, u, [])
  | e, u, c :: cs =>
    if c = '_' then strconv.readExpDigits e true cs
    else if strconv.isDigit c then
      strconv.readExpDigits (if e < 10000 then e * 10 + strconv.digitVal c else e) u cs
    else (e, u, c :: cs)

/-- What Go `strconv` `readFloat` returns when `ok`: the value is
`mantissa * 10^exp`, or `mantissa * 2^exp` when `hex`; `n` characters were read. -/
structure strconv.floatParts where
  mantissa : Nat
  exp : Int
  neg : Bool
  hex : Bool
  n : Nat
  deriving DecidableEq, Repr

/-- The end of Go `strconv` `readFloat`: the underscore check and the results. -/
def strconv.readFloatFinish (s : Str) (neg hex : Bool) (mantissa nd : Nat) (dp : Int)
    (underscores : Bool) (unread : Str) : Option strconv.floatParts :=
  let n := s.length - unread.length
  if underscores && !strconv.underscoreOK (s.take n) then none
  else some ⟨mantissa, if mantissa ≠ 0 then dp - nd else 0, neg, hex, n⟩

/-- The part `// optional exponent moves decimal point` of Go `strconv` `readFloat`,
and its end: `st` holds the variables after the mantissa loop, `unread` the
input from index `i` on. -/
def strconv.readExponent (s : Str) (neg hex : Bool) (st : strconv.mantState) (unread : Str) :
    Option strconv.floatParts :=
  let dp0 : Int := if st.sawdot then st.dp else st.nd
  let dp1 : Int := if hex then dp0 * 4 else dp0
  let ndMant : Nat := if hex then st.nd * 4 else st.nd
  match unread with
  | e :: s4 =>
    if (if hex then e = 'p' ∨ e = 'P' else e = 'e' ∨ e = 'E') then
      match s4 with
      | [] => none
      | g :: s5 =>
        let esign : Int := if g = '-' then -1 else 1
        let s6 := if g = '+' ∨ g = '-' then s5 else s4
        match s6 with
        | [] => none
        | d :: _ =>
          if !strconv.isDigit d then none
          else
            let x := strconv.readExpDigits 0 st.underscores s6
            strconv.readFloatFinish s neg hex st.mantissa ndMant (dp1 + x.1 * esign)
              x.2.1 x.2.2
    else if hex then none
    else strconv.readFloatFinish s neg hex st.mantissa ndMant dp1 st.underscores unread
  | [] =>
    if hex then none
    else strconv.readFloatFinish s neg hex st.mantissa ndMant dp1 st.underscores unread

/-- The test for a base prefix in Go `strconv` `readFloat`:
`i+2 < len(s) && s[i] == '0' && lower(s[i+1]) == 'x'`. -/
def strconv.hasHexPrefix : Str → Bool
  | a :: b :: _ :: _ => a = '0' ∧ (b = 'x' ∨ b = 'X')
  | _ => false

/-- Go `strconv` `readFloat`: sign, optional `0x`, mantissa, optional exponent
(mandatory after a hexadecimal mantissa); `none` when not `ok`. -/
def strconv.readFloat (s : Str) : Option strconv.floatParts :=
  match s with
  | [] => none
  | c0 :: rest =>
    let s1 := if c0 = '+' ∨ c0 = '-' then rest else s
    let hex := strconv.hasHexPrefix s1
    let r := strconv.readMantissa hex ⟨false, false, 0, 0, 0, false⟩
      (if hex then s1.drop 2 else s1)
    if !r.1.sawdigits then none
    else strconv.readExponent s (c0 = '-') hex r.1 r.2

/-- The correctly rounded `float64` of what `readFloat` read; `none` on overflow. -/
def strconv.floatParts.round (p : strconv.floatParts) : Option Float64 :=
  let b : Nat := if p.hex then 2 else 10
  if 0 ≤ p.exp then roundFloat64 p.neg (p.mantissa * b ^ p.exp.toNat) 1
  else roundFloat64 p.neg p.mantissa (b ^ (-p.exp).toNat)

/-- Go `strconv.ParseFloat(s, 64)`: the whole of `s` must be a special value or a
decimal or hexadecimal floating-point number; the result is the nearest
`float64` (IEEE 754 unbiased rounding), `ErrRange` when that is out of range. -/
def strconv.ParseFloat (s : Str) : Except strconv.ErrKind Float64 :=
  match strconv.special s with
  | some (f, n) => if n = s.length then .ok f else .error .ErrSyntax
  | none =>
    match strconv.readFloat s with
    | none => .error .ErrSyntax
    | some p =>
      if p.n ≠ s.length then .error .ErrSyntax
      else match p.round with
        | some f => .ok f
        | none => .error .ErrRange

/-- Loop of Go `strconv.ParseUint(s, 10, 64)`: a character that is no digit is a
syntax error, a value above `2^64 - 1` a range error, whichever comes first. -/
def strconv.parseUintLoop : Nat → Str → Except strconv.ErrKind Nat
  | n, [] => .ok n
  | n, c :: cs =>
    if !strconv.isDigit c then .error .ErrSyntax
    else if 2 ^ 64 ≤ n * 10 + strconv.digitVal c then .error .ErrRange
    else strconv.parseUintLoop (n * 10 + strconv.digitVal c) cs

/-- Go `strconv.Atoi(s)` on a 64-bit platform. -/
def strconv.Atoi (s : Str) : Except strconv.ErrKind Int :=
  match s with
  | [] => .error .ErrSyntax
  | c :: cs =>
    let neg : Bool := c = '-'
    let digits := if c = '+' ∨ c = '-' then cs else s
    if digits = [] then .error .ErrSyntax
    else match strconv.parseUintLoop 0 digits with
      | .error e => .error e
      | .ok un =>
        if !neg && 2 ^ 63 ≤ un then .error .ErrRange
        else if neg && 2 ^ 63 < un then .error .ErrRange
        else .ok (if neg then -(un : Int) else (un : Int))

/-- Go `strconv.Quote` on the strings quoted here, scanner tokens made of ASCII
letters, digits, signs, periods and underscores: the string between double
quotes. -/
def strconv.Quote (s : Str) : Str := '"' :: s ++ ['"']

/-- Go `(*strconv.NumError).Error()`. -/
def strconv.NumError.Error (func num : Str) (err : strconv.ErrKind) : Str :=
  "strconv.".toList ++ func ++ ": parsing ".toList ++ strconv.Quote num ++ ": ".toList ++
    (match err with
     | .ErrSyntax => "invalid syntax".toList
     | .ErrRange => "value out of range".toList)

/-! ## Package `fmt`: scanning with the verb `%f` -/

/-- Go `fmt` `(*ss).SkipSpace` as `Sscanf` runs it (`nlIsSpace` false): white
space is skipped, a newline is the error "unexpected newline". -/
def fmt.SkipSpace : Str → Except Str Str
  | [] => .ok []
  | r :: rest =>
    if r = '\n' then .error "unexpected newline".toList
    else if unicode.IsSpace r then fmt.SkipSpace rest
    else .ok (r :: rest)

/-- The scanner state Go `fmt` `ss` as far as `floatToken` uses it: the token buffer
and the unread input. -/
structure fmt.ss where
  buf : Str
  input : Str
  deriving DecidableEq, Repr

/-- Go `fmt` `(*ss).accept(ok)`: consume the next code point when it is in `ok`. -/
def fmt.ss.accept (s : fmt.ss) (ok : Str) : Bool × fmt.ss :=
  match s.input with
  | [] => (false, s)
  | r :: rest => if ok.contains r then (true, ⟨s.buf ++ [r], rest⟩) else (false, s)

/-- The loop `for s.accept(ok) {}`. -/
def fmt.acceptLoop (ok : Str) : Str → Str → fmt.ss
  | buf, [] => ⟨buf, []⟩
  | buf, r :: rest =>
    if ok.contains r then fmt.acceptLoop ok (buf ++ [r]) rest else ⟨buf, r :: rest⟩

/-- The condition `s.accept(a) && s.accept(b) && s.accept(c)`, with its effect on
the scanner: a failed test stops the chain, what was accepted stays accepted. -/
def fmt.ss.accept3 (s : fmt.ss) (a b c : Str) : Bool × fmt.ss :=
  let r1 := s.accept a
  if r1.1 then
    let r2 := r1.2.accept b
    if r2.1 then r2.2.accept c else (false, r2.2)
  else (false, r1.2)

/-- Go `fmt` constant `decimalDigits`. -/
def fmt.decimalDigits : Str := "0123456789".toList

/-- Go `fmt` constant `hexadecimalDigits`. -/
def fmt.hexadecimalDigits : Str := "0123456789aAbBcCdDeEfF".toList

/-- Go `fmt` constant `sign`. -/
def fmt.sign : Str := "+-".toList

/-- Go `fmt` constant `period`. -/
def fmt.period : Str := ".".toList

/-- Go `fmt` constant `exponent`. -/
def fmt.exponent : Str := "eEpP".toList

/-- The loop `for s.accept(ok) {}` on a scanner. -/
def fmt.ss.acceptAll (s : fmt.ss) (ok : Str) : fmt.ss := fmt.acceptLoop ok s.buf s.input

/-- The part `// exponent?` of Go `fmt` `(*ss).floatToken`: an exponent character of
`exp`, an optional sign, decimal digits and underscores. -/
def fmt.ss.scanExponent (s : fmt.ss) (exp : Str) : fmt.ss :=
  let e := s.accept exp
  if e.1 then (e.2.accept fmt.sign).2.acceptAll (fmt.decimalDigits ++ "_".toList)
  else e.2

/-- The part `// decimal point?` of Go `fmt` `(*ss).floatToken`: a period and the
digits of the fraction. -/
def fmt.ss.scanFraction (s : fmt.ss) (digits : Str) : fmt.ss :=
  let dot := s.accept fmt.period
  if dot.1 then dot.2.acceptAll digits else dot.2

/-- Go `fmt` `(*ss).floatToken` from `digits := decimalDigits + "_"` on: an optional
`0x` that selects hexadecimal digits and the exponent characters `pP`, the
digits, the fraction, the exponent. -/
def fmt.ss.scanNumber (s : fmt.ss) : fmt.ss :=
  let z := s.accept "0".toList
  let x := if z.1 then z.2.accept "xX".toList else (false, z.2)
  let digits := (if x.1 then fmt.hexadecimalDigits else fmt.decimalDigits) ++ "_".toList
  let exp := if x.1 then "pP".toList else fmt.exponent
  ((x.2.acceptAll digits).scanFraction digits).scanExponent exp

/-- Go `fmt` `(*ss).floatToken`: the longest run of input that looks like a
floating-point number, and the scanner after it.  Nothing checks that the token
is well formed, nor that the input ends after it. -/
def fmt.floatToken (input : Str) : Str × fmt.ss :=
  let s : fmt.ss := ⟨[], input⟩
  let nan := s.accept3 "nN".toList "aA".toList "nN".toList
  if nan.1 then (nan.2.buf, nan.2)
  else
    let inf := (nan.2.accept fmt.sign).2.accept3 "iI".toList "nN".toList "fF".toList
    if inf.1 then (inf.2.buf, inf.2)
    else (inf.2.scanNumber.buf, inf.2.scanNumber)

/-- Go `fmt` `indexRune(s, r)`. -/
def fmt.indexRune : Str → Char → Option Nat
  | [], _ => none
  | c :: cs, r => if c = r then some 0 else (fmt.indexRune cs r).map (· + 1)

/-- Go `fmt` `hasX`: the string holds an `x` or an `X`. -/
def fmt.hasX (s : Str) : Bool := s.any (fun c => c = 'x' ∨ c = 'X')

/-- Go `fmt` `(*ss).convertFloat(str, 64)`: `strconv.ParseFloat`, or for a decimal
mantissa with a `p` exponent the mantissa scaled by `math.Ldexp`.  An error is
reported by its message. -/
def fmt.convertFloat (str : Str) : Except Str Float64 :=
  match (if fmt.hasX str then none else fmt.indexRune str 'p') with
  | some p =>
    match strconv.ParseFloat (str.take p) with
    | .error e => .error (strconv.NumError.Error "ParseFloat".toList str e)
    | .ok f =>
      match strconv.Atoi (str.drop (p + 1)) with
      | .error e => .error (strconv.NumError.Error "Atoi".toList str e)
      | .ok m => .ok (math.Ldexp f m)
  | none =>
    match strconv.ParseFloat str with
    | .error e => .error (strconv.NumError.Error "ParseFloat".toList str e)
    | .ok f => .ok f

/-- The call `fmt.Sscanf(str, "%f", &v)`: skip leading space (once in `doScanf`,
once in `scanOne`), fail with `io.EOF` on empty input, scan a float token and
convert it.  The value stored in `v`, or the message of the error.  Input after
the token is left unread and is no error. -/
def fmt.Sscanf (str : Str) : Except Str Float64 :=
  match fmt.SkipSpace str with
  | .error e => .error e
  | .ok s1 =>
    match fmt.SkipSpace s1 with
    | .error e => .error e
    | .ok s2 =>
      if s2 = [] then .error "EOF".toList
      else fmt.convertFloat (fmt.floatToken s2).1

/-! ## Package `fmt`: printing with `%d` and `%.8f` -/

/-- The decimal digit of `d < 10`. -/
def strconv.digitChar (d : Nat) : Char := Char.ofNat ('0'.toNat + d)

/-- Decimal digits of `n`, most significant first, in front of `acc`; `fuel`
bounds the iterations. -/
def strconv.formatBits : Nat → Nat → Str → Str
  | 0, _, acc => acc
  | fuel + 1, n, acc =>
    if n < 10 then strconv.digitChar n :: acc
    else strconv.formatBits fuel (n / 10) (strconv.digitChar (n % 10) :: acc)

/-- Go `strconv.FormatUint(n, 10)`. -/
def strconv.FormatUint (n : Nat) : Str := strconv.formatBits (n + 1) n []

/-- The verb `%d` of Go `fmt` on an `int`. -/
def fmt.formatInt (i : Int) : Str :=
  if i < 0 then '-' :: strconv.FormatUint i.natAbs else strconv.FormatUint i.natAbs

/-- `n` as `width` decimal digits, zero padded on the left (`n < 10^width`). -/
def strconv.padDigits : Nat → Nat → Str
  | 0, _ => []
  | width + 1, n => strconv.padDigits width (n / 10) ++ [strconv.digitChar (n % 10)]

/-- The magnitude of a finite `float64` times `10^prec`, rounded to the nearest
integer, ties to even: the digits `%.<prec>f` prints. -/
def strconv.fixedDigits (prec : Nat) (mant : Nat) (exp : Int) : Nat :=
  if 0 ≤ exp then mant * 2 ^ exp.toNat * 10 ^ prec
  else roundHalfEven (mant * 10 ^ prec) (2 ^ (-exp).toNat)

/-- Go `strconv.FormatFloat(f, 'f', prec, 64)` for `prec > 0`: the exact value
correctly rounded to `prec` decimals. -/
def strconv.FormatFloat (f : Float64) (prec : Nat) : Str :=
  match f with
  | .NaN => "NaN".toList
  | .Inf neg => if neg then "-Inf".toList else "+Inf".toList
  | .Finite neg mant exp =>
    let n := strconv.fixedDigits prec mant exp
    (if neg then ['-'] else []) ++ strconv.FormatUint (n / 10 ^ prec) ++ ['.']
      ++ strconv.padDigits prec (n % 10 ^ prec)

/-- The verb `%.8f` of Go `fmt` on a `float64` (no flags): `strconv.FormatFloat`
with the sign that `fmtFloat` keeps, which is the same string. -/
def fmt.formatFloat8 (f : Float64) : Str := strconv.FormatFloat f 8

/-! ## Package `net/http` -/

/-- A Go `error` value: where it came from, and its message. -/
inductive error
  | transport (msg : Str)
  | read (msg : Str)
  | errorf (msg : Str)
  deriving DecidableEq, Repr

/-- Go `err.Error()`. -/
def error.Error : error → Str
  | .transport msg => msg
  | .read msg => msg
  | .errorf msg => msg

/-- Go `http.Response` as `getEuroPrice` reads it.  `Body` stands for the stream:
it holds what `goquery.NewDocumentFromReader` makes of it, a document or the
message of the read error. -/
structure http.Response where
  StatusCode : Int
  Status : Str
  Body : Except Str html.Node

/-- Go `goquery.NewDocumentFromReader(resp.Body)`. -/
def goquery.NewDocumentFromReader (body : Except Str html.Node) : Except error html.Node :=
  match body with
  | .ok root => .ok root
  | .error msg => .error (.read msg)

/-- Go `http.ResponseWriter`, as a recorder: the header map, whether the status
line was written, the status code and the body written so far. -/
structure http.ResponseWriter where
  Header : List (Str × Str)
  wroteHeader : Bool
  Code : Nat
  Body : Str
  deriving DecidableEq, Repr

/-- A fresh response writer, as the server hands it to a handler. -/
def http.ResponseWriter.new : http.ResponseWriter := ⟨[], false, 0, []⟩

/-- Go `Header.Del(key)`. -/
def http.ResponseWriter.Del (w : http.ResponseWriter) (key : Str) : http.ResponseWriter :=
  { w with Header := w.Header.filter (fun kv => kv.1 ≠ key) }

/-- Go `Header.Set(key, value)`. -/
def http.ResponseWriter.Set (w : http.ResponseWriter) (key value : Str) :
    http.ResponseWriter :=
  { w with Header := w.Header.filter (fun kv => kv.1 ≠ key) ++ [(key, value)] }

/-- Go `Header.Get(key)`. -/
def http.ResponseWriter.Get (w : http.ResponseWriter) (key : Str) : Option Str :=
  (w.Header.find? (fun kv => kv.1 = key)).map (·.2)

/-- Go `ResponseWriter.WriteHeader(code)`: the first call fixes the status. -/
def http.ResponseWriter.WriteHeader (w : http.ResponseWriter) (code : Nat) :
    http.ResponseWriter :=
  if w.wroteHeader then w else { w with wroteHeader := true, Code := code }

/-- Go `ResponseWriter.Write(data)`: status 200 unless one was written before. -/
def http.ResponseWriter.Write (w : http.ResponseWriter) (data : Str) : http.ResponseWriter :=
  let w1 := w.WriteHeader 200
  { w1 with Body := w1.Body ++ data }

/-- Go `http.Error(w, error, code)`: plain-text headers, the status, then
`fmt.Fprintln(w, error)`, the message and a newline. -/
def http.Error (w : http.ResponseWriter) (msg : Str) (code : Nat) : http.ResponseWriter :=
  let w := w.Del "Content-Length".toList
  let w := w.Set "Content-Type".toList "text/plain; charset=utf-8".toList
  let w := w.Set "X-Content-Type-Options".toList "nosniff".toList
  let w := w.WriteHeader code
  w.Write (msg ++ ['\n'])

/-- Go `http.StatusInternalServerError`. -/
def http.StatusInternalServerError : Nat := 500

/-! ## `main.go` -/

/-- The message of the error `getEuroPrice` returns when the trimmed text is empty. -/
def notFoundMessage : Str := "no se encontró el valor del euro en la página".toList

/-- `getEuroPrice(url)` of `main.go`.  `Get` stands for `http.Get`: for a URL, the
response or the message of the error. -/
def getEuroPrice (Get : Str → Except Str http.Response) (url : Str) : Except error Float64 :=
  match Get url with
  | .error msg => .error (.transport msg)
  | .ok resp =>
    if resp.StatusCode ≠ 200 then
      .error (.errorf ("status code error: ".toList ++ fmt.formatInt resp.StatusCode
        ++ " ".toList ++ resp.Status))
    else
      match goquery.NewDocumentFromReader resp.Body with
      | .error err => .error err
      | .ok doc =>
        let selection := goquery.Find doc euroSelector
        let euroText := strings.TrimSpace (goquery.Text selection)
        if euroText = [] then .error (.errorf notFoundMessage)
        else
          let euroText := strings.ReplaceAll euroText ",".toList ".".toList
          match fmt.Sscanf euroText with
          | .error err =>
            .error (.errorf ("error convirtiendo el texto a float: ".toList ++ err))
          | .ok euroValue => .ok euroValue

/-- The URL `euroHandler` fetches. -/
def urlBCV : Str := "https://www.bcv.org.ve/".toList

/-- `euroHandler(w, r)` of `main.go`; the request `r` is not read. -/
def euroHandler (Get : Str → Except Str http.Response) (w : http.ResponseWriter) :
    http.ResponseWriter :=
  match getEuroPrice Get urlBCV with
  | .error err => http.Error w err.Error http.StatusInternalServerError
  | .ok precio =>
    let w := w.Set "Content-Type".toList "application/json".toList
    w.Write ("\x7b\"euro_price\": ".toList ++ fmt.formatFloat8 precio ++ "\x7d".toList)

/-! ## Fixtures and the notions the statements use -/

/-- A text node. -/
def textNode (s : Str) : html.Node := .mk .TextNode s [] []

/-- An element with a `class` attribute. -/
def element (tag cls : Str) (children : List html.Node) : html.Node :=
  .mk .ElementNode tag [⟨[], "class".toList, cls⟩] children

/-- A document whose body holds, for each text given, a marker `div` with one
`strong` that holds the text. -/
def pageOf (texts : List Str) : html.Node :=
  .mk .DocumentNode [] [] [element "html".toList [] [element "body".toList []
    (texts.map fun t => element "div".toList "col-sm-6 col-xs-6 centrado".toList
      [element "strong".toList [] [textNode t]])]]

/-- An upstream that answers every URL with status 200 and the page of `texts`. -/
def serve (texts : List Str) : Str → Except Str http.Response :=
  fun _ => .ok ⟨200, "200 OK".toList, .ok (pageOf texts)⟩

/-- An upstream that answers every URL with the given status and an empty page. -/
def serveStatus (code : Int) (status : Str) : Str → Except Str http.Response :=
  fun _ => .ok ⟨code, status, .ok (pageOf [])⟩

/-- The number a string of decimal digits denotes. -/
def digitsValue (s : Str) : Nat := s.foldl (fun acc c => acc * 10 + strconv.digitVal c) 0

/-- Fixed-point notation with exactly `prec` digits after the decimal point: an
optional minus sign, one or more digits, a period, `prec` digits. -/
def isFixedPoint (prec : Nat) (s : Str) : Bool :=
  let body := match s with
    | c :: r => if c = '-' then r else s
    | [] => s
  let ip := body.takeWhile strconv.isDigit
  !ip.isEmpty && match body.dropWhile strconv.isDigit with
    | '.' :: fr => fr.length == prec && fr.all strconv.isDigit
    | _ => false

/-- The scanner with more input behind its input. -/
def fmt.ss.extend (s : fmt.ss) (t : Str) : fmt.ss := ⟨s.buf, s.input ++ t⟩

/-- The characters `floatToken` can accept. -/
def fmt.tokenChars : Str := "nNaAiIfFxXpP+-._".toList ++ fmt.hexadecimalDigits

/-- The string starts with a decimal digit. -/
def headIsDigit : Str → Bool
  | d :: _ => strconv.isDigit d
  | [] => false

/-- The string starts with a period and a decimal digit. -/
def headIsDotDigit : Str → Bool
  | c :: d :: _ => c = '.' && strconv.isDigit d
  | _ => false

/-- The string without a leading sign. -/
def stripSign : Str → Str
  | c :: r => if c = '+' ∨ c = '-' then r else c :: r
  | [] => []

/-- The text begins like a number that the scanner can convert: an optional sign
followed by a digit or by a period and a digit, or an optionally signed "inf", or
"nan", in any letter case. -/
def startsNumber (s : Str) : Bool :=
  headIsDigit (stripSign s) || headIsDotDigit (stripSign s)
    || strconv.commonPrefixLenIgnoreCase (stripSign s) "inf".toList = 3
    || strconv.commonPrefixLenIgnoreCase s "nan".toList = 3

/-- The finite values of binary64: a 53-bit significand with a binary exponent
between -1074 and 971, the significand normalized above the subnormal range.
NaN and the infinities count as canonical. -/
def Float64.isCanonical : Float64 → Bool
  | .Finite _ mant exp =>
    decide (mant < 2 ^ 53) && decide (-1074 ≤ exp) && decide (exp ≤ 971)
      && (decide (2 ^ 52 ≤ mant) || decide (exp = -1074))
  | _ => true

/-- The decimal number that the digits `ds1`, a decimal separator and the digits
`ds2` denote. -/
def decimalValue (ds1 ds2 : Str) : ℚ :=
  (digitsValue (ds1 ++ ds2) : ℚ) / ((10 ^ ds2.length : Nat) : ℚ)

/-! ## The handler, given the outcome of `getEuroPrice` -/

theorem euroHandler_of_error (Get : Str → Except Str http.Response) (err : error)
    (h : getEuroPrice Get urlBCV = .error err) :
    euroHandler Get http.ResponseWriter.new =
      ⟨[("Content-Type".toList, "text/plain; charset=utf-8".toList),
        ("X-Content-Type-Options".toList, "nosniff".toList)], true, 500,
        err.Error ++ ['\n']⟩ := by
  unfold euroHandler
  rw [h]
  simp only [http.Error, http.ResponseWriter.Write, http.ResponseWriter.WriteHeader,
    http.ResponseWriter.Set, http.ResponseWriter.Del, http.ResponseWriter.new,
    http.StatusInternalServerError]
  simp

theorem euroHandler_of_ok (Get : Str → Except Str http.Response) (precio : Float64)
    (h : getEuroPrice Get urlBCV = .ok precio) :
    euroHandler Get http.ResponseWriter.new =
      ⟨[("Content-Type".toList, "application/json".toList)], true, 200,
        "\x7b\"euro_price\": ".toList ++ fmt.formatFloat8 precio ++ "\x7d".toList⟩ := by
  unfold euroHandler
  rw [h]
  simp only [http.ResponseWriter.Write, http.ResponseWriter.WriteHeader,
    http.ResponseWriter.Set, http.ResponseWriter.new]
  simp

/-- On a 200 response with a parsed document, `getEuroPrice` is its last three
steps on the trimmed text of the selection. -/
theorem getEuroPrice_of_document (Get : Str → Except Str http.Response) (url : Str)
    (resp : http.Response) (doc : html.Node) (hget : Get url = .ok resp)
    (hcode : resp.StatusCode = 200) (hbody : resp.Body = .ok doc) :
    getEuroPrice Get url =
      (if strings.TrimSpace (goquery.Text (goquery.Find doc euroSelector)) = [] then
        .error (.errorf notFoundMessage)
       else
        match fmt.Sscanf (strings.ReplaceAll
            (strings.TrimSpace (goquery.Text (goquery.Find doc euroSelector)))
            ",".toList ".".toList) with
        | .error err => .error (.errorf ("error convirtiendo el texto a float: ".toList ++ err))
        | .ok euroValue => .ok euroValue) := by
  unfold getEuroPrice
  rw [hget]
  simp only [hcode, hbody, goquery.NewDocumentFromReader, ne_eq, not_true_eq_false, if_false]

/-! ## `strings.ReplaceAll` and `strings.TrimSpace` -/

theorem replaceLoop_comma (s : Str) :
    strings.replaceLoop [','] ['.'] 0 s = s.map (fun c => if c = ',' then '.' else c) := by
  induction s with
  | nil => rfl
  | cons c cs ih =>
    by_cases hc : c = ','
    · subst hc
      simp [strings.replaceLoop, List.isPrefixOf, ih]
    · have hc2 : (',' == c) = false := by
        simp only [beq_eq_false_iff_ne, ne_eq]
        exact fun h => hc h.symm
      simp [strings.replaceLoop, List.isPrefixOf, ih, hc, hc2]

/-- The normalization of `getEuroPrice` maps every comma to a period and leaves
every other character alone. -/
theorem ReplaceAll_comma (s : Str) :
    strings.ReplaceAll s ",".toList ".".toList = s.map (fun c => if c = ',' then '.' else c) := by
  have h : strings.ReplaceAll s ",".toList ".".toList = strings.replaceLoop [','] ['.'] 0 s := by
    unfold strings.ReplaceAll
    rfl
  rw [h, replaceLoop_comma]

theorem TrimLeftSpace_head (s : Str) (c : Char) (r : Str)
    (h : strings.TrimLeftSpace s = c :: r) : unicode.IsSpace c = false := by
  induction s with
  | nil => simp [strings.TrimLeftSpace] at h
  | cons a as ih =>
    unfold strings.TrimLeftSpace at h
    by_cases ha : unicode.IsSpace a = true
    · rw [if_pos ha] at h; exact ih h
    · rw [if_neg ha] at h
      injection h with h1 h2
      subst h1
      simpa using ha

theorem TrimLeftSpace_suffix (s : Str) : strings.TrimLeftSpace s <:+ s := by
  induction s with
  | nil => exact List.suffix_refl _
  | cons a as ih =>
    unfold strings.TrimLeftSpace
    by_cases ha : unicode.IsSpace a = true
    · rw [if_pos ha]; exact ih.trans (List.suffix_cons a as)
    · rw [if_neg ha]

theorem TrimLeftSpace_of_head (c : Char) (r : Str) (h : unicode.IsSpace c = false) :
    strings.TrimLeftSpace (c :: r) = c :: r := by
  simp [strings.TrimLeftSpace, h]

theorem TrimLeftSpace_append (x y : Str) :
    strings.TrimLeftSpace (x ++ y)
      = if strings.TrimLeftSpace x = [] then strings.TrimLeftSpace y
        else strings.TrimLeftSpace x ++ y := by
  induction x with
  | nil => simp [strings.TrimLeftSpace]
  | cons a as ih =>
    by_cases ha : unicode.IsSpace a = true
    · have h1 : strings.TrimLeftSpace (a :: as ++ y) = strings.TrimLeftSpace (as ++ y) := by
        show strings.TrimLeftSpace (a :: (as ++ y)) = _
        simp [strings.TrimLeftSpace, ha]
      have h2 : strings.TrimLeftSpace (a :: as) = strings.TrimLeftSpace as := by
        simp [strings.TrimLeftSpace, ha]
      rw [h1, h2, ih]
    · simp [strings.TrimLeftSpace, ha]

/-- The trimmed text is a prefix of the text without its leading white space. -/
theorem TrimSpace_prefix (s : Str) : strings.TrimSpace s <+: strings.TrimLeftSpace s := by
  unfold strings.TrimSpace
  have h := TrimLeftSpace_suffix (strings.TrimLeftSpace s).reverse
  have h2 := List.reverse_prefix.mpr h
  simpa using h2

/-- The trimmed text starts with a character that is no white space. -/
theorem TrimSpace_head (s : Str) (c : Char) (r : Str) (h : strings.TrimSpace s = c :: r) :
    unicode.IsSpace c = false := by
  have hp := TrimSpace_prefix s
  rw [h] at hp
  obtain ⟨t, ht⟩ := hp
  exact TrimLeftSpace_head s c (r ++ t) (by rw [← ht]; rfl)

/-! ## The float token is a prefix of the input -/

theorem accept_buf_input (s : fmt.ss) (ok : Str) :
    (s.accept ok).2.buf ++ (s.accept ok).2.input = s.buf ++ s.input := by
  unfold fmt.ss.accept
  cases h : s.input with
  | nil => simp [h]
  | cons r rest =>
    by_cases hr : r ∈ ok
    · simp [hr]
    · simp [hr, h]

theorem acceptLoop_buf_input (ok : Str) (buf input : Str) :
    (fmt.acceptLoop ok buf input).buf ++ (fmt.acceptLoop ok buf input).input = buf ++ input := by
  induction input generalizing buf with
  | nil => simp [fmt.acceptLoop]
  | cons r rest ih =>
    unfold fmt.acceptLoop
    by_cases hr : ok.contains r = true
    · rw [if_pos hr, ih]; simp
    · rw [if_neg hr]

theorem acceptAll_buf_input (s : fmt.ss) (ok : Str) :
    (s.acceptAll ok).buf ++ (s.acceptAll ok).input = s.buf ++ s.input :=
  acceptLoop_buf_input ok s.buf s.input

theorem accept3_buf_input (s : fmt.ss) (a b c : Str) :
    (s.accept3 a b c).2.buf ++ (s.accept3 a b c).2.input = s.buf ++ s.input := by
  unfold fmt.ss.accept3
  simp only
  split
  · split
    · rw [accept_buf_input, accept_buf_input, accept_buf_input]
    · rw [accept_buf_input, accept_buf_input]
  · rw [accept_buf_input]

theorem scanExponent_buf_input (s : fmt.ss) (exp : Str) :
    (s.scanExponent exp).buf ++ (s.scanExponent exp).input = s.buf ++ s.input := by
  unfold fmt.ss.scanExponent
  simp only
  split
  · rw [acceptAll_buf_input, accept_buf_input, accept_buf_input]
  · rw [accept_buf_input]

theorem scanFraction_buf_input (s : fmt.ss) (digits : Str) :
    (s.scanFraction digits).buf ++ (s.scanFraction digits).input = s.buf ++ s.input := by
  unfold fmt.ss.scanFraction
  simp only
  split
  · rw [acceptAll_buf_input, accept_buf_input]
  · rw [accept_buf_input]

theorem scanNumber_buf_input (s : fmt.ss) :
    s.scanNumber.buf ++ s.scanNumber.input = s.buf ++ s.input := by
  unfold fmt.ss.scanNumber
  simp only
  rw [scanExponent_buf_input, scanFraction_buf_input, acceptAll_buf_input]
  split
  · rw [accept_buf_input, accept_buf_input]
  · rw [accept_buf_input]

/-- What `floatToken` returns is the buffer of the scanner it leaves, and buffer
and unread input together are the input. -/
theorem floatToken_buf_input (input : Str) :
    (fmt.floatToken input).1 = (fmt.floatToken input).2.buf
      ∧ (fmt.floatToken input).2.buf ++ (fmt.floatToken input).2.input = input := by
  unfold fmt.floatToken
  simp only
  split
  · exact ⟨rfl, by simp [accept3_buf_input]⟩
  · split
    · exact ⟨rfl, by simp [accept3_buf_input, accept_buf_input]⟩
    · exact ⟨rfl, by simp [scanNumber_buf_input, accept3_buf_input, accept_buf_input]⟩

/-- The float token is a prefix of the scanner's input. -/
theorem floatToken_prefix (input : Str) : (fmt.floatToken input).1 <+: input := by
  obtain ⟨h1, h2⟩ := floatToken_buf_input input
  exact ⟨(fmt.floatToken input).2.input, by rw [h1, h2]⟩

/-! ## Input after a character the scanner never accepts does not change the token -/

theorem accept_extend (s : fmt.ss) (ok : Str) (w : Char) (y : Str) (hw : w ∉ ok) :
    (s.extend (w :: y)).accept ok = ((s.accept ok).1, (s.accept ok).2.extend (w :: y)) := by
  unfold fmt.ss.accept fmt.ss.extend
  cases h : s.input with
  | nil => simp [hw, h]
  | cons r rest =>
    by_cases hr : r ∈ ok
    · simp [hr]
    · simp [hr, h]

theorem acceptLoop_extend (ok : Str) (w : Char) (y : Str) (hw : w ∉ ok) (buf input : Str) :
    fmt.acceptLoop ok buf (input ++ w :: y) = (fmt.acceptLoop ok buf input).extend (w :: y) := by
  induction input generalizing buf with
  | nil => simp [fmt.acceptLoop, hw, fmt.ss.extend]
  | cons r rest ih =>
    by_cases hr : r ∈ ok
    · have h1 : fmt.acceptLoop ok buf (r :: rest ++ w :: y)
          = fmt.acceptLoop ok (buf ++ [r]) (rest ++ w :: y) := by
        show fmt.acceptLoop ok buf (r :: (rest ++ w :: y)) = _
        simp [fmt.acceptLoop, hr]
      have h2 : fmt.acceptLoop ok buf (r :: rest) = fmt.acceptLoop ok (buf ++ [r]) rest := by
        simp [fmt.acceptLoop, hr]
      rw [h1, h2, ih]
    · simp [fmt.acceptLoop, hr, fmt.ss.extend]

theorem acceptAll_extend (s : fmt.ss) (ok : Str) (w : Char) (y : Str) (hw : w ∉ ok) :
    (s.extend (w :: y)).acceptAll ok = (s.acceptAll ok).extend (w :: y) := by
  unfold fmt.ss.acceptAll
  exact acceptLoop_extend ok w y hw s.buf s.input

theorem accept3_extend (s : fmt.ss) (a b c : Str) (w : Char) (y : Str)
    (ha : w ∉ a) (hb : w ∉ b) (hc : w ∉ c) :
    (s.extend (w :: y)).accept3 a b c
      = ((s.accept3 a b c).1, (s.accept3 a b c).2.extend (w :: y)) := by
  unfold fmt.ss.accept3
  simp only [accept_extend s a w y ha]
  split
  · simp only [accept_extend _ b w y hb]
    split
    · simp only [accept_extend _ c w y hc]
    · rfl
  · rfl

theorem not_mem_of_tokenChars (w : Char) (hw : w ∉ fmt.tokenChars) (ok : Str)
    (hok : ∀ c ∈ ok, c ∈ fmt.tokenChars) : w ∉ ok :=
  fun h => hw (hok w h)

theorem scanExponent_extend (s : fmt.ss) (exp : Str) (w : Char) (y : Str)
    (hw : w ∉ fmt.tokenChars) (hexp : ∀ c ∈ exp, c ∈ fmt.tokenChars) :
    (s.extend (w :: y)).scanExponent exp = (s.scanExponent exp).extend (w :: y) := by
  unfold fmt.ss.scanExponent
  simp only [accept_extend s exp w y (not_mem_of_tokenChars w hw exp hexp)]
  split
  · rw [accept_extend _ fmt.sign w y (not_mem_of_tokenChars w hw _ (by decide))]
    simp only
    rw [acceptAll_extend _ _ w y (not_mem_of_tokenChars w hw _ (by decide))]
  · rfl

theorem scanFraction_extend (s : fmt.ss) (digits : Str) (w : Char) (y : Str)
    (hw : w ∉ fmt.tokenChars) (hd : ∀ c ∈ digits, c ∈ fmt.tokenChars) :
    (s.extend (w :: y)).scanFraction digits = (s.scanFraction digits).extend (w :: y) := by
  unfold fmt.ss.scanFraction
  simp only [accept_extend s fmt.period w y (not_mem_of_tokenChars w hw _ (by decide))]
  split
  · rw [acceptAll_extend _ _ w y (not_mem_of_tokenChars w hw _ hd)]
  · rfl

theorem scanNumber_extend (s : fmt.ss) (w : Char) (y : Str) (hw : w ∉ fmt.tokenChars) :
    (s.extend (w :: y)).scanNumber = s.scanNumber.extend (w :: y) := by
  unfold fmt.ss.scanNumber
  simp only [accept_extend s "0".toList w y (not_mem_of_tokenChars w hw _ (by decide))]
  split
  · simp only [accept_extend _ "xX".toList w y (not_mem_of_tokenChars w hw _ (by decide))]
    split
    · rw [acceptAll_extend _ _ w y (not_mem_of_tokenChars w hw _ (by decide)),
        scanFraction_extend _ _ w y hw (by decide), scanExponent_extend _ _ w y hw (by decide)]
    · rw [acceptAll_extend _ _ w y (not_mem_of_tokenChars w hw _ (by decide)),
        scanFraction_extend _ _ w y hw (by decide), scanExponent_extend _ _ w y hw (by decide)]
  · simp only [Bool.false_eq_true, if_false]
    rw [acceptAll_extend _ _ w y (not_mem_of_tokenChars w hw _ (by decide)),
      scanFraction_extend _ _ w y hw (by decide), scanExponent_extend _ _ w y hw (by decide)]

/-- The float token does not depend on what follows a character that
`floatToken` never accepts. -/
theorem floatToken_extend (input : Str) (w : Char) (y : Str) (hw : w ∉ fmt.tokenChars) :
    (fmt.floatToken (input ++ w :: y)).1 = (fmt.floatToken input).1 := by
  unfold fmt.floatToken
  have h0 : (⟨[], input ++ w :: y⟩ : fmt.ss) = (⟨[], input⟩ : fmt.ss).extend (w :: y) := rfl
  simp only [h0]
  rw [accept3_extend _ _ _ _ w y (not_mem_of_tokenChars w hw _ (by decide))
    (not_mem_of_tokenChars w hw _ (by decide)) (not_mem_of_tokenChars w hw _ (by decide))]
  simp only
  split
  · rfl
  · rw [accept_extend _ fmt.sign w y (not_mem_of_tokenChars w hw _ (by decide))]
    simp only
    rw [accept3_extend _ _ _ _ w y (not_mem_of_tokenChars w hw _ (by decide))
      (not_mem_of_tokenChars w hw _ (by decide)) (not_mem_of_tokenChars w hw _ (by decide))]
    simp only
    split
    · rfl
    · rw [scanNumber_extend _ w y hw]
      rfl

theorem space_not_tokenChar (w : Char) (hw : unicode.IsSpace w = true) : w ∉ fmt.tokenChars := by
  intro h
  have : ∀ c ∈ fmt.tokenChars, unicode.IsSpace c = false := by decide
  rw [this w h] at hw
  exact Bool.false_ne_true hw

theorem roundFloat64_finite (neg : Bool) (num den : Nat) (f : Float64)
    (h : roundFloat64 neg num den = some f) : ∃ m e, f = .Finite neg m e := by
  unfold roundFloat64 at h
  split at h
  · exact ⟨_, _, (Option.some.inj h).symm⟩
  · simp only at h
    split at h
    · split at h
      · exact absurd h (by simp)
      · exact ⟨_, _, (Option.some.inj h).symm⟩
    · split at h
      · exact absurd h (by simp)
      · exact ⟨_, _, (Option.some.inj h).symm⟩

theorem readFloatFinish_neg (s : Str) (neg hex : Bool) (mantissa nd : Nat) (dp : Int)
    (u : Bool) (unread : Str) (p : strconv.floatParts)
    (h : strconv.readFloatFinish s neg hex mantissa nd dp u unread = some p) :
    p.neg = neg ∧ p.hex = hex := by
  unfold strconv.readFloatFinish at h
  simp only at h
  split at h
  · exact absurd h (by simp)
  · have := Option.some.inj h
    subst this
    exact ⟨rfl, rfl⟩

theorem readExponent_neg (s : Str) (neg hex : Bool) (st : strconv.mantState) (unread : Str)
    (p : strconv.floatParts) (h : strconv.readExponent s neg hex st unread = some p) :
    p.neg = neg ∧ p.hex = hex := by
  unfold strconv.readExponent at h
  simp only at h
  repeat' split at h
  all_goals first
    | exact readFloatFinish_neg _ _ _ _ _ _ _ _ _ h
    | exact Option.noConfusion h

theorem readFloat_neg (c : Char) (r : Str) (p : strconv.floatParts)
    (h : strconv.readFloat (c :: r) = some p) : p.neg = decide (c = '-') := by
  unfold strconv.readFloat at h
  simp only at h
  repeat' split at h
  all_goals first
    | exact (readExponent_neg _ _ _ _ _ _ h).1
    | exact Option.noConfusion h

theorem floatParts_round_finite (p : strconv.floatParts) (f : Float64)
    (h : p.round = some f) : ∃ m e, f = .Finite p.neg m e := by
  unfold strconv.floatParts.round at h
  simp only at h
  split at h
  · exact roundFloat64_finite _ _ _ _ h
  · exact roundFloat64_finite _ _ _ _ h

/-- A string that starts with a digit or a period parses, if it parses, to a
finite value with a clear sign bit. -/
theorem ParseFloat_unsigned (c : Char) (r : Str) (v : Float64)
    (hc : strconv.isDigit c = true ∨ c = '.') (h : strconv.ParseFloat (c :: r) = .ok v) :
    ∃ m e, v = .Finite false m e := by
  have hs : strconv.special (c :: r) = none := by
    unfold strconv.special
    rcases hc with hc | hc
    · have h1 : ¬ (c = '+' ∨ c = '-') := by
        rintro (h | h) <;> · subst h; exact absurd hc (by decide)
      have h2 : ¬ (c = 'i' ∨ c = 'I') := by
        rintro (h | h) <;> · subst h; exact absurd hc (by decide)
      have h3 : ¬ (c = 'n' ∨ c = 'N') := by
        rintro (h | h) <;> · subst h; exact absurd hc (by decide)
      simp only [h1, h2, h3, if_false]
    · subst hc
      simp
  have hneg : decide (c = '-') = false := by
    rcases hc with hc | hc
    · simp only [decide_eq_false_iff_not]
      intro h; subst h; exact absurd hc (by decide)
    · subst hc; decide
  unfold strconv.ParseFloat at h
  rw [hs] at h
  simp only at h
  split at h
  · exact absurd h (by simp)
  · rename_i p hp
    split at h
    · exact absurd h (by simp)
    · split at h
      · rename_i f hf
        obtain ⟨m, e, hm⟩ := floatParts_round_finite p f hf
        have hn := readFloat_neg c r p hp
        rw [hneg] at hn
        rw [hn] at hm
        have hv : f = v := by simpa using h
        exact ⟨m, e, hv ▸ hm⟩
      · exact absurd h (by simp)

theorem indexRune_none (s : Str) (c : Char) (h : c ∉ s) : fmt.indexRune s c = none := by
  induction s with
  | nil => rfl
  | cons a as ih =>
    have h1 : a ≠ c := fun e => h (by simp [e])
    have h2 : c ∉ as := fun e => h (by simp [e])
    simp [fmt.indexRune, h1, ih h2]

theorem SkipSpace_of_head (c : Char) (r : Str) (h : unicode.IsSpace c = false) :
    fmt.SkipSpace (c :: r) = .ok (c :: r) := by
  have h1 : c ≠ '\n' := by
    intro e; subst e; exact absurd h (by decide)
  simp [fmt.SkipSpace, h, h1]

/-- On input that starts with a character that is no white space, `Sscanf`
converts the float token of the input. -/
theorem Sscanf_of_head (c : Char) (r : Str) (h : unicode.IsSpace c = false) :
    fmt.Sscanf (c :: r) = fmt.convertFloat (fmt.floatToken (c :: r)).1 := by
  unfold fmt.Sscanf
  simp [SkipSpace_of_head c r h]

theorem convertFloat_of_no_p (tok : Str) (hp : 'p' ∉ tok) :
    fmt.convertFloat tok =
      match strconv.ParseFloat tok with
      | .error e => .error (strconv.NumError.Error "ParseFloat".toList tok e)
      | .ok f => .ok f := by
  unfold fmt.convertFloat
  have h : (if fmt.hasX tok = true then none else fmt.indexRune tok 'p') = none := by
    rw [indexRune_none tok 'p' hp]; simp
  simp only [h]

theorem convertFloat_ok_of_no_p (tok : Str) (hp : 'p' ∉ tok) (v : Float64)
    (h : fmt.convertFloat tok = .ok v) : strconv.ParseFloat tok = .ok v := by
  rw [convertFloat_of_no_p tok hp] at h
  split at h
  · exact absurd h (by simp)
  · rename_i f hf
    rw [hf]
    simpa using h

theorem TrimLeftSpace_decomp (s : Str) :
    ∃ sp : Str, s = sp ++ strings.TrimLeftSpace s ∧ ∀ c ∈ sp, unicode.IsSpace c = true := by
  induction s with
  | nil => exact ⟨[], rfl, by simp⟩
  | cons a as ih =>
    by_cases ha : unicode.IsSpace a = true
    · obtain ⟨sp, h1, h2⟩ := ih
      refine ⟨a :: sp, ?_, ?_⟩
      · have : strings.TrimLeftSpace (a :: as) = strings.TrimLeftSpace as := by
          simp [strings.TrimLeftSpace, ha]
        rw [this, List.cons_append, ← h1]
      · intro c hc
        rcases List.mem_cons.mp hc with h | h
        · rw [h]; exact ha
        · exact h2 c h
    · refine ⟨[], ?_, by simp⟩
      simp [strings.TrimLeftSpace, ha]

theorem normalize_space (w : Char) (hw : unicode.IsSpace w = true) :
    (if w = ',' then '.' else w) = w := by
  have : w ≠ ',' := by intro e; subst e; exact absurd hw (by decide)
  simp [this]

theorem normalize_not_space (c : Char) (hc : unicode.IsSpace c = false) :
    unicode.IsSpace (if c = ',' then '.' else c) = false := by
  by_cases h : c = ','
  · simp only [h, if_true]; decide
  · simp only [h, if_false]; exact hc

/-- Trimming a text that ends in white space, with more text behind it: the
trimmed text of the first part, alone or followed by white space and more. -/
theorem TrimSpace_append_padded (pre r : Str) (w : Char) (hw : unicode.IsSpace w = true)
    (hcore : strings.TrimSpace (pre ++ [w]) ≠ []) :
    strings.TrimSpace (pre ++ [w] ++ r) = strings.TrimSpace (pre ++ [w])
      ∨ ∃ (w1 : Char) (y : Str), unicode.IsSpace w1 = true
          ∧ strings.TrimSpace (pre ++ [w] ++ r) = strings.TrimSpace (pre ++ [w]) ++ w1 :: y := by
  have hU : strings.TrimLeftSpace (pre ++ [w]) ≠ [] := by
    intro h
    have hp := TrimSpace_prefix (pre ++ [w])
    rw [h] at hp
    exact hcore (List.prefix_nil.mp hp)
  have hTL : strings.TrimLeftSpace (pre ++ [w] ++ r) = strings.TrimLeftSpace (pre ++ [w]) ++ r := by
    rw [TrimLeftSpace_append, if_neg hU]
  unfold strings.TrimSpace
  rw [hTL, List.reverse_append, TrimLeftSpace_append]
  by_cases hr : strings.TrimLeftSpace r.reverse = []
  · left
    rw [if_pos hr]
  · right
    rw [if_neg hr]
    -- the text without leading space ends in `w`
    obtain ⟨a, ha⟩ := TrimLeftSpace_suffix (pre ++ [w])
    have hrev : (strings.TrimLeftSpace (pre ++ [w])).reverse ++ a.reverse = w :: pre.reverse := by
      rw [← List.reverse_append, ha]; simp
    cases hu : (strings.TrimLeftSpace (pre ++ [w])).reverse with
    | nil => exact absurd (List.reverse_eq_nil_iff.mp hu) hU
    | cons u us =>
      rw [hu] at hrev
      have huw : u = w := by
        simp only [List.cons_append, List.cons.injEq] at hrev
        exact hrev.1
      obtain ⟨sp, hsp1, hsp2⟩ := TrimLeftSpace_decomp us
      have htl : strings.TrimLeftSpace (u :: us) = strings.TrimLeftSpace us := by
        simp [strings.TrimLeftSpace, huw, hw]
      have hrv : (u :: us).reverse = (strings.TrimLeftSpace us).reverse ++ (sp.reverse ++ [u]) := by
        rw [List.reverse_cons]
        conv_lhs => rw [hsp1]
        simp
      rw [htl, List.reverse_append, hrv]
      cases hsr : sp.reverse with
      | nil =>
        refine ⟨u, (strings.TrimLeftSpace r.reverse).reverse, huw ▸ hw, ?_⟩
        simp
      | cons s1 ss =>
        refine ⟨s1, ss ++ [u] ++ (strings.TrimLeftSpace r.reverse).reverse, ?_, ?_⟩
        · apply hsp2
          have : s1 ∈ sp.reverse := by rw [hsr]; simp
          exact List.mem_reverse.mp this
        · simp

/-- `Sscanf` reads the same value from a text and from that text followed by a
white space character and anything. -/
theorem Sscanf_extend (c : Char) (cr : Str) (w : Char) (y : Str)
    (hc : unicode.IsSpace c = false) (hw : unicode.IsSpace w = true) :
    fmt.Sscanf (c :: cr ++ w :: y) = fmt.Sscanf (c :: cr) := by
  rw [List.cons_append, Sscanf_of_head c _ hc, Sscanf_of_head c _ hc, ← List.cons_append,
    floatToken_extend _ w y (space_not_tokenChar w hw)]

/-- The last steps of `getEuroPrice` give the same result on the text of a first
element that ends in white space and on that text followed by more text. -/
theorem scan_padded_first (pre r : Str) (w : Char) (hw : unicode.IsSpace w = true)
    (hcore : strings.TrimSpace (pre ++ [w]) ≠ []) :
    fmt.Sscanf (strings.ReplaceAll (strings.TrimSpace (pre ++ [w] ++ r)) ",".toList ".".toList)
      = fmt.Sscanf (strings.ReplaceAll (strings.TrimSpace (pre ++ [w])) ",".toList ".".toList)
    ∧ strings.TrimSpace (pre ++ [w] ++ r) ≠ [] := by
  rcases TrimSpace_append_padded pre r w hw hcore with h | ⟨w1, y, hw1, h⟩
  · rw [h]; exact ⟨rfl, hcore⟩
  · rw [h]
    refine ⟨?_, by simp⟩
    cases hco : strings.TrimSpace (pre ++ [w]) with
    | nil => exact absurd hco hcore
    | cons c cr =>
      have hc := TrimSpace_head _ c cr hco
      rw [ReplaceAll_comma, ReplaceAll_comma, List.map_append, List.map_cons, List.map_cons,
        normalize_space w1 hw1]
      exact Sscanf_extend _ _ w1 _ (normalize_not_space c hc) hw1

theorem digitChar_toNat (d : Nat) (h : d < 10) : (strconv.digitChar d).toNat = 48 + d := by
  interval_cases d <;> rfl

theorem digitChar_isDigit (d : Nat) (h : d < 10) : strconv.isDigit (strconv.digitChar d) = true := by
  interval_cases d <;> rfl

theorem digitChar_digitVal (d : Nat) (h : d < 10) : strconv.digitVal (strconv.digitChar d) = d := by
  interval_cases d <;> rfl

theorem digitsValue_foldl (s : Str) (x : Nat) :
    s.foldl (fun acc c => acc * 10 + strconv.digitVal c) x = x * 10 ^ s.length + digitsValue s := by
  induction s generalizing x with
  | nil => simp [digitsValue]
  | cons c cs ih =>
    simp only [List.foldl_cons, digitsValue, List.length_cons]
    rw [ih, ih (0 * 10 + strconv.digitVal c)]
    ring

theorem digitsValue_append (a b : Str) :
    digitsValue (a ++ b) = digitsValue a * 10 ^ b.length + digitsValue b := by
  unfold digitsValue
  rw [List.foldl_append, digitsValue_foldl]
  rfl

theorem digitsValue_singleton (c : Char) : digitsValue [c] = strconv.digitVal c := by
  simp [digitsValue]

theorem formatBits_spec (fuel : Nat) : ∀ (n : Nat) (acc : Str), 0 < fuel → n < 10 ^ fuel →
    ∃ ds : Str, strconv.formatBits fuel n acc = ds ++ acc ∧ ds ≠ []
      ∧ (∀ c ∈ ds, strconv.isDigit c = true) ∧ digitsValue ds = n := by
  induction fuel with
  | zero => intro n acc h; exact absurd h (by decide)
  | succ k ih =>
    intro n acc _ hn
    unfold strconv.formatBits
    by_cases h10 : n < 10
    · rw [if_pos h10]
      refine ⟨[strconv.digitChar n], rfl, by simp, ?_, ?_⟩
      · intro c hc
        rw [List.mem_singleton.mp hc]
        exact digitChar_isDigit n h10
      · rw [digitsValue_singleton, digitChar_digitVal n h10]
    · rw [if_neg h10]
      have hk : 0 < k := by
        rcases Nat.eq_zero_or_pos k with h | h
        · subst h; simp at hn; omega
        · exact h
      have hdiv : n / 10 < 10 ^ k := by
        rw [Nat.div_lt_iff_lt_mul (by decide)]
        rw [pow_succ] at hn
        exact hn
      obtain ⟨ds, h1, h2, h3, h4⟩ := ih (n / 10) (strconv.digitChar (n % 10) :: acc) hk hdiv
      refine ⟨ds ++ [strconv.digitChar (n % 10)], by rw [h1]; simp, by simp, ?_, ?_⟩
      · intro c hc
        rcases List.mem_append.mp hc with h | h
        · exact h3 c h
        · rw [List.mem_singleton.mp h]
          exact digitChar_isDigit _ (Nat.mod_lt _ (by decide))
      · rw [digitsValue_append, h4, digitsValue_singleton,
          digitChar_digitVal _ (Nat.mod_lt _ (by decide))]
        simp
        omega

/-- `FormatUint` writes a non-empty string of decimal digits that denotes its argument. -/
theorem FormatUint_spec (n : Nat) :
    strconv.FormatUint n ≠ [] ∧ (∀ c ∈ strconv.FormatUint n, strconv.isDigit c = true)
      ∧ digitsValue (strconv.FormatUint n) = n := by
  have hlt : n < 10 ^ (n + 1) := by
    calc n < 2 ^ n := Nat.lt_two_pow n
      _ ≤ 10 ^ n := Nat.pow_le_pow_left (by decide) n
      _ ≤ 10 ^ (n + 1) := Nat.pow_le_pow_right (by decide) (Nat.le_succ n)
  obtain ⟨ds, h1, h2, h3, h4⟩ := formatBits_spec (n + 1) n [] (Nat.succ_pos n) hlt
  unfold strconv.FormatUint
  rw [h1, List.append_nil]
  exact ⟨h2, h3, h4⟩

/-- `padDigits width n` writes `width` decimal digits that denote `n % 10^width`. -/
theorem padDigits_spec (width : Nat) : ∀ n : Nat,
    (strconv.padDigits width n).length = width
      ∧ (∀ c ∈ strconv.padDigits width n, strconv.isDigit c = true)
      ∧ digitsValue (strconv.padDigits width n) = n % 10 ^ width := by
  induction width with
  | zero => intro n; simp [strconv.padDigits, digitsValue, Nat.mod_one]
  | succ k ih =>
    intro n
    obtain ⟨h1, h2, h3⟩ := ih (n / 10)
    unfold strconv.padDigits
    refine ⟨by simp [h1], ?_, ?_⟩
    · intro c hc
      rcases List.mem_append.mp hc with h | h
      · exact h2 c h
      · rw [List.mem_singleton.mp h]
        exact digitChar_isDigit _ (Nat.mod_lt _ (by decide))
    · rw [digitsValue_append, h3, digitsValue_singleton,
        digitChar_digitVal _ (Nat.mod_lt _ (by decide))]
      simp only [List.length_singleton, pow_one]
      rw [pow_succ, Nat.mul_comm (10 ^ k) 10, Nat.mod_mul]
      ring

/-! ## Rounding to the nearest integer, ties to even -/

/-- `roundHalfEven num den` is within one half of `num / den`. -/
theorem roundHalfEven_bounds (num den : Nat) (hd : 0 < den) :
    2 * (roundHalfEven num den * den) ≤ 2 * num + den
      ∧ 2 * num ≤ 2 * (roundHalfEven num den * den) + den := by
  have hsum : num / den * den + num % den = num := by
    rw [Nat.mul_comm]; exact Nat.div_add_mod num den
  have hmod := Nat.mod_lt num hd
  unfold roundHalfEven
  simp only
  split
  · generalize num / den * den = Q at *
    omega
  · split
    · rw [Nat.add_mul, one_mul]
      generalize num / den * den = Q at *
      omega
    · split
      · generalize num / den * den = Q at *
        omega
      · rw [Nat.add_mul, one_mul]
        generalize num / den * den = Q at *
        omega

theorem roundHalfEven_abs (num den : Nat) (hd : 0 < den) :
    |(roundHalfEven num den : ℚ) - (num : ℚ) / den| ≤ 1 / 2 := by
  obtain ⟨h1, h2⟩ := roundHalfEven_bounds num den hd
  have hd' : (0 : ℚ) < den := by exact_mod_cast hd
  have h1' : (2 : ℚ) * (roundHalfEven num den * den) ≤ 2 * num + den := by exact_mod_cast h1
  have h2' : (2 : ℚ) * num ≤ 2 * (roundHalfEven num den * den) + den := by exact_mod_cast h2
  have hy : (num : ℚ) / den * den = num := div_mul_cancel₀ _ (ne_of_gt hd')
  generalize (num : ℚ) / den = y at *
  generalize (roundHalfEven num den : ℚ) = x at *
  rw [← hy] at h1' h2'
  rw [abs_le]
  constructor
  · by_contra hc
    push_neg at hc
    have := mul_pos (sub_pos.mpr hc) hd'
    nlinarith
  · by_contra hc
    push_neg at hc
    have := mul_pos (sub_pos.mpr hc) hd'
    nlinarith

theorem zpow_neg_toNat (e : Int) (he : ¬ 0 ≤ e) :
    (2 : ℚ) ^ e = 1 / ((2 ^ (-e).toNat : Nat) : ℚ) := by
  have h : e = -((-e).toNat : Int) := by
    rw [Int.toNat_of_nonneg (by omega)]; ring
  conv_lhs => rw [h]
  rw [zpow_neg, zpow_natCast]
  simp

theorem zpow_nonneg_toNat (e : Int) (he : 0 ≤ e) :
    (2 : ℚ) ^ e = ((2 ^ e.toNat : Nat) : ℚ) := by
  conv_lhs => rw [← Int.toNat_of_nonneg he]
  rw [zpow_natCast]
  simp

/-- The digits `%.<prec>f` prints denote the value times `10^prec` to within one half. -/
theorem fixedDigits_abs (prec mant : Nat) (exp : Int) :
    |(strconv.fixedDigits prec mant exp : ℚ) - (mant : ℚ) * (2 : ℚ) ^ exp * 10 ^ prec| ≤ 1 / 2 := by
  unfold strconv.fixedDigits
  split
  · rename_i h
    rw [zpow_nonneg_toNat exp h]
    push_cast
    simp
  · rename_i h
    rw [zpow_neg_toNat exp h]
    have hpos : 0 < 2 ^ (-exp).toNat := Nat.pow_pos (by decide)
    have := roundHalfEven_abs (mant * 10 ^ prec) (2 ^ (-exp).toNat) hpos
    have e : ((mant * 10 ^ prec : Nat) : ℚ) / ((2 ^ (-exp).toNat : Nat) : ℚ)
        = (mant : ℚ) * (1 / ((2 ^ (-exp).toNat : Nat) : ℚ)) * 10 ^ prec := by
      push_cast; ring
    rw [e] at this
    exact this

theorem takeWhile_digits (ip fr : Str) (h : ∀ c ∈ ip, strconv.isDigit c = true) :
    (ip ++ '.' :: fr).takeWhile strconv.isDigit = ip
      ∧ (ip ++ '.' :: fr).dropWhile strconv.isDigit = '.' :: fr := by
  induction ip with
  | nil => exact ⟨by simp [List.takeWhile, show strconv.isDigit '.' = false from rfl],
      by simp [List.dropWhile, show strconv.isDigit '.' = false from rfl]⟩
  | cons a as ih =>
    have ha : strconv.isDigit a = true := h a (by simp)
    obtain ⟨h1, h2⟩ := ih (fun c hc => h c (by simp [hc]))
    exact ⟨by simp [List.takeWhile, ha, h1], by simp [List.dropWhile, ha, h2]⟩

theorem isFixedPoint_of_parts (prec : Nat) (neg : Bool) (ip fr : Str) (hne : ip ≠ [])
    (hip : ∀ c ∈ ip, strconv.isDigit c = true) (hfr : ∀ c ∈ fr, strconv.isDigit c = true)
    (hlen : fr.length = prec) :
    isFixedPoint prec ((if neg then ['-'] else []) ++ ip ++ '.' :: fr) = true := by
  obtain ⟨h1, h2⟩ := takeWhile_digits ip fr hip
  have hall : fr.all strconv.isDigit = true := List.all_eq_true.mpr hfr
  cases neg with
  | true =>
    simp only [if_true, List.cons_append, List.nil_append, List.append_assoc]
    unfold isFixedPoint
    simp only [if_true]
    rw [h1, h2]
    simp [hne, hlen, hall]
  | false =>
    simp only [Bool.false_eq_true, if_false, List.nil_append]
    cases ip with
    | nil => exact absurd rfl hne
    | cons a as =>
      have ha : a ≠ '-' := by
        intro e
        have := hip a (by simp)
        rw [e] at this
        exact absurd this (by decide)
      unfold isFixedPoint
      simp only [List.cons_append, ha, if_false]
      rw [← List.cons_append, h1, h2]
      simp [hlen, hall]

/-- The `%.8f` text of a finite value: sign, integer digits, period, eight digits,
denoting the value to within half a unit of the eighth decimal. -/
theorem formatFloat8_finite (neg : Bool) (mant : Nat) (exp : Int) :
    isFixedPoint 8 (fmt.formatFloat8 (.Finite neg mant exp)) = true
      ∧ ∃ ip fr : Str, fmt.formatFloat8 (.Finite neg mant exp)
            = (if neg then ['-'] else []) ++ ip ++ '.' :: fr
          ∧ fr.length = 8
          ∧ |((digitsValue ip : ℚ) + (digitsValue fr : ℚ) / 10 ^ 8)
              - (mant : ℚ) * (2 : ℚ) ^ exp| ≤ 1 / (2 * 10 ^ 8) := by
  obtain ⟨a1, a2, a3⟩ := FormatUint_spec (strconv.fixedDigits 8 mant exp / 10 ^ 8)
  obtain ⟨b1, b2, b3⟩ := padDigits_spec 8 (strconv.fixedDigits 8 mant exp % 10 ^ 8)
  have hfmt : fmt.formatFloat8 (.Finite neg mant exp)
      = (if neg then ['-'] else []) ++ strconv.FormatUint (strconv.fixedDigits 8 mant exp / 10 ^ 8)
        ++ '.' :: strconv.padDigits 8 (strconv.fixedDigits 8 mant exp % 10 ^ 8) := by
    simp [fmt.formatFloat8, strconv.FormatFloat]
  refine ⟨?_, _, _, hfmt, b1, ?_⟩
  · rw [hfmt]
    exact isFixedPoint_of_parts 8 neg _ _ a1 a2 b2 b1
  · rw [a3, b3, Nat.mod_mod]
    have hN : ((strconv.fixedDigits 8 mant exp / 10 ^ 8 : Nat) : ℚ)
        + ((strconv.fixedDigits 8 mant exp % 10 ^ 8 : Nat) : ℚ) / 10 ^ 8
        = (strconv.fixedDigits 8 mant exp : ℚ) / 10 ^ 8 := by
      have := Nat.div_add_mod (strconv.fixedDigits 8 mant exp) (10 ^ 8)
      have hq : ((10 ^ 8 * (strconv.fixedDigits 8 mant exp / 10 ^ 8)
          + strconv.fixedDigits 8 mant exp % 10 ^ 8 : Nat) : ℚ)
          = (strconv.fixedDigits 8 mant exp : ℚ) := by rw [this]
      push_cast at hq
      field_simp
      linarith
    rw [hN]
    have hb := fixedDigits_abs 8 mant exp
    have e : (strconv.fixedDigits 8 mant exp : ℚ) / 10 ^ 8 - (mant : ℚ) * (2 : ℚ) ^ exp
        = ((strconv.fixedDigits 8 mant exp : ℚ) - (mant : ℚ) * (2 : ℚ) ^ exp * 10 ^ 8) / 10 ^ 8 := by
      field_simp
      ring
    rw [e, abs_div, abs_of_pos (by positivity : (0 : ℚ) < 10 ^ 8), div_le_iff₀ (by positivity)]
    calc _ ≤ (1 : ℚ) / 2 := hb
      _ = 1 / (2 * 10 ^ 8) * 10 ^ 8 := by norm_num

theorem digitChar_eq (d : Nat) (h : d < 10) : strconv.digitChar d = Nat.digitChar d := by
  interval_cases d <;> rfl

/-- The loop of `strconv.FormatUint` writes the decimal numeral of Lean's
`Nat.toDigits`. -/
theorem formatBits_toDigits (fuel : Nat) : ∀ (n : Nat) (acc : Str),
    strconv.formatBits fuel n acc = Nat.toDigitsCore 10 fuel n acc := by
  induction fuel with
  | zero => intro n acc; rfl
  | succ k ih =>
    intro n acc
    unfold strconv.formatBits Nat.toDigitsCore
    by_cases h : n < 10
    · have h0 : n / 10 = 0 := Nat.div_eq_of_lt h
      have hm : n % 10 = n := Nat.mod_eq_of_lt h
      simp only [h, h0, hm, if_true]
      rw [digitChar_eq n h]
    · have h0 : n / 10 ≠ 0 := by omega
      simp only [h, h0, if_false]
      rw [ih, digitChar_eq (n % 10) (Nat.mod_lt n (by decide))]

theorem FormatUint_toDigits (n : Nat) : strconv.FormatUint n = Nat.toDigits 10 n := by
  unfold strconv.FormatUint Nat.toDigits
  exact formatBits_toDigits (n + 1) n []

/-! ## What `strconv.ParseFloat` accepts begins like a number -/

theorem commonPrefixLen_le (s pat : Str) :
    strconv.commonPrefixLenIgnoreCase s pat ≤ pat.length := by
  induction pat generalizing s with
  | nil => cases s <;> simp [strconv.commonPrefixLenIgnoreCase]
  | cons p ps ih =>
    cases s with
    | nil => simp [strconv.commonPrefixLenIgnoreCase]
    | cons c cs =>
      unfold strconv.commonPrefixLenIgnoreCase
      have := ih cs
      split
      · simp only [List.length_cons]
        omega
      · omega

/-- A full match of a pattern stays a full match when the string gets longer. -/
theorem commonPrefixLen_append (s t pat : Str)
    (h : strconv.commonPrefixLenIgnoreCase s pat = pat.length) :
    strconv.commonPrefixLenIgnoreCase (s ++ t) pat = pat.length := by
  induction pat generalizing s with
  | nil => cases s <;> cases t <;> simp [strconv.commonPrefixLenIgnoreCase]
  | cons p ps ih =>
    cases s with
    | nil => simp [strconv.commonPrefixLenIgnoreCase] at h
    | cons c cs =>
      unfold strconv.commonPrefixLenIgnoreCase at h
      rw [List.cons_append]
      unfold strconv.commonPrefixLenIgnoreCase
      split at h
      · rename_i hc
        rw [if_pos hc]
        simp only [List.length_cons, Nat.add_right_cancel_iff] at h
        rw [ih cs h]
        rfl
      · simp at h

/-- A match of three or more characters of "infinity" is a match of "inf". -/
theorem commonPrefixLen_inf (s : Str)
    (h : 3 ≤ strconv.commonPrefixLenIgnoreCase s "infinity".toList) :
    strconv.commonPrefixLenIgnoreCase s "inf".toList = 3 := by
  have e1 : "infinity".toList = ['i', 'n', 'f', 'i', 'n', 'i', 't', 'y'] := rfl
  have e2 : "inf".toList = ['i', 'n', 'f'] := rfl
  rw [e1] at h
  rw [e2]
  match s with
  | [] => simp [strconv.commonPrefixLenIgnoreCase] at h
  | [_] =>
    simp only [strconv.commonPrefixLenIgnoreCase] at h
    split at h <;> simp at h
  | [_, _] =>
    simp only [strconv.commonPrefixLenIgnoreCase] at h
    split at h
    · split at h <;> simp at h
    · simp at h
  | a :: b :: c :: r =>
    simp only [strconv.commonPrefixLenIgnoreCase] at h ⊢
    split at h
    · rename_i h1
      rw [if_pos h1]
      split at h
      · rename_i h2
        rw [if_pos h2]
        split at h
        · rename_i h3
          rw [if_pos h3]
        · simp at h
      · simp at h
    · simp at h

theorem startsNumber_append (s t : Str) (h : startsNumber s = true) :
    startsNumber (s ++ t) = true := by
  cases s with
  | nil => exact absurd h (by decide)
  | cons c r =>
    unfold startsNumber at h ⊢
    simp only [Bool.or_eq_true, decide_eq_true_eq] at h ⊢
    have hstrip : stripSign (c :: r ++ t) = stripSign (c :: r) ++ t := by
      simp only [List.cons_append, stripSign]
      split <;> rfl
    rw [hstrip]
    rcases h with ((h | h) | h) | h
    · left; left; left
      cases hu : stripSign (c :: r) with
      | nil => rw [hu] at h; simp [headIsDigit] at h
      | cons d ds => rw [hu] at h; exact h
    · left; left; right
      match hu : stripSign (c :: r), h with
      | a :: b :: ds, h => exact h
    · left; right
      exact commonPrefixLen_append _ t _ h
    · right
      exact commonPrefixLen_append (c :: r) t _ h

theorem readMantissa_underscores (hex : Bool) (s : Str) :
    ∀ st : strconv.mantState, st.underscores = true →
      (strconv.readMantissa hex st s).1.underscores = true := by
  induction s with
  | nil => intro st h; simpa [strconv.readMantissa] using h
  | cons c cs ih =>
    intro st h
    unfold strconv.readMantissa
    repeat' split
    all_goals first
      | exact h
      | exact ih _ h
      | exact ih _ rfl

theorem readMantissa_length (hex : Bool) (s : Str) :
    ∀ st : strconv.mantState, (strconv.readMantissa hex st s).2.length ≤ s.length := by
  induction s with
  | nil => intro st; simp [strconv.readMantissa]
  | cons c cs ih =>
    intro st
    unfold strconv.readMantissa
    repeat' split
    all_goals first
      | exact Nat.le_refl _
      | exact Nat.le_succ_of_le (ih _)

theorem readExpDigits_flag (s : Str) :
    ∀ e : Nat, (strconv.readExpDigits e true s).2.1 = true := by
  induction s with
  | nil => intro e; rfl
  | cons c cs ih =>
    intro e
    unfold strconv.readExpDigits
    repeat' split
    all_goals first
      | rfl
      | exact ih _

theorem readExpDigits_length (s : Str) :
    ∀ (e : Nat) (u : Bool), (strconv.readExpDigits e u s).2.2.length ≤ s.length := by
  induction s with
  | nil => intro e u; simp [strconv.readExpDigits]
  | cons c cs ih =>
    intro e u
    unfold strconv.readExpDigits
    repeat' split
    all_goals first
      | exact Nat.le_refl _
      | exact Nat.le_succ_of_le (ih _ _)

theorem readFloatFinish_underscore (s : Str) (neg hex : Bool) (mantissa nd : Nat) (dp : Int)
    (unread : Str) (p : strconv.floatParts)
    (h : strconv.readFloatFinish s neg hex mantissa nd dp true unread = some p) :
    strconv.underscoreOK (s.take (s.length - unread.length)) = true := by
  unfold strconv.readFloatFinish at h
  simp only [Bool.true_and] at h
  split at h
  · exact Option.noConfusion h
  · rename_i hn
    simpa using hn

/-- When the mantissa held an underscore and `readFloat` succeeds, the part of
the string that was read passed `underscoreOK`. -/
theorem readExponent_underscore (s : Str) (neg hex : Bool) (st : strconv.mantState)
    (unread : Str) (p : strconv.floatParts) (hu : st.underscores = true)
    (h : strconv.readExponent s neg hex st unread = some p) :
    ∃ ur : Str, ur.length ≤ unread.length
      ∧ strconv.underscoreOK (s.take (s.length - ur.length)) = true := by
  unfold strconv.readExponent at h
  simp only at h
  rw [hu] at h
  repeat' split at h
  all_goals first
    | exact Option.noConfusion h
    | exact ⟨_, Nat.le_refl _, readFloatFinish_underscore _ _ _ _ _ _ _ _ h⟩
    | (rw [readExpDigits_flag] at h
       refine ⟨_, le_trans (readExpDigits_length _ _ _) ?_,
         readFloatFinish_underscore _ _ _ _ _ _ _ _ h⟩
       simp only [List.length_cons]
       omega)

theorem underscoreLoop_underscore (x : Str) :
    strconv.underscoreLoop false '^' ('_' :: x) = false := by
  simp [strconv.underscoreLoop, show strconv.isDigit '_' = false from rfl]

theorem underscoreLoop_dot_underscore (x : Str) :
    strconv.underscoreLoop false '^' ('.' :: '_' :: x) = false := by
  simp [strconv.underscoreLoop, show strconv.isDigit '_' = false from rfl,
    show strconv.isDigit '.' = false from rfl]

theorem underscoreOK_underscore (x : Str) : strconv.underscoreOK ('_' :: x) = false := by
  unfold strconv.underscoreOK
  cases x with
  | nil => simp [strconv.underscoreLoop, show strconv.isDigit '_' = false from rfl]
  | cons b cs => simp [underscoreLoop_underscore]

theorem underscoreOK_sign_underscore (c0 : Char) (x : Str) (h : c0 = '+' ∨ c0 = '-') :
    strconv.underscoreOK (c0 :: '_' :: x) = false := by
  unfold strconv.underscoreOK
  have h' : c0 = '-' ∨ c0 = '+' := h.symm
  simp only [h', if_true]
  cases x with
  | nil => simp [strconv.underscoreLoop, show strconv.isDigit '_' = false from rfl]
  | cons b cs => simp [underscoreLoop_underscore]

theorem underscoreOK_dot_underscore (x : Str) :
    strconv.underscoreOK ('.' :: '_' :: x) = false := by
  unfold strconv.underscoreOK
  simp [underscoreLoop_dot_underscore]

theorem underscoreOK_sign_dot_underscore (c0 : Char) (x : Str) (h : c0 = '+' ∨ c0 = '-') :
    strconv.underscoreOK (c0 :: '.' :: '_' :: x) = false := by
  unfold strconv.underscoreOK
  have h' : c0 = '-' ∨ c0 = '+' := h.symm
  simp only [h', if_true]
  simp [underscoreLoop_dot_underscore]

theorem readMantissa_not_sawdigits (a : Char) (t : Str) (st : strconv.mantState)
    (hs : st.sawdigits = false) (h1 : a ≠ '_') (h2 : a ≠ '.') (h3 : strconv.isDigit a = false) :
    (strconv.readMantissa false st (a :: t)).1.sawdigits = false := by
  unfold strconv.readMantissa
  simp [h1, h2, h3, hs]

/-- The mantissa that `readFloat` accepts starts with a digit, or with a period
and a digit. -/
theorem readMantissa_starts (s : Str) (neg : Bool) (s1 : Str) (p : strconv.floatParts)
    (hs : s = s1 ∨ ∃ c0, (c0 = '+' ∨ c0 = '-') ∧ s = c0 :: s1)
    (hd : (strconv.readMantissa false ⟨false, false, 0, 0, 0, false⟩ s1).1.sawdigits = true)
    (h : strconv.readExponent s neg false
      (strconv.readMantissa false ⟨false, false, 0, 0, 0, false⟩ s1).1
      (strconv.readMantissa false ⟨false, false, 0, 0, 0, false⟩ s1).2 = some p) :
    headIsDigit s1 = true ∨ headIsDotDigit s1 = true := by
  match s1, hs, hd, h with
  | [], _, hd, _ => simp [strconv.readMantissa] at hd
  | a :: t, hs, hd, h =>
    by_cases hdig : strconv.isDigit a = true
    · exact Or.inl hdig
    · have hdig' : strconv.isDigit a = false := by simpa using hdig
      by_cases hus : a = '_'
      · subst hus
        exfalso
        have e : strconv.readMantissa false ⟨false, false, 0, 0, 0, false⟩ ('_' :: t)
            = strconv.readMantissa false ⟨false, false, 0, 0, 0, true⟩ t := by
          simp [strconv.readMantissa]
        rw [e] at h
        obtain ⟨ur, hlen, hok⟩ := readExponent_underscore _ _ _ _ _ _
          (readMantissa_underscores false t _ rfl) h
        have hl := readMantissa_length false t ⟨false, false, 0, 0, 0, true⟩
        rcases hs with hs | ⟨c0, hc0, hs⟩
        · subst hs
          have : List.take (('_' :: t).length - ur.length) ('_' :: t)
              = '_' :: List.take (t.length - ur.length) t := by
            have : ('_' :: t).length - ur.length = (t.length - ur.length) + 1 := by
              simp only [List.length_cons]; omega
            rw [this, List.take_succ_cons]
          rw [this, underscoreOK_underscore] at hok
          exact Bool.false_ne_true hok
        · subst hs
          have : List.take ((c0 :: '_' :: t).length - ur.length) (c0 :: '_' :: t)
              = c0 :: '_' :: List.take (t.length - ur.length) t := by
            have : (c0 :: '_' :: t).length - ur.length = (t.length - ur.length) + 1 + 1 := by
              simp only [List.length_cons]; omega
            rw [this, List.take_succ_cons, List.take_succ_cons]
          rw [this, underscoreOK_sign_underscore c0 _ hc0] at hok
          exact Bool.false_ne_true hok
      · by_cases hdot : a = '.'
        · subst hdot
          have e : strconv.readMantissa false ⟨false, false, 0, 0, 0, false⟩ ('.' :: t)
              = strconv.readMantissa false ⟨true, false, 0, 0, 0, false⟩ t := by
            simp [strconv.readMantissa]
          rw [e] at h hd
          match t, hd, h with
          | [], hd, _ => simp [strconv.readMantissa] at hd
          | b :: t2, hd, h =>
            by_cases hb : strconv.isDigit b = true
            · right; simpa [headIsDotDigit] using hb
            · have hb' : strconv.isDigit b = false := by simpa using hb
              exfalso
              by_cases hbu : b = '_'
              · subst hbu
                have e2 : strconv.readMantissa false ⟨true, false, 0, 0, 0, false⟩ ('_' :: t2)
                    = strconv.readMantissa false ⟨true, false, 0, 0, 0, true⟩ t2 := by
                  simp [strconv.readMantissa]
                rw [e2] at h
                obtain ⟨ur, hlen, hok⟩ := readExponent_underscore _ _ _ _ _ _
                  (readMantissa_underscores false t2 _ rfl) h
                have hl := readMantissa_length false t2 ⟨true, false, 0, 0, 0, true⟩
                rcases hs with hs | ⟨c0, hc0, hs⟩
                · subst hs
                  have : List.take (('.' :: '_' :: t2).length - ur.length) ('.' :: '_' :: t2)
                      = '.' :: '_' :: List.take (t2.length - ur.length) t2 := by
                    have : ('.' :: '_' :: t2).length - ur.length
                        = (t2.length - ur.length) + 1 + 1 := by
                      simp only [List.length_cons]; omega
                    rw [this, List.take_succ_cons, List.take_succ_cons]
                  rw [this, underscoreOK_dot_underscore] at hok
                  exact Bool.false_ne_true hok
                · subst hs
                  have : List.take ((c0 :: '.' :: '_' :: t2).length - ur.length)
                      (c0 :: '.' :: '_' :: t2)
                      = c0 :: '.' :: '_' :: List.take (t2.length - ur.length) t2 := by
                    have : (c0 :: '.' :: '_' :: t2).length - ur.length
                        = (t2.length - ur.length) + 1 + 1 + 1 := by
                      simp only [List.length_cons]; omega
                    rw [this, List.take_succ_cons, List.take_succ_cons, List.take_succ_cons]
                  rw [this, underscoreOK_sign_dot_underscore c0 _ hc0] at hok
                  exact Bool.false_ne_true hok
              · by_cases hbd : b = '.'
                · subst hbd
                  simp [strconv.readMantissa] at hd
                · rw [readMantissa_not_sawdigits b t2 _ rfl hbu hbd hb'] at hd
                  exact Bool.false_ne_true hd
        · exfalso
          rw [readMantissa_not_sawdigits a t _ rfl hus hdot hdig'] at hd
          exact Bool.false_ne_true hd

theorem hasHexPrefix_head (s1 : Str) (h : strconv.hasHexPrefix s1 = true) :
    ∃ r, s1 = '0' :: r := by
  match s1, h with
  | a :: b :: c :: r, h =>
    simp only [strconv.hasHexPrefix, decide_eq_true_eq] at h
    exact ⟨b :: c :: r, by rw [h.1]⟩

/-- What `readFloat` accepts begins like a number. -/
theorem readFloat_starts (s : Str) (p : strconv.floatParts)
    (h : strconv.readFloat s = some p) : startsNumber s = true := by
  match s, h with
  | c0 :: rest, h =>
    unfold strconv.readFloat at h
    simp only at h
    unfold startsNumber
    simp only [Bool.or_eq_true, decide_eq_true_eq]
    left; left
    have hstrip : stripSign (c0 :: rest) = (if c0 = '+' ∨ c0 = '-' then rest else c0 :: rest) := rfl
    rw [hstrip]
    generalize hs1 : (if c0 = '+' ∨ c0 = '-' then rest else c0 :: rest) = s1 at h
    have hs : c0 :: rest = s1 ∨ ∃ c, (c = '+' ∨ c = '-') ∧ c0 :: rest = c :: s1 := by
      by_cases hc : c0 = '+' ∨ c0 = '-'
      · rw [if_pos hc] at hs1
        exact Or.inr ⟨c0, hc, by rw [hs1]⟩
      · rw [if_neg hc] at hs1
        exact Or.inl hs1
    by_cases hhex : strconv.hasHexPrefix s1 = true
    · obtain ⟨r, hr⟩ := hasHexPrefix_head s1 hhex
      rw [hr]
      exact Or.inl rfl
    · have hhex' : strconv.hasHexPrefix s1 = false := by simpa using hhex
      rw [hhex'] at h
      simp only [Bool.false_eq_true, if_false] at h
      by_cases hd : (strconv.readMantissa false ⟨false, false, 0, 0, 0, false⟩ s1).1.sawdigits
          = true
      · rw [hd] at h
        simp only [Bool.not_true, Bool.false_eq_true, if_false] at h
        exact readMantissa_starts (c0 :: rest) _ s1 p hs hd h
      · have hd' : (strconv.readMantissa false ⟨false, false, 0, 0, 0, false⟩ s1).1.sawdigits
            = false := by simpa using hd
        rw [hd'] at h
        simp at h

theorem specialInf_starts (neg : Bool) (nsign : Nat) (u : Str) (r : Float64 × Nat)
    (h : strconv.specialInf neg nsign u = some r) :
    strconv.commonPrefixLenIgnoreCase u "inf".toList = 3 := by
  unfold strconv.specialInf at h
  simp only at h
  apply commonPrefixLen_inf
  by_contra hc
  have h1 : ¬ (3 < strconv.commonPrefixLenIgnoreCase u "infinity".toList
      ∧ strconv.commonPrefixLenIgnoreCase u "infinity".toList < 8) := by omega
  simp only [h1, if_false] at h
  have h2 : ¬ (strconv.commonPrefixLenIgnoreCase u "infinity".toList = 3
      ∨ strconv.commonPrefixLenIgnoreCase u "infinity".toList = 8) := by omega
  rw [if_neg h2] at h
  exact Option.noConfusion h

/-- What `special` accepts begins like a number. -/
theorem special_starts (s : Str) (r : Float64 × Nat) (h : strconv.special s = some r) :
    startsNumber s = true := by
  match s, h with
  | c :: rest, h =>
    unfold strconv.special at h
    simp only at h
    unfold startsNumber
    simp only [Bool.or_eq_true, decide_eq_true_eq]
    have hstrip : stripSign (c :: rest) = (if c = '+' ∨ c = '-' then rest else c :: rest) := rfl
    rw [hstrip]
    by_cases hs : c = '+' ∨ c = '-'
    · rw [if_pos hs] at h
      simp only [hs, if_true]
      exact Or.inl (Or.inr (specialInf_starts _ _ _ _ h))
    · rw [if_neg hs] at h
      simp only [hs, if_false]
      by_cases hi : c = 'i' ∨ c = 'I'
      · rw [if_pos hi] at h
        exact Or.inl (Or.inr (specialInf_starts _ _ _ _ h))
      · rw [if_neg hi] at h
        by_cases hn : c = 'n' ∨ c = 'N'
        · rw [if_pos hn] at h
          by_cases h3 : strconv.commonPrefixLenIgnoreCase (c :: rest) "nan".toList = 3
          · exact Or.inr h3
          · rw [if_neg h3] at h
            exact Option.noConfusion h
        · rw [if_neg hn] at h
          exact Option.noConfusion h

/-- What `strconv.ParseFloat` accepts begins like a number. -/
theorem ParseFloat_starts (s : Str) (v : Float64) (h : strconv.ParseFloat s = .ok v) :
    startsNumber s = true := by
  unfold strconv.ParseFloat at h
  split at h
  · rename_i f n hsp
    exact special_starts s _ hsp
  · split at h
    · exact absurd h (by simp)
    · rename_i p hp
      exact readFloat_starts s p hp

theorem take_prefix_str (n : Nat) (s : Str) : s.take n <+: s := List.take_prefix n s

/-- What `convertFloat` accepts begins like a number. -/
theorem convertFloat_starts (tok : Str) (v : Float64) (h : fmt.convertFloat tok = .ok v) :
    startsNumber tok = true := by
  unfold fmt.convertFloat at h
  split at h
  · rename_i p hp
    split at h
    · exact absurd h (by simp)
    · rename_i f hf
      obtain ⟨t, ht⟩ := take_prefix_str p tok
      have := startsNumber_append _ t (ParseFloat_starts _ f hf)
      rw [ht] at this
      exact this
  · split at h
    · exact absurd h (by simp)
    · rename_i f hf
      exact ParseFloat_starts tok f hf

/-- When `Sscanf` returns a value, its input begins like a number. -/
theorem Sscanf_starts (c : Char) (r : Str) (v : Float64) (hc : unicode.IsSpace c = false)
    (h : fmt.Sscanf (c :: r) = .ok v) : startsNumber (c :: r) = true := by
  rw [Sscanf_of_head c r hc] at h
  obtain ⟨t, ht⟩ := floatToken_prefix (c :: r)
  have := startsNumber_append _ t (convertFloat_starts _ v h)
  rw [ht] at this
  exact this

/-! ## Binary length, scaling and the binary exponent of a fraction -/

theorem bitLenAux_spec (fuel : Nat) : ∀ n : Nat, n ≤ fuel → n ≠ 0 →
    2 ^ (bitLenAux fuel n - 1) ≤ n ∧ n < 2 ^ bitLenAux fuel n ∧ 0 < bitLenAux fuel n := by
  induction fuel with
  | zero => intro n h h0; omega
  | succ k ih =>
    intro n hle h0
    unfold bitLenAux
    rw [if_neg h0]
    by_cases h1 : n / 2 = 0
    · have hn : n = 1 := by omega
      subst hn
      have : bitLenAux k (1 / 2) = 0 := by
        cases k <;> simp [bitLenAux]
      rw [this]
      decide
    · obtain ⟨a, b, c⟩ := ih (n / 2) (by omega) h1
      refine ⟨?_, ?_, by omega⟩
      · have e : bitLenAux k (n / 2) + 1 - 1 = (bitLenAux k (n / 2) - 1) + 1 := by omega
        rw [e, pow_succ]
        omega
      · rw [pow_succ]
        omega

/-- `bitLen n` is the number of binary digits of a positive `n`. -/
theorem bitLen_spec (n : Nat) (h : n ≠ 0) :
    2 ^ (bitLen n - 1) ≤ n ∧ n < 2 ^ bitLen n ∧ 0 < bitLen n :=
  bitLenAux_spec n n (Nat.le_refl n) h

theorem zpow_two_pos (k : Int) : (0 : ℚ) < (2 : ℚ) ^ k := zpow_pos (by norm_num) k

/-- `scalePow2 num den k` is the fraction `(num / den) / 2^k`. -/
theorem scalePow2_spec (num den : Nat) (k : Int) (hd : 0 < den) :
    0 < (scalePow2 num den k).2
      ∧ ((scalePow2 num den k).1 : ℚ) / ((scalePow2 num den k).2 : ℚ)
          = (num : ℚ) / den / (2 : ℚ) ^ k := by
  have hd' : (den : ℚ) ≠ 0 := by exact_mod_cast (Nat.pos_iff_ne_zero.mp hd)
  unfold scalePow2
  split
  · rename_i hk
    refine ⟨Nat.mul_pos hd (Nat.pow_pos (by decide)), ?_⟩
    rw [zpow_nonneg_toNat k hk]
    push_cast
    rw [div_div]
  · rename_i hk
    refine ⟨hd, ?_⟩
    rw [zpow_neg_toNat k hk]
    push_cast
    field_simp

theorem zpow_two_natCast_sub (a b : Nat) :
    (2 : ℚ) ^ ((a : Int) - (b : Int)) = (2 : ℚ) ^ a / (2 : ℚ) ^ b := by
  rw [zpow_sub₀ (by norm_num : (2 : ℚ) ≠ 0), zpow_natCast, zpow_natCast]

/-- `floorLog2 num den` is the binary exponent of the fraction: the fraction lies
between that power of two and the next. -/
theorem floorLog2_spec (num den : Nat) (hn : 0 < num) (hd : 0 < den) :
    (2 : ℚ) ^ floorLog2 num den ≤ (num : ℚ) / den
      ∧ (num : ℚ) / den < (2 : ℚ) ^ (floorLog2 num den + 1) := by
  obtain ⟨a1, a2, a3⟩ := bitLen_spec num (Nat.pos_iff_ne_zero.mp hn)
  obtain ⟨b1, b2, b3⟩ := bitLen_spec den (Nat.pos_iff_ne_zero.mp hd)
  have hd' : (0 : ℚ) < den := by exact_mod_cast hd
  have hn' : (0 : ℚ) < num := by exact_mod_cast hn
  have A1 : (2 : ℚ) ^ (bitLen num - 1) ≤ num := by exact_mod_cast a1
  have A2 : (num : ℚ) < (2 : ℚ) ^ bitLen num := by exact_mod_cast a2
  have B1 : (2 : ℚ) ^ (bitLen den - 1) ≤ den := by exact_mod_cast b1
  have B2 : (den : ℚ) < (2 : ℚ) ^ bitLen den := by exact_mod_cast b2
  have hA : (2 : ℚ) ^ bitLen num = 2 * (2 : ℚ) ^ (bitLen num - 1) := by
    conv_lhs => rw [show bitLen num = (bitLen num - 1) + 1 by omega]
    rw [pow_succ]; ring
  have hB : (2 : ℚ) ^ bitLen den = 2 * (2 : ℚ) ^ (bitLen den - 1) := by
    conv_lhs => rw [show bitLen den = (bitLen den - 1) + 1 by omega]
    rw [pow_succ]; ring
  have pa : (0 : ℚ) < (2 : ℚ) ^ (bitLen num - 1) := by positivity
  have pb : (0 : ℚ) < (2 : ℚ) ^ (bitLen den - 1) := by positivity
  -- the fraction lies strictly between 2^(e-1) and 2^(e+1)
  have hlow : (2 : ℚ) ^ ((bitLen num : Int) - (bitLen den : Int) - 1) < (num : ℚ) / den := by
    rw [zpow_sub_one₀ (by norm_num : (2 : ℚ) ≠ 0), zpow_two_natCast_sub, lt_div_iff₀ hd', hA, hB]
    field_simp
    rw [div_lt_iff₀ (by positivity)]
    nlinarith
  have hhigh : (num : ℚ) / den < (2 : ℚ) ^ ((bitLen num : Int) - (bitLen den : Int) + 1) := by
    rw [zpow_add_one₀ (by norm_num : (2 : ℚ) ≠ 0), zpow_two_natCast_sub, div_lt_iff₀ hd', hA, hB]
    field_simp
    rw [lt_div_iff₀ (by positivity)]
    nlinarith
  obtain ⟨s1, s2⟩ := scalePow2_spec num den ((bitLen num : Int) - (bitLen den : Int)) hd
  have s1' : (0 : ℚ) < ((scalePow2 num den ((bitLen num : Int) - (bitLen den : Int))).2 : ℚ) := by
    exact_mod_cast s1
  unfold floorLog2
  simp only
  split
  · rename_i hle
    have hle' : ((scalePow2 num den ((bitLen num : Int) - (bitLen den : Int))).2 : ℚ)
        ≤ ((scalePow2 num den ((bitLen num : Int) - (bitLen den : Int))).1 : ℚ) := by
      exact_mod_cast hle
    refine ⟨?_, hhigh⟩
    have : (1 : ℚ) ≤ (num : ℚ) / den / (2 : ℚ) ^ ((bitLen num : Int) - (bitLen den : Int)) := by
      rw [← s2, le_div_iff₀ s1']
      linarith
    rw [le_div_iff₀ (zpow_two_pos _)] at this
    linarith
  · rename_i hle
    have hle' : ((scalePow2 num den ((bitLen num : Int) - (bitLen den : Int))).1 : ℚ)
        < ((scalePow2 num den ((bitLen num : Int) - (bitLen den : Int))).2 : ℚ) := by
      exact_mod_cast (Nat.lt_of_not_le hle)
    refine ⟨le_of_lt hlow, ?_⟩
    have : (num : ℚ) / den / (2 : ℚ) ^ ((bitLen num : Int) - (bitLen den : Int)) < 1 := by
      rw [← s2, div_lt_iff₀ s1']
      linarith
    rw [div_lt_iff₀ (zpow_two_pos _)] at this
    have e : (bitLen num : Int) - (bitLen den : Int) - 1 + 1
        = (bitLen num : Int) - (bitLen den : Int) := by ring
    rw [e]
    linarith

/-! ## `roundFloat64` returns a nearest binary64 value -/

/-- `roundHalfEven` is at least as close to the fraction as any natural number. -/
theorem roundHalfEven_nearest (num den : Nat) (hd : 0 < den) (k : Nat) :
    |(roundHalfEven num den : ℚ) - (num : ℚ) / den| ≤ |(k : ℚ) - (num : ℚ) / den| := by
  have h := roundHalfEven_abs num den hd
  by_cases hk : k = roundHalfEven num den
  · rw [hk]
  · have h1 : (1 : ℚ) ≤ |(k : ℚ) - (roundHalfEven num den : ℚ)| := by
      rcases Nat.lt_or_gt_of_ne hk with hlt | hgt
      · have : (k : ℚ) + 1 ≤ (roundHalfEven num den : ℚ) := by exact_mod_cast hlt
        rw [abs_sub_comm, abs_of_nonneg (by linarith)]
        linarith
      · have : (roundHalfEven num den : ℚ) + 1 ≤ (k : ℚ) := by exact_mod_cast hgt
        rw [abs_of_nonneg (by linarith)]
        linarith
    have h2 : |(k : ℚ) - (roundHalfEven num den : ℚ)|
        ≤ |(k : ℚ) - (num : ℚ) / den| + |(roundHalfEven num den : ℚ) - (num : ℚ) / den| := by
      have := abs_sub_le (k : ℚ) ((num : ℚ) / den) (roundHalfEven num den : ℚ)
      rw [abs_sub_comm ((num : ℚ) / den) (roundHalfEven num den : ℚ)] at this
      exact this
    linarith

/-- A fraction that is a natural number is rounded to that number. -/
theorem roundHalfEven_exact (num den m : Nat) (hd : 0 < den) (h : num = m * den) :
    roundHalfEven num den = m := by
  subst h
  unfold roundHalfEven
  simp only [Nat.mul_div_cancel _ hd, Nat.mul_mod_left, Nat.mul_zero]
  rw [if_pos hd]

/-- The two things to know about the scaled fraction `x` that `roundFloat64`
rounds to an integer: where it lies, and that the result is the nearest integer. -/
theorem roundFloat64_scaled (num den : Nat) (hn : 0 < num) (hd : 0 < den) :
    0 < (scalePow2 num den (max (floorLog2 num den - 52) (-1074))).2
      ∧ ((scalePow2 num den (max (floorLog2 num den - 52) (-1074))).1 : ℚ)
            / ((scalePow2 num den (max (floorLog2 num den - 52) (-1074))).2 : ℚ)
          = (num : ℚ) / den / (2 : ℚ) ^ (max (floorLog2 num den - 52) (-1074))
      ∧ ((scalePow2 num den (max (floorLog2 num den - 52) (-1074))).1 : ℚ)
            / ((scalePow2 num den (max (floorLog2 num den - 52) (-1074))).2 : ℚ)
          < (2 : ℚ) ^ (53 : Nat)
      ∧ ((max (floorLog2 num den - 52) (-1074)) = floorLog2 num den - 52 →
          (2 : ℚ) ^ (52 : Nat)
            ≤ ((scalePow2 num den (max (floorLog2 num den - 52) (-1074))).1 : ℚ)
              / ((scalePow2 num den (max (floorLog2 num den - 52) (-1074))).2 : ℚ))
      ∧ roundHalfEven (scalePow2 num den (max (floorLog2 num den - 52) (-1074))).1
          (scalePow2 num den (max (floorLog2 num den - 52) (-1074))).2 ≤ 2 ^ 53
      ∧ ((max (floorLog2 num den - 52) (-1074)) = floorLog2 num den - 52 →
          2 ^ 52 ≤ roundHalfEven (scalePow2 num den (max (floorLog2 num den - 52) (-1074))).1
            (scalePow2 num den (max (floorLog2 num den - 52) (-1074))).2) := by
  generalize hqe : (max (floorLog2 num den - 52) (-1074)) = qe
  generalize hsc : scalePow2 num den qe = sc
  have hqe0 : floorLog2 num den - 52 ≤ qe := by rw [← hqe]; exact le_max_left _ _
  obtain ⟨f1, f2⟩ := floorLog2_spec num den hn hd
  obtain ⟨s1, s2⟩ := scalePow2_spec num den qe hd
  rw [hsc] at s1 s2
  have hx3 : (sc.1 : ℚ) / sc.2 < (2 : ℚ) ^ (53 : Nat) := by
    rw [s2, div_lt_iff₀ (zpow_two_pos qe)]
    calc (num : ℚ) / den < (2 : ℚ) ^ (floorLog2 num den + 1) := f2
      _ ≤ (2 : ℚ) ^ ((53 : Int) + qe) :=
          zpow_le_zpow_right₀ (by norm_num) (by omega)
      _ = (2 : ℚ) ^ (53 : Nat) * (2 : ℚ) ^ qe := by
          rw [zpow_add₀ (by norm_num : (2 : ℚ) ≠ 0)]; norm_cast
  have hx4 : qe = floorLog2 num den - 52 → (2 : ℚ) ^ (52 : Nat) ≤ (sc.1 : ℚ) / sc.2 := by
    intro he
    rw [s2, le_div_iff₀ (zpow_two_pos qe)]
    calc (2 : ℚ) ^ (52 : Nat) * (2 : ℚ) ^ qe = (2 : ℚ) ^ ((52 : Int) + qe) := by
          rw [zpow_add₀ (by norm_num : (2 : ℚ) ≠ 0)]; norm_cast
      _ = (2 : ℚ) ^ floorLog2 num den := by rw [he]; congr 1; ring
      _ ≤ (num : ℚ) / den := f1
  have hr := roundHalfEven_abs sc.1 sc.2 s1
  rw [abs_le] at hr
  refine ⟨s1, s2, hx3, hx4, ?_, ?_⟩
  · have : (roundHalfEven sc.1 sc.2 : ℚ) < (2 : ℚ) ^ (53 : Nat) + 1 := by linarith
    have : roundHalfEven sc.1 sc.2 < 2 ^ 53 + 1 := by exact_mod_cast this
    omega
  · intro he
    have h4 := hx4 he
    have : (2 : ℚ) ^ (52 : Nat) - 1 < (roundHalfEven sc.1 sc.2 : ℚ) := by linarith
    have : (2 ^ 52 - 1 : Int) < (roundHalfEven sc.1 sc.2 : Int) := by
      have e : ((2 ^ 52 - 1 : Int) : ℚ) = (2 : ℚ) ^ (52 : Nat) - 1 := by push_cast; ring
      have : ((2 ^ 52 - 1 : Int) : ℚ) < ((roundHalfEven sc.1 sc.2 : Int) : ℚ) := by
        rw [e]; exact_mod_cast this
      exact_mod_cast this
    omega

/-- The binary exponent of a positive rational is unique. -/
theorem zpow_bracket_unique (q : ℚ) (a b : Int)
    (ha : (2 : ℚ) ^ a ≤ q) (ha' : q < (2 : ℚ) ^ (a + 1))
    (hb : (2 : ℚ) ^ b ≤ q) (hb' : q < (2 : ℚ) ^ (b + 1)) : a = b := by
  have h1 : (2 : ℚ) ^ a < (2 : ℚ) ^ (b + 1) := lt_of_le_of_lt ha hb'
  have h2 : (2 : ℚ) ^ b < (2 : ℚ) ^ (a + 1) := lt_of_le_of_lt hb ha'
  have h3 := (zpow_lt_zpow_iff_right₀ (by norm_num : (1 : ℚ) < 2)).mp h1
  have h4 := (zpow_lt_zpow_iff_right₀ (by norm_num : (1 : ℚ) < 2)).mp h2
  omega

/-- `floorLog2` is determined by the value of the fraction. -/
theorem floorLog2_unique (num den : Nat) (hn : 0 < num) (hd : 0 < den) (a : Int)
    (ha : (2 : ℚ) ^ a ≤ (num : ℚ) / den) (ha' : (num : ℚ) / den < (2 : ℚ) ^ (a + 1)) :
    floorLog2 num den = a := by
  obtain ⟨f1, f2⟩ := floorLog2_spec num den hn hd
  exact zpow_bracket_unique _ _ _ f1 f2 ha ha'

/-- A natural number less than one half away from the fraction is what
`roundHalfEven` returns. -/
theorem roundHalfEven_unique (num den k : Nat) (hd : 0 < den)
    (h : |(k : ℚ) - (num : ℚ) / den| < 1 / 2) : roundHalfEven num den = k := by
  by_contra hne
  have h0 := roundHalfEven_abs num den hd
  have h1 : (1 : ℚ) ≤ |(k : ℚ) - (roundHalfEven num den : ℚ)| := by
    rcases Nat.lt_or_gt_of_ne hne with hlt | hgt
    · have : (roundHalfEven num den : ℚ) + 1 ≤ (k : ℚ) := by exact_mod_cast hlt
      rw [abs_of_nonneg (by linarith)]
      linarith
    · have : (k : ℚ) + 1 ≤ (roundHalfEven num den : ℚ) := by exact_mod_cast hgt
      rw [abs_sub_comm, abs_of_nonneg (by linarith)]
      linarith
  have h2 := abs_sub_le (k : ℚ) ((num : ℚ) / den) (roundHalfEven num den : ℚ)
  rw [abs_sub_comm ((num : ℚ) / den) (roundHalfEven num den : ℚ)] at h2
  linarith

theorem isCanonical_iff (neg : Bool) (m : Nat) (e : Int) :
    (Float64.Finite neg m e).isCanonical = true
      ↔ m < 2 ^ 53 ∧ -1074 ≤ e ∧ e ≤ 971 ∧ (2 ^ 52 ≤ m ∨ e = -1074) := by
  simp [Float64.isCanonical, and_assoc]

/-- What `roundFloat64` computes for a positive fraction: the scaled fraction
rounded to an integer `r`, at the exponent `qe`; `none` exactly when that is
beyond the largest exponent. -/
theorem roundFloat64_pos (neg : Bool) (num den : Nat) (hn : 0 < num) :
    roundFloat64 neg num den =
      (if roundHalfEven (scalePow2 num den (max (floorLog2 num den - 52) (-1074))).1
            (scalePow2 num den (max (floorLog2 num den - 52) (-1074))).2 = 2 ^ 53 then
        (if 971 < max (floorLog2 num den - 52) (-1074) + 1 then none
         else some (.Finite neg (2 ^ 52) (max (floorLog2 num den - 52) (-1074) + 1)))
       else if 971 < max (floorLog2 num den - 52) (-1074) then none
       else some (.Finite neg
          (roundHalfEven (scalePow2 num den (max (floorLog2 num den - 52) (-1074))).1
            (scalePow2 num den (max (floorLog2 num den - 52) (-1074))).2)
          (max (floorLog2 num den - 52) (-1074)))) := by
  unfold roundFloat64
  rw [if_neg (Nat.pos_iff_ne_zero.mp hn)]

/-- The value `roundFloat64` returns, in terms of the rounded scaled fraction. -/
theorem roundFloat64_result (neg : Bool) (num den : Nat) (hn : 0 < num) (hd : 0 < den)
    (f : Float64) (h : roundFloat64 neg num den = some f) :
    ∃ (m : Nat) (e : Int), f = .Finite neg m e
      ∧ (Float64.Finite neg m e).isCanonical = true
      ∧ max (floorLog2 num den - 52) (-1074) ≤ e
      ∧ (m : ℚ) * (2 : ℚ) ^ e
          = (roundHalfEven (scalePow2 num den (max (floorLog2 num den - 52) (-1074))).1
              (scalePow2 num den (max (floorLog2 num den - 52) (-1074))).2 : ℚ)
            * (2 : ℚ) ^ (max (floorLog2 num den - 52) (-1074)) := by
  obtain ⟨s1, s2, s3, s4, s5, s6⟩ := roundFloat64_scaled num den hn hd
  rw [roundFloat64_pos neg num den hn] at h
  generalize hqe : max (floorLog2 num den - 52) (-1074) = qe at *
  generalize hr : roundHalfEven (scalePow2 num den qe).1 (scalePow2 num den qe).2 = r at *
  have hqe1 : -1074 ≤ qe := by rw [← hqe]; exact le_max_right _ _
  have hqe2 : qe ≠ -1074 → qe = floorLog2 num den - 52 := by
    intro hne
    rcases max_choice (floorLog2 num den - 52) (-1074) with hc | hc
    · rw [hqe] at hc; exact hc
    · rw [hqe] at hc; exact absurd hc hne
  split at h
  · rename_i h53
    split at h
    · exact Option.noConfusion h
    · rename_i hle
      refine ⟨2 ^ 52, qe + 1, (Option.some.inj h).symm, ?_, by omega, ?_⟩
      · rw [isCanonical_iff]
        exact ⟨by norm_num, by omega, by omega, Or.inl (le_refl _)⟩
      · rw [h53, zpow_add_one₀ (by norm_num : (2 : ℚ) ≠ 0)]
        push_cast
        ring
  · rename_i h53
    split at h
    · exact Option.noConfusion h
    · rename_i hle
      refine ⟨r, qe, (Option.some.inj h).symm, ?_, le_refl _, rfl⟩
      rw [isCanonical_iff]
      refine ⟨by omega, hqe1, by omega, ?_⟩
      by_cases hq : qe = -1074
      · exact Or.inr hq
      · exact Or.inl (s6 (hqe2 hq))

theorem abs_scaled (a x : ℚ) (k : Int) :
    |a * (2 : ℚ) ^ k - x * (2 : ℚ) ^ k| = |a - x| * (2 : ℚ) ^ k := by
  rw [← sub_mul, abs_mul, abs_of_pos (zpow_two_pos k)]

theorem div_mul_zpow (q : ℚ) (k : Int) : q / (2 : ℚ) ^ k * (2 : ℚ) ^ k = q :=
  div_mul_cancel₀ q (ne_of_gt (zpow_two_pos k))

/-- The value `roundFloat64` returns is canonical, and no canonical value is
closer to the fraction: IEEE 754 round-to-nearest. -/
theorem roundFloat64_nearest (neg : Bool) (num den : Nat) (hd : 0 < den) (f : Float64)
    (h : roundFloat64 neg num den = some f) :
    ∃ (m : Nat) (e : Int), f = .Finite neg m e
      ∧ (Float64.Finite neg m e).isCanonical = true
      ∧ ∀ (mg : Nat) (eg : Int), (Float64.Finite false mg eg).isCanonical = true →
          |(m : ℚ) * (2 : ℚ) ^ e - (num : ℚ) / den|
            ≤ |(mg : ℚ) * (2 : ℚ) ^ eg - (num : ℚ) / den| := by
  rcases Nat.eq_zero_or_pos num with hn | hn
  · subst hn
    have : roundFloat64 neg 0 den = some (.Finite neg 0 (-1074)) := by
      simp [roundFloat64]
    rw [this] at h
    refine ⟨0, -1074, (Option.some.inj h).symm, ?_, ?_⟩
    · rw [isCanonical_iff]
      exact ⟨by norm_num, le_refl _, by norm_num, Or.inr rfl⟩
    intro mg eg _
    simp only [Nat.cast_zero, zero_mul, zero_div, sub_zero, abs_zero]
    exact abs_nonneg _
  · obtain ⟨m, e, hf, hcan, _, hval⟩ := roundFloat64_result neg num den hn hd f h
    obtain ⟨s1, s2, s3, s4, s5, s6⟩ := roundFloat64_scaled num den hn hd
    obtain ⟨f1, f2⟩ := floorLog2_spec num den hn hd
    refine ⟨m, e, hf, hcan, ?_⟩
    intro mg eg hg
    rw [isCanonical_iff] at hg
    obtain ⟨g1, g2, g3, g4⟩ := hg
    generalize hqe : max (floorLog2 num den - 52) (-1074) = qe at *
    generalize hsc : scalePow2 num den qe = sc at *
    have hq : (num : ℚ) / den = (sc.1 : ℚ) / sc.2 * (2 : ℚ) ^ qe := by
      rw [s2, div_mul_zpow]
    rw [hval]
    conv_lhs => rw [hq]
    rw [abs_scaled]
    by_cases hge : qe ≤ eg
    · -- the other value is a multiple of the quantum
      have hK : (mg : ℚ) * (2 : ℚ) ^ eg
          = ((mg * 2 ^ (eg - qe).toNat : Nat) : ℚ) * (2 : ℚ) ^ qe := by
        have e1 : eg = ((eg - qe).toNat : Int) + qe := by
          rw [Int.toNat_of_nonneg (by omega)]; ring
        conv_lhs => rw [e1, zpow_add₀ (by norm_num : (2 : ℚ) ≠ 0), zpow_natCast]
        push_cast
        ring
      rw [hK]
      conv_rhs => rw [hq]
      rw [abs_scaled]
      exact mul_le_mul_of_nonneg_right (roundHalfEven_nearest sc.1 sc.2 s1 _)
        (le_of_lt (zpow_two_pos qe))
    · -- the other value lies below the binade of the fraction
      have hqe2 : qe = floorLog2 num den - 52 := by
        rcases max_choice (floorLog2 num den - 52) (-1074) with hc | hc
        · rw [hqe] at hc; exact hc
        · rw [hqe] at hc; omega
      have hx := s4 hqe2
      have hG : (mg : ℚ) * (2 : ℚ) ^ eg ≤ (2 : ℚ) ^ (52 : Nat) * (2 : ℚ) ^ qe := by
        have h1 : (mg : ℚ) ≤ (2 : ℚ) ^ (53 : Nat) := by
          have : (mg : ℚ) < ((2 ^ 53 : Nat) : ℚ) := by exact_mod_cast g1
          push_cast at this
          exact le_of_lt this
        have h2 : (2 : ℚ) ^ eg ≤ (2 : ℚ) ^ (qe - 1) :=
          zpow_le_zpow_right₀ (by norm_num) (by omega)
        calc (mg : ℚ) * (2 : ℚ) ^ eg ≤ (2 : ℚ) ^ (53 : Nat) * (2 : ℚ) ^ (qe - 1) :=
              mul_le_mul h1 h2 (le_of_lt (zpow_two_pos eg)) (by positivity)
          _ = (2 : ℚ) ^ (52 : Nat) * (2 : ℚ) ^ qe := by
              rw [zpow_sub_one₀ (by norm_num : (2 : ℚ) ≠ 0)]
              ring
      have hr := roundHalfEven_nearest sc.1 sc.2 s1 (2 ^ 52)
      have hr2 : |((2 ^ 52 : Nat) : ℚ) - (sc.1 : ℚ) / sc.2|
          = (sc.1 : ℚ) / sc.2 - (2 : ℚ) ^ (52 : Nat) := by
        have e52 : ((2 ^ 52 : Nat) : ℚ) = (2 : ℚ) ^ (52 : Nat) := by push_cast; rfl
        rw [e52, abs_sub_comm, abs_of_nonneg (by linarith)]
      rw [hr2] at hr
      have hp := zpow_two_pos qe
      have h3 : |(roundHalfEven sc.1 sc.2 : ℚ) - (sc.1 : ℚ) / sc.2| * (2 : ℚ) ^ qe
          ≤ ((sc.1 : ℚ) / sc.2 - (2 : ℚ) ^ (52 : Nat)) * (2 : ℚ) ^ qe :=
        mul_le_mul_of_nonneg_right hr (le_of_lt hp)
      have h4 : ((sc.1 : ℚ) / sc.2 - (2 : ℚ) ^ (52 : Nat)) * (2 : ℚ) ^ qe
          ≤ |(mg : ℚ) * (2 : ℚ) ^ eg - (sc.1 : ℚ) / sc.2 * (2 : ℚ) ^ qe| := by
        rw [abs_sub_comm]
        refine le_trans ?_ (le_abs_self _)
        rw [sub_mul]
        linarith
      rw [← hq] at h4
      exact le_trans h3 h4

/-- The value `roundFloat64` returns is within half a unit of its last place of
the fraction. -/
theorem roundFloat64_half_ulp (neg : Bool) (num den : Nat) (hd : 0 < den) (m : Nat) (e : Int)
    (h : roundFloat64 neg num den = some (.Finite neg m e)) :
    |(m : ℚ) * (2 : ℚ) ^ e - (num : ℚ) / den| ≤ (2 : ℚ) ^ e / 2 := by
  rcases Nat.eq_zero_or_pos num with hn | hn
  · subst hn
    have : roundFloat64 neg 0 den = some (.Finite neg 0 (-1074)) := by
      simp [roundFloat64]
    rw [this] at h
    have hm : m = 0 := by
      have := Option.some.inj h
      injection this with _ h2 _
      exact h2.symm
    subst hm
    simp only [Nat.cast_zero, zero_mul, zero_div, sub_zero, abs_zero]
    exact le_of_lt (div_pos (zpow_two_pos e) (by norm_num))
  · obtain ⟨m', e', hf, _, hle, hval⟩ := roundFloat64_result neg num den hn hd _ h
    have hm : m' = m := by injection hf with _ h2 _; exact h2.symm
    have he : e' = e := by injection hf with _ _ h3; exact h3.symm
    subst hm he
    obtain ⟨s1, s2, _⟩ := roundFloat64_scaled num den hn hd
    generalize hqe : max (floorLog2 num den - 52) (-1074) = qe at *
    generalize hsc : scalePow2 num den qe = sc at *
    have hq : (num : ℚ) / den = (sc.1 : ℚ) / sc.2 * (2 : ℚ) ^ qe := by
      rw [s2, div_mul_zpow]
    rw [hval]
    conv_lhs => rw [hq]
    rw [abs_scaled]
    have hr := roundHalfEven_abs sc.1 sc.2 s1
    have hp := zpow_two_pos qe
    have hmono : (2 : ℚ) ^ qe ≤ (2 : ℚ) ^ e' := zpow_le_zpow_right₀ (by norm_num) hle
    calc |(roundHalfEven sc.1 sc.2 : ℚ) - (sc.1 : ℚ) / sc.2| * (2 : ℚ) ^ qe
        ≤ 1 / 2 * (2 : ℚ) ^ qe := mul_le_mul_of_nonneg_right hr (le_of_lt hp)
      _ ≤ (2 : ℚ) ^ e' / 2 := by linarith

theorem abs_lt_of_scaled (a x : ℚ) (k : Int)
    (h : |a * (2 : ℚ) ^ k - x| < (2 : ℚ) ^ k / 2) : |a - x / (2 : ℚ) ^ k| < 1 / 2 := by
  have hp := zpow_two_pos k
  have hx : x = x / (2 : ℚ) ^ k * (2 : ℚ) ^ k := (div_mul_zpow x k).symm
  rw [hx, abs_scaled] at h
  by_contra hc
  push_neg at hc
  have := mul_le_mul_of_nonneg_right hc (le_of_lt hp)
  linarith

/-- A fraction less than half a unit in the last place away from a canonical
value, on the side where the spacing of the values does not change, is rounded
to that value. -/
theorem roundFloat64_of_near (neg : Bool) (num den m : Nat) (e : Int) (hn : 0 < num)
    (hd : 0 < den) (hcan : (Float64.Finite neg m e).isCanonical = true)
    (hclose : |(m : ℚ) * (2 : ℚ) ^ e - (num : ℚ) / den| < (2 : ℚ) ^ e / 2)
    (hside : 2 ^ 52 < m ∨ e = -1074 ∨ (m : ℚ) * (2 : ℚ) ^ e ≤ (num : ℚ) / den) :
    roundFloat64 neg num den = some (.Finite neg m e) := by
  rw [isCanonical_iff] at hcan
  obtain ⟨c1, c2, c3, c4⟩ := hcan
  obtain ⟨f1, f2⟩ := floorLog2_spec num den hn hd
  have hp := zpow_two_pos e
  have hm53 : (m : ℚ) + 1 ≤ (2 : ℚ) ^ (53 : Nat) := by
    exact_mod_cast Nat.succ_le_of_lt c1
  have habs := abs_lt.mp hclose
  -- the fraction lies below 2^(53+e)
  have hup : (num : ℚ) / den < (2 : ℚ) ^ ((53 : Int) + e) := by
    have : (2 : ℚ) ^ ((53 : Int) + e) = (2 : ℚ) ^ (53 : Nat) * (2 : ℚ) ^ e := by
      rw [zpow_add₀ (by norm_num : (2 : ℚ) ≠ 0)]; norm_cast
    rw [this]
    nlinarith
  have hqe : max (floorLog2 num den - 52) (-1074) = e := by
    by_cases he : e = -1074
    · have h1 : (2 : ℚ) ^ floorLog2 num den < (2 : ℚ) ^ ((53 : Int) + e) :=
        lt_of_le_of_lt f1 hup
      have h2 := (zpow_lt_zpow_iff_right₀ (by norm_num : (1 : ℚ) < 2)).mp h1
      rw [he]
      exact max_eq_right (by omega)
    · have hm52 : 2 ^ 52 ≤ m := by
        rcases c4 with h | h
        · exact h
        · exact absurd h he
      have hm52' : (2 : ℚ) ^ (52 : Nat) ≤ (m : ℚ) := by
        exact_mod_cast hm52
      have hlow : (2 : ℚ) ^ ((52 : Int) + e) ≤ (num : ℚ) / den := by
        have : (2 : ℚ) ^ ((52 : Int) + e) = (2 : ℚ) ^ (52 : Nat) * (2 : ℚ) ^ e := by
          rw [zpow_add₀ (by norm_num : (2 : ℚ) ≠ 0)]; norm_cast
        rw [this]
        rcases hside with h | h | h
        · have : (2 : ℚ) ^ (52 : Nat) + 1 ≤ (m : ℚ) := by
            exact_mod_cast Nat.succ_le_of_lt h
          nlinarith
        · exact absurd h he
        · nlinarith
      have hfl : floorLog2 num den = 52 + e :=
        floorLog2_unique num den hn hd _ hlow (by
          have : (52 : Int) + e + 1 = 53 + e := by ring
          rw [this]; exact hup)
      rw [hfl]
      have : (52 : Int) + e - 52 = e := by ring
      rw [this]
      exact max_eq_left c2
  rw [roundFloat64_pos neg num den hn, hqe]
  obtain ⟨s1, s2⟩ := scalePow2_spec num den e hd
  have hr : roundHalfEven (scalePow2 num den e).1 (scalePow2 num den e).2 = m := by
    apply roundHalfEven_unique _ _ _ s1
    rw [s2]
    exact abs_lt_of_scaled _ _ _ hclose
  rw [hr, if_neg (by omega), if_neg (by omega)]

/-- A fraction that is a canonical value is rounded to that value. -/
theorem roundFloat64_exact (neg : Bool) (num den m : Nat) (e : Int) (hd : 0 < den)
    (hcan : (Float64.Finite neg m e).isCanonical = true)
    (hval : (num : ℚ) / den = (m : ℚ) * (2 : ℚ) ^ e) :
    roundFloat64 neg num den = some (.Finite neg m e) := by
  have hd' : (0 : ℚ) < den := by exact_mod_cast hd
  rcases Nat.eq_zero_or_pos num with hn | hn
  · subst hn
    simp only [Nat.cast_zero, zero_div] at hval
    have hm : m = 0 := by
      rcases mul_eq_zero.mp hval.symm with h | h
      · exact_mod_cast h
      · exact absurd h (ne_of_gt (zpow_two_pos e))
    subst hm
    rw [isCanonical_iff] at hcan
    have he : e = -1074 := by
      rcases hcan.2.2.2 with h | h
      · exact absurd h (by norm_num)
      · exact h
    subst he
    simp [roundFloat64]
  · apply roundFloat64_of_near neg num den m e hn hd hcan
    · rw [hval, sub_self, abs_zero]
      exact div_pos (zpow_two_pos e) (by norm_num)
    · exact Or.inr (Or.inr (le_of_eq hval.symm))

theorem roundHalfEven_scale (c num den : Nat) (hc : 0 < c) :
    roundHalfEven (c * num) (c * den) = roundHalfEven num den := by
  unfold roundHalfEven
  simp only [Nat.mul_div_mul_left _ _ hc, Nat.mul_mod_mul_left]
  have e1 : 2 * (c * (num % den)) < c * den ↔ 2 * (num % den) < den := by
    rw [show 2 * (c * (num % den)) = c * (2 * (num % den)) by ring]
    exact Nat.mul_lt_mul_left hc
  have e2 : c * den < 2 * (c * (num % den)) ↔ den < 2 * (num % den) := by
    rw [show 2 * (c * (num % den)) = c * (2 * (num % den)) by ring]
    exact Nat.mul_lt_mul_left hc
  simp only [e1, e2]

theorem scalePow2_scale (c num den : Nat) (k : Int) :
    scalePow2 (c * num) (c * den) k
      = (c * (scalePow2 num den k).1, c * (scalePow2 num den k).2) := by
  unfold scalePow2
  split <;> simp [Nat.mul_assoc]

/-- `roundFloat64` depends on the value of the fraction only: a common factor of
numerator and denominator does not matter. -/
theorem roundFloat64_scale (neg : Bool) (c num den : Nat) (hc : 0 < c) (hd : 0 < den) :
    roundFloat64 neg (c * num) (c * den) = roundFloat64 neg num den := by
  rcases Nat.eq_zero_or_pos num with hn | hn
  · subst hn
    simp [roundFloat64]
  · have hcn : 0 < c * num := Nat.mul_pos hc hn
    have hcd : 0 < c * den := Nat.mul_pos hc hd
    obtain ⟨f1, f2⟩ := floorLog2_spec num den hn hd
    have hq : ((c * num : Nat) : ℚ) / ((c * den : Nat) : ℚ) = (num : ℚ) / den := by
      have : (c : ℚ) ≠ 0 := by exact_mod_cast (Nat.pos_iff_ne_zero.mp hc)
      push_cast
      rw [mul_div_mul_left _ _ this]
    have hfl : floorLog2 (c * num) (c * den) = floorLog2 num den :=
      floorLog2_unique _ _ hcn hcd _ (by rw [hq]; exact f1) (by rw [hq]; exact f2)
    rw [roundFloat64_pos neg _ _ hcn, roundFloat64_pos neg _ _ hn, hfl, scalePow2_scale]
    simp only [roundHalfEven_scale c _ _ hc]

/-- Two fractions of equal value are rounded alike. -/
theorem roundFloat64_congr (neg : Bool) (n1 d1 n2 d2 : Nat) (h1 : 0 < d1) (h2 : 0 < d2)
    (h : n1 * d2 = n2 * d1) : roundFloat64 neg n1 d1 = roundFloat64 neg n2 d2 := by
  rw [← roundFloat64_scale neg d2 n1 d1 h2 h1, ← roundFloat64_scale neg d1 n2 d2 h1 h2]
  rw [Nat.mul_comm d2 n1, h, Nat.mul_comm n2 d1, Nat.mul_comm d2 d1]

/-! ## The scanner on a plain decimal number: sign, digits, period, digits -/

theorem isDigit_cases (c : Char) (h : strconv.isDigit c = true) :
    c ∈ fmt.decimalDigits := by
  have h1 : 48 ≤ c.toNat ∧ c.toNat ≤ 57 := by
    simpa [strconv.isDigit] using h
  have h2 : c = Char.ofNat c.toNat := (Char.ofNat_toNat c).symm
  obtain ⟨a, b⟩ := h1
  generalize c.toNat = n at *
  subst h2
  interval_cases n <;> decide

theorem isDigit_mem_digits (c : Char) (h : strconv.isDigit c = true) :
    c ∈ fmt.decimalDigits ++ "_".toList :=
  List.mem_append_left _ (isDigit_cases c h)

theorem isDigit_not_mem (c : Char) (h : strconv.isDigit c = true) (ok : Str)
    (hok : ∀ x ∈ ok, strconv.isDigit x = false) : c ∉ ok := by
  intro hc
  rw [hok c hc] at h
  exact Bool.false_ne_true h

theorem acceptLoop_cons_mem (ok buf : Str) (r : Char) (rest : Str) (h : r ∈ ok) :
    fmt.acceptLoop ok buf (r :: rest) = fmt.acceptLoop ok (buf ++ [r]) rest := by
  simp [fmt.acceptLoop, h]

theorem acceptLoop_cons_not_mem (ok buf : Str) (r : Char) (rest : Str) (h : r ∉ ok) :
    fmt.acceptLoop ok buf (r :: rest) = ⟨buf, r :: rest⟩ := by
  simp [fmt.acceptLoop, h]

/-- The loop `for s.accept(digits) {}` reads a run of digits up to a character
that is no digit. -/
theorem acceptLoop_digits (ds : Str) (hds : ∀ c ∈ ds, strconv.isDigit c = true) (rest : Str)
    (hrest : ∀ c r, rest = c :: r → c ∉ fmt.decimalDigits ++ "_".toList) :
    ∀ buf : Str, fmt.acceptLoop (fmt.decimalDigits ++ "_".toList) buf (ds ++ rest)
      = ⟨buf ++ ds, rest⟩ := by
  induction ds with
  | nil =>
    intro buf
    cases rest with
    | nil => simp [fmt.acceptLoop]
    | cons c r =>
      rw [List.nil_append, acceptLoop_cons_not_mem _ _ _ _ (hrest c r rfl), List.append_nil]
  | cons d ds ih =>
    intro buf
    have hd := isDigit_mem_digits d (hds d (by simp))
    have := ih (fun c hc => hds c (by simp [hc])) (buf ++ [d])
    rw [List.cons_append, acceptLoop_cons_mem _ _ _ _ hd, this]
    simp

theorem accept_of_mem (s : fmt.ss) (ok : Str) (c : Char) (r : Str) (hin : s.input = c :: r)
    (hc : c ∈ ok) : s.accept ok = (true, ⟨s.buf ++ [c], r⟩) := by
  unfold fmt.ss.accept
  rw [hin]
  simp [hc]

theorem accept_of_not_mem (s : fmt.ss) (ok : Str) (c : Char) (r : Str) (hin : s.input = c :: r)
    (hc : c ∉ ok) : s.accept ok = (false, s) := by
  unfold fmt.ss.accept
  rw [hin]
  simp [hc]

theorem accept_nil (s : fmt.ss) (ok : Str) (hin : s.input = []) : s.accept ok = (false, s) := by
  unfold fmt.ss.accept
  rw [hin]

theorem accept3_of_not_mem (s : fmt.ss) (a b c : Str) (x : Char) (r : Str)
    (hin : s.input = x :: r) (hx : x ∉ a) : s.accept3 a b c = (false, s) := by
  unfold fmt.ss.accept3
  rw [accept_of_not_mem s a x r hin hx]
  rfl

/-- `scanNumber` on digits, a period and digits reads all of it. -/
theorem scanNumber_decimal (buf ds1 ds2 : Str) (hne : ds1 ≠ [])
    (h1 : ∀ c ∈ ds1, strconv.isDigit c = true) (h2 : ∀ c ∈ ds2, strconv.isDigit c = true) :
    (fmt.ss.mk buf (ds1 ++ '.' :: ds2)).scanNumber = ⟨buf ++ ds1 ++ '.' :: ds2, []⟩ := by
  have hdot : ∀ c r, '.' :: ds2 = c :: r → c ∉ fmt.decimalDigits ++ "_".toList := by
    intro c r h
    have : c = '.' := by injection h with h _; exact h.symm
    rw [this]; decide
  have hnil : ∀ c r, ([] : Str) = c :: r → c ∉ fmt.decimalDigits ++ "_".toList := by
    intro c r h; exact absurd h (by simp)
  -- after the optional "0" and the failed "xX": buffer and input still make up the digits
  have hzero : ∃ pre rst : Str, pre ++ rst = ds1 ∧ (∀ c ∈ rst, strconv.isDigit c = true)
      ∧ (let z := (fmt.ss.mk buf (ds1 ++ '.' :: ds2)).accept "0".toList
         (if z.1 then z.2.accept "xX".toList else (false, z.2))
          = (false, ⟨buf ++ pre, rst ++ '.' :: ds2⟩)) := by
    cases ds1 with
    | nil => exact absurd rfl hne
    | cons d ds =>
      by_cases hd : d = '0'
      · refine ⟨[d], ds, rfl, fun c hc => h1 c (by simp [hc]), ?_⟩
        have e1 := accept_of_mem (fmt.ss.mk buf (d :: ds ++ '.' :: ds2)) "0".toList d
          (ds ++ '.' :: ds2) rfl (by rw [hd]; decide)
        simp only [e1, if_true]
        cases ds with
        | nil =>
          exact accept_of_not_mem _ _ '.' ds2 rfl (by decide)
        | cons d2 ds' =>
          exact accept_of_not_mem _ _ d2 (ds' ++ '.' :: ds2) rfl
            (isDigit_not_mem d2 (h1 d2 (by simp)) _ (by decide))
      · refine ⟨[], d :: ds, rfl, h1, ?_⟩
        have e1 := accept_of_not_mem (fmt.ss.mk buf (d :: ds ++ '.' :: ds2)) "0".toList d
          (ds ++ '.' :: ds2) rfl (by simpa using hd)
        simp only [e1, List.append_nil]
        rfl
  obtain ⟨pre, rst, hpr, hrst, hz⟩ := hzero
  unfold fmt.ss.scanNumber
  simp only at hz ⊢
  rw [hz]
  simp only [Bool.false_eq_true, if_false]
  have e2 : (fmt.ss.mk (buf ++ pre) (rst ++ '.' :: ds2)).acceptAll
      (fmt.decimalDigits ++ "_".toList) = ⟨buf ++ pre ++ rst, '.' :: ds2⟩ :=
    acceptLoop_digits rst hrst _ hdot _
  rw [e2]
  have e3 : (fmt.ss.mk (buf ++ pre ++ rst) ('.' :: ds2)).scanFraction
      (fmt.decimalDigits ++ "_".toList) = ⟨buf ++ pre ++ rst ++ ['.'] ++ ds2, []⟩ := by
    unfold fmt.ss.scanFraction
    rw [accept_of_mem _ _ '.' ds2 rfl (by decide)]
    simp only [if_true]
    have := acceptLoop_digits ds2 h2 [] hnil (buf ++ pre ++ rst ++ ['.'])
    rw [List.append_nil] at this
    exact this
  rw [e3]
  unfold fmt.ss.scanExponent
  rw [accept_nil _ _ rfl]
  simp only [Bool.false_eq_true, if_false]
  rw [← hpr]
  simp

/-- The float token of an optional minus sign, digits, a period and digits is the
whole input. -/
theorem floatToken_decimal (neg : Bool) (ds1 ds2 : Str) (hne : ds1 ≠ [])
    (h1 : ∀ c ∈ ds1, strconv.isDigit c = true) (h2 : ∀ c ∈ ds2, strconv.isDigit c = true) :
    (fmt.floatToken ((if neg then ['-'] else []) ++ ds1 ++ '.' :: ds2)).1
      = (if neg then ['-'] else []) ++ ds1 ++ '.' :: ds2 := by
  cases ds1 with
  | nil => exact absurd rfl hne
  | cons d ds =>
    have hd := h1 d (by simp)
    unfold fmt.floatToken
    cases neg with
    | true =>
      simp only [if_true, List.cons_append, List.nil_append, List.append_assoc]
      rw [accept3_of_not_mem _ _ _ _ '-' (d :: (ds ++ '.' :: ds2)) rfl (by decide)]
      simp only [Bool.false_eq_true, if_false]
      rw [accept_of_mem _ fmt.sign '-' (d :: (ds ++ '.' :: ds2)) rfl (by decide)]
      simp only [List.nil_append]
      rw [accept3_of_not_mem _ _ _ _ d (ds ++ '.' :: ds2) rfl
        (isDigit_not_mem d hd _ (by decide))]
      simp only [Bool.false_eq_true, if_false]
      have := scanNumber_decimal ['-'] (d :: ds) ds2 hne h1 h2
      simp only [List.cons_append, List.nil_append, List.append_assoc] at this
      rw [this]
    | false =>
      simp only [Bool.false_eq_true, if_false, List.cons_append, List.nil_append,
        List.append_assoc]
      rw [accept3_of_not_mem _ _ _ _ d (ds ++ '.' :: ds2) rfl
        (isDigit_not_mem d hd _ (by decide))]
      simp only [Bool.false_eq_true, if_false]
      rw [accept_of_not_mem _ fmt.sign d (ds ++ '.' :: ds2) rfl
        (isDigit_not_mem d hd _ (by decide))]
      simp only
      rw [accept3_of_not_mem _ _ _ _ d (ds ++ '.' :: ds2) rfl
        (isDigit_not_mem d hd _ (by decide))]
      simp only [Bool.false_eq_true, if_false]
      have := scanNumber_decimal [] (d :: ds) ds2 hne h1 h2
      simp only [List.cons_append, List.nil_append, List.append_assoc] at this
      rw [this]

/-! ## `strconv.ParseFloat` on a plain decimal number -/

theorem digitsValue_cons (c : Char) (ds : Str) :
    digitsValue (c :: ds) = strconv.digitVal c * 10 ^ ds.length + digitsValue ds := by
  have := digitsValue_append [c] ds
  rw [digitsValue_singleton] at this
  exact this

theorem isDigit_ne (c : Char) (h : strconv.isDigit c = true) : c ≠ '_' ∧ c ≠ '.' ∧ c ≠ '-'
    ∧ c ≠ '+' ∧ c ≠ 'x' ∧ c ≠ 'X' ∧ c ≠ 'i' ∧ c ≠ 'I' ∧ c ≠ 'n' ∧ c ≠ 'N' ∧ c ≠ 'p' ∧ c ≠ ',' := by
  refine ⟨?_, ?_, ?_, ?_, ?_, ?_, ?_, ?_, ?_, ?_, ?_, ?_⟩ <;>
  · intro e; rw [e] at h; exact absurd h (by decide)

theorem readMantissa_digit (c : Char) (cs : Str) (st : strconv.mantState)
    (hc : strconv.isDigit c = true) :
    strconv.readMantissa false st (c :: cs)
      = if c = '0' ∧ st.nd = 0 then
          strconv.readMantissa false { st with sawdigits := true, dp := st.dp - 1 } cs
        else
          strconv.readMantissa false
            { st with sawdigits := true, nd := st.nd + 1,
                      mantissa := st.mantissa * 10 + strconv.digitVal c } cs := by
  obtain ⟨h1, h2, _⟩ := isDigit_ne c hc
  conv_lhs => unfold strconv.readMantissa
  simp only [h1, h2, hc, if_false, if_true, Bool.false_eq_true]

/-- The mantissa loop on a run of digits: the digits are appended to the mantissa,
and after the period every digit lowers `dp - nd` by one. -/
theorem readMantissa_digits (ds : Str) (hds : ∀ c ∈ ds, strconv.isDigit c = true) (rest : Str) :
    ∀ st : strconv.mantState, (st.nd = 0 → st.mantissa = 0) →
      ∃ st' : strconv.mantState,
        strconv.readMantissa false st (ds ++ rest) = strconv.readMantissa false st' rest
          ∧ st'.sawdot = st.sawdot ∧ st'.underscores = st.underscores
          ∧ (ds ≠ [] ∨ st.sawdigits = true → st'.sawdigits = true)
          ∧ st'.mantissa = st.mantissa * 10 ^ ds.length + digitsValue ds
          ∧ (st'.nd = 0 → st'.mantissa = 0)
          ∧ st'.dp - (st'.nd : Int) = st.dp - (st.nd : Int) - (ds.length : Int) := by
  induction ds with
  | nil =>
    intro st hinv
    refine ⟨st, rfl, rfl, rfl, ?_, by simp [digitsValue], hinv, by simp⟩
    rintro (h | h)
    · exact absurd rfl h
    · exact h
  | cons c cs ih =>
    intro st hinv
    have hc := hds c (by simp)
    have hcs : ∀ x ∈ cs, strconv.isDigit x = true := fun x hx => hds x (by simp [hx])
    rw [List.cons_append, readMantissa_digit c _ st hc]
    by_cases hz : c = '0' ∧ st.nd = 0
    · rw [if_pos hz]
      obtain ⟨st', e1, e2, e3, e4, e5, e6, e7⟩ :=
        ih hcs { st with sawdigits := true, dp := st.dp - 1 } hinv
      refine ⟨st', e1, e2, e3, fun _ => e4 (Or.inr rfl), ?_, e6, ?_⟩
      · rw [e5, digitsValue_cons, hz.1]
        simp only [hinv hz.2, zero_mul, zero_add, List.length_cons]
        have : strconv.digitVal '0' = 0 := rfl
        rw [this]; simp
      · simp only [List.length_cons] at e7 ⊢
        push_cast
        omega
    · rw [if_neg hz]
      obtain ⟨st', e1, e2, e3, e4, e5, e6, e7⟩ :=
        ih hcs { st with sawdigits := true, nd := st.nd + 1,
                         mantissa := st.mantissa * 10 + strconv.digitVal c } (by simp)
      refine ⟨st', e1, e2, e3, fun _ => e4 (Or.inr rfl), ?_, e6, ?_⟩
      · rw [e5, digitsValue_cons]
        simp only [List.length_cons]
        ring
      · simp only [List.length_cons] at e7 ⊢
        push_cast at e7 ⊢
        omega

/-- `readFloat` on an optional minus sign, digits, a period and digits: the
mantissa is the number the digits denote, the exponent minus the number of
digits after the period. -/
theorem readFloat_decimal (neg : Bool) (ds1 ds2 : Str) (hne : ds1 ≠ [])
    (h1 : ∀ c ∈ ds1, strconv.isDigit c = true) (h2 : ∀ c ∈ ds2, strconv.isDigit c = true) :
    strconv.readFloat ((if neg then ['-'] else []) ++ ds1 ++ '.' :: ds2)
      = some ⟨digitsValue (ds1 ++ ds2),
          if digitsValue (ds1 ++ ds2) ≠ 0 then -(ds2.length : Int) else 0, neg, false,
          ((if neg then ['-'] else []) ++ ds1 ++ '.' :: ds2).length⟩ := by
  -- the mantissa loop
  obtain ⟨st1, a1, a2, a3, a4, a5, a6, _⟩ :=
    readMantissa_digits ds1 h1 ('.' :: ds2) ⟨false, false, 0, 0, 0, false⟩ (fun _ => rfl)
  have hdot : strconv.readMantissa false st1 ('.' :: ds2)
      = strconv.readMantissa false { st1 with sawdot := true, dp := st1.nd } ds2 := by
    conv_lhs => unfold strconv.readMantissa
    simp [a2]
  obtain ⟨st2, b1, b2, b3, b4, b5, b6, b7⟩ :=
    readMantissa_digits ds2 h2 [] { st1 with sawdot := true, dp := st1.nd } a6
  rw [List.append_nil] at b1
  have hend : strconv.readMantissa false st2 [] = (st2, []) := by
    unfold strconv.readMantissa; rfl
  have hm : strconv.readMantissa false ⟨false, false, 0, 0, 0, false⟩ (ds1 ++ '.' :: ds2)
      = (st2, []) := by rw [a1, hdot, b1, hend]
  have hsd : st2.sawdigits = true := b4 (Or.inr (a4 (Or.inl hne)))
  have hman : st2.mantissa = digitsValue (ds1 ++ ds2) := by
    rw [b5, digitsValue_append]
    simp only [a5, zero_mul, zero_add]
  have hexp : st2.dp - (st2.nd : Int) = -(ds2.length : Int) := by
    rw [b7]; simp
  have hund : st2.underscores = false := by rw [b3]; exact a3
  have hsdot : st2.sawdot = true := b2
  -- the head of the string
  cases ds1 with
  | nil => exact absurd rfl hne
  | cons d ds =>
    have hd := h1 d (by simp)
    obtain ⟨n1, n2, n3, n4, n5, n6, _⟩ := isDigit_ne d hd
    have hhex : strconv.hasHexPrefix (d :: ds ++ '.' :: ds2) = false := by
      cases ds with
      | nil =>
        cases ds2 with
        | nil => rfl
        | cons x xs => simp [strconv.hasHexPrefix]
      | cons d2 ds' =>
        obtain ⟨_, _, _, _, m5, m6, _⟩ := isDigit_ne d2 (h1 d2 (by simp))
        cases hrest : ds' ++ '.' :: ds2 with
        | nil => simp at hrest
        | cons y ys =>
          simp only [List.cons_append, hrest, strconv.hasHexPrefix, m5, m6, or_self,
            and_false, decide_False]
    have hfin : strconv.readExponent ((if neg then ['-'] else []) ++ (d :: ds) ++ '.' :: ds2)
        neg false st2 []
        = some ⟨digitsValue (d :: ds ++ ds2),
            if digitsValue (d :: ds ++ ds2) ≠ 0 then -(ds2.length : Int) else 0, neg, false,
            ((if neg then ['-'] else []) ++ (d :: ds) ++ '.' :: ds2).length⟩ := by
      unfold strconv.readExponent
      simp only [Bool.false_eq_true, if_false, hsdot, if_true, hund]
      unfold strconv.readFloatFinish
      simp only [Bool.false_and, Bool.false_eq_true, if_false, List.length_nil, Nat.sub_zero,
        hman, hexp]
    cases neg with
    | true =>
      simp only [if_true, List.cons_append, List.nil_append] at hfin ⊢
      unfold strconv.readFloat
      simp only [or_true, if_true]
      rw [← List.cons_append, hhex]
      simp only [Bool.false_eq_true, if_false]
      rw [hm]
      simp only [hsd, Bool.not_true, Bool.false_eq_true, if_false, List.cons_append]
      simpa using hfin
    | false =>
      simp only [Bool.false_eq_true, if_false, List.nil_append, List.cons_append] at hfin ⊢
      unfold strconv.readFloat
      simp only [n3, n4, or_self, if_false]
      rw [← List.cons_append, hhex]
      simp only [Bool.false_eq_true, if_false]
      rw [hm]
      simp only [hsd, Bool.not_true, Bool.false_eq_true, if_false, List.cons_append]
      simpa using hfin

theorem lowerASCII_digit (d : Char) (h : strconv.isDigit d = true) : strconv.lowerASCII d = d := by
  have h1 : 48 ≤ d.toNat ∧ d.toNat ≤ 57 := by
    simpa [strconv.isDigit] using h
  unfold strconv.lowerASCII
  have : ¬ ('A'.toNat ≤ d.toNat ∧ d.toNat ≤ 'Z'.toNat) := by
    have : 'A'.toNat = 65 := rfl
    rw [this]; omega
  rw [if_neg this]

theorem special_decimal (neg : Bool) (ds1 ds2 : Str) (hne : ds1 ≠ [])
    (h1 : ∀ c ∈ ds1, strconv.isDigit c = true) :
    strconv.special ((if neg then ['-'] else []) ++ ds1 ++ '.' :: ds2) = none := by
  cases ds1 with
  | nil => exact absurd rfl hne
  | cons d ds =>
    have hd := h1 d (by simp)
    obtain ⟨_, _, n3, n4, _, _, n7, n8, n9, n10, _⟩ := isDigit_ne d hd
    cases neg with
    | true =>
      simp only [if_true, List.cons_append, List.nil_append]
      unfold strconv.special
      simp only [or_true, if_true]
      unfold strconv.specialInf
      have : strconv.commonPrefixLenIgnoreCase (d :: (ds ++ '.' :: ds2)) "infinity".toList = 0 := by
        have e : "infinity".toList = 'i' :: "nfinity".toList := rfl
        rw [e]
        unfold strconv.commonPrefixLenIgnoreCase
        rw [lowerASCII_digit d hd, if_neg n7]
      simp only [this]
      rfl
    | false =>
      simp only [Bool.false_eq_true, if_false, List.nil_append, List.cons_append]
      unfold strconv.special
      simp only [n3, n4, n7, n8, n9, n10, or_self, if_false]

/-- `strconv.ParseFloat` on an optional minus sign, digits, a period and digits:
the decimal number the digits denote, rounded to binary64, or a range error. -/
theorem ParseFloat_decimal (neg : Bool) (ds1 ds2 : Str) (hne : ds1 ≠ [])
    (h1 : ∀ c ∈ ds1, strconv.isDigit c = true) (h2 : ∀ c ∈ ds2, strconv.isDigit c = true) :
    strconv.ParseFloat ((if neg then ['-'] else []) ++ ds1 ++ '.' :: ds2)
      = match roundFloat64 neg (digitsValue (ds1 ++ ds2)) (10 ^ ds2.length) with
        | some f => .ok f
        | none => .error .ErrRange := by
  unfold strconv.ParseFloat
  rw [special_decimal neg ds1 ds2 hne h1, readFloat_decimal neg ds1 ds2 hne h1 h2]
  simp only [ne_eq, not_true_eq_false, if_false]
  have hround : (strconv.floatParts.mk (digitsValue (ds1 ++ ds2))
      (if ¬ digitsValue (ds1 ++ ds2) = 0 then -(ds2.length : Int) else 0) neg false
      ((if neg then ['-'] else []) ++ ds1 ++ '.' :: ds2).length).round
      = roundFloat64 neg (digitsValue (ds1 ++ ds2)) (10 ^ ds2.length) := by
    unfold strconv.floatParts.round
    simp only [Bool.false_eq_true, if_false]
    by_cases hM : digitsValue (ds1 ++ ds2) = 0
    · simp [hM, roundFloat64]
    · simp only [hM, not_false_eq_true, if_true]
      by_cases hk : ds2.length = 0
      · simp [hk]
      · have : ¬ (0 : Int) ≤ -(ds2.length : Int) := by omega
        rw [if_neg this]
        simp
  rw [hround]

/-- `fmt.Sscanf` with `%f` on an optional minus sign, digits, a period and digits. -/
theorem Sscanf_decimal (neg : Bool) (ds1 ds2 : Str) (hne : ds1 ≠ [])
    (h1 : ∀ c ∈ ds1, strconv.isDigit c = true) (h2 : ∀ c ∈ ds2, strconv.isDigit c = true) :
    fmt.Sscanf ((if neg then ['-'] else []) ++ ds1 ++ '.' :: ds2)
      = match roundFloat64 neg (digitsValue (ds1 ++ ds2)) (10 ^ ds2.length) with
        | some f => .ok f
        | none => .error (strconv.NumError.Error "ParseFloat".toList
            ((if neg then ['-'] else []) ++ ds1 ++ '.' :: ds2) .ErrRange) := by
  have hp : 'p' ∉ (if neg then ['-'] else []) ++ ds1 ++ '.' :: ds2 := by
    intro hmem
    simp only [List.mem_append, List.mem_cons] at hmem
    rcases hmem with (h | h) | h | h
    · cases neg <;> simp at h
    · exact absurd (h1 _ h) (by decide)
    · exact absurd h (by decide)
    · exact absurd (h2 _ h) (by decide)
  have hhead : ∃ c r, (if neg then ['-'] else []) ++ ds1 ++ '.' :: ds2 = c :: r
      ∧ unicode.IsSpace c = false := by
    cases ds1 with
    | nil => exact absurd rfl hne
    | cons d ds =>
      cases neg with
      | true => exact ⟨'-', _, rfl, by decide⟩
      | false =>
        refine ⟨d, _, rfl, ?_⟩
        have hd : 48 ≤ d.toNat ∧ d.toNat ≤ 57 := by
          simpa [strconv.isDigit] using h1 d (by simp)
        simp only [unicode.IsSpace]
        simp
        omega
  obtain ⟨c, r, hcr, hc⟩ := hhead
  have hS : fmt.Sscanf ((if neg then ['-'] else []) ++ ds1 ++ '.' :: ds2)
      = fmt.convertFloat (fmt.floatToken ((if neg then ['-'] else []) ++ ds1 ++ '.' :: ds2)).1 := by
    rw [hcr]; exact Sscanf_of_head c r hc
  rw [hS, floatToken_decimal neg ds1 ds2 hne h1 h2, convertFloat_of_no_p _ hp,
    ParseFloat_decimal neg ds1 ds2 hne h1 h2]
  all_goals (cases roundFloat64 neg (digitsValue (ds1 ++ ds2)) (10 ^ ds2.length) <;> rfl)

/-- When `roundFloat64` reports an overflow, the fraction is at least
`2^1024 - 2^970`, the midpoint between the largest binary64 value and `2^1024`. -/
theorem roundFloat64_none (neg : Bool) (num den : Nat) (hd : 0 < den)
    (h : roundFloat64 neg num den = none) :
    (2 : ℚ) ^ (1024 : Nat) - (2 : ℚ) ^ (970 : Nat) ≤ (num : ℚ) / den := by
  rcases Nat.eq_zero_or_pos num with hn | hn
  · subst hn
    simp [roundFloat64] at h
  · obtain ⟨f1, f2⟩ := floorLog2_spec num den hn hd
    obtain ⟨s1, s2, _⟩ := roundFloat64_scaled num den hn hd
    rw [roundFloat64_pos neg num den hn] at h
    generalize hqe : max (floorLog2 num den - 52) (-1074) = qe at *
    generalize hsc : scalePow2 num den qe = sc at *
    have hbig : 971 < qe → (2 : ℚ) ^ (1024 : Nat) - (2 : ℚ) ^ (970 : Nat) ≤ (num : ℚ) / den := by
      intro hq
      have hfl : 1024 ≤ floorLog2 num den := by
        rcases max_choice (floorLog2 num den - 52) (-1074) with hc | hc
        · rw [hqe] at hc; omega
        · rw [hqe] at hc; omega
      have : (2 : ℚ) ^ (1024 : Int) ≤ (2 : ℚ) ^ floorLog2 num den :=
        zpow_le_zpow_right₀ (by norm_num) hfl
      have e : (2 : ℚ) ^ (1024 : Int) = (2 : ℚ) ^ (1024 : Nat) := zpow_natCast 2 1024
      rw [e] at this
      have hpos : (0 : ℚ) < (2 : ℚ) ^ (970 : Nat) := by positivity
      linarith
    split at h
    · rename_i h53
      split at h
      · rename_i hlt
        by_cases hq : 971 < qe
        · exact hbig hq
        · have hq971 : qe = 971 := by omega
          have hr := roundHalfEven_abs sc.1 sc.2 s1
          rw [h53, abs_le] at hr
          have hx : (2 : ℚ) ^ (53 : Nat) - 1 / 2 ≤ (sc.1 : ℚ) / sc.2 := by
            have e : ((2 ^ 53 : Nat) : ℚ) = (2 : ℚ) ^ (53 : Nat) := by norm_cast
            rw [e] at hr
            linarith [hr.2]
          have hq' : (num : ℚ) / den = (sc.1 : ℚ) / sc.2 * (2 : ℚ) ^ qe := by
            rw [s2, div_mul_zpow]
          rw [hq', hq971]
          have e971 : (2 : ℚ) ^ (971 : Int) = (2 : ℚ) ^ (971 : Nat) := zpow_natCast 2 971
          rw [e971]
          have hp : (0 : ℚ) < (2 : ℚ) ^ (971 : Nat) := by positivity
          have e1 : (2 : ℚ) ^ (1024 : Nat) - (2 : ℚ) ^ (970 : Nat)
              = ((2 : ℚ) ^ (53 : Nat) - 1 / 2) * (2 : ℚ) ^ (971 : Nat) := by
            rw [show (1024 : Nat) = 53 + 971 from rfl, pow_add,
              show (971 : Nat) = 970 + 1 from rfl, pow_succ]
            ring
          rw [e1]
          exact mul_le_mul_of_nonneg_right hx (le_of_lt hp)
      · exact Option.noConfusion h
    · split at h
      · rename_i hlt
        exact hbig hlt
      · exact Option.noConfusion h

/-- A fraction in `[2^53 - 1/2, 2^53)` rounds to `2^53`: above the midpoint by
nearness, at the midpoint because `2^53` is the even neighbour. -/
theorem roundHalfEven_top (n d : Nat) (hd : 0 < d)
    (h1 : 18014398509481983 * d ≤ 2 * n) (h2 : n < 9007199254740992 * d) :
    roundHalfEven n d = 9007199254740992 := by
  have hq1 : n / d < 9007199254740992 := (Nat.div_lt_iff_lt_mul hd).mpr h2
  have hq2 : 9007199254740991 ≤ n / d := by
    apply (Nat.le_div_iff_mul_le hd).mpr
    omega
  have hq : n / d = 9007199254740991 := by omega
  have hdm := Nat.div_add_mod n d
  rw [hq] at hdm
  have hr : d ≤ 2 * (n % d) := by omega
  unfold roundHalfEven
  simp only [hq]
  rw [if_neg (by omega)]
  split
  · rfl
  · rfl

/-- From `2^1024 - 2^970` on, the midpoint between the largest binary64 value and
`2^1024`, `roundFloat64` reports an overflow. -/
theorem roundFloat64_overflow (neg : Bool) (num den : Nat) (hd : 0 < den)
    (h : (2 : ℚ) ^ (1024 : Nat) - (2 : ℚ) ^ (970 : Nat) ≤ (num : ℚ) / den) :
    roundFloat64 neg num den = none := by
  have hdq : (0 : ℚ) < (den : ℚ) := by exact_mod_cast hd
  have hP : (0 : ℚ) < (2 : ℚ) ^ (970 : Nat) := by positivity
  have e1024 : (2 : ℚ) ^ (1024 : Nat) = 18014398509481984 * (2 : ℚ) ^ (970 : Nat) := by
    rw [show (1024 : Nat) = 54 + 970 from rfl, pow_add]
    norm_num
  have hn : 0 < num := by
    rcases Nat.eq_zero_or_pos num with h0 | h0
    · subst h0
      have h0 : ((0 : Nat) : ℚ) / den = 0 := by simp
      rw [e1024, h0] at h
      linarith
    · exact h0
  obtain ⟨f1, f2⟩ := floorLog2_spec num den hn hd
  rw [roundFloat64_pos neg num den hn]
  by_cases hfl : 1024 ≤ floorLog2 num den
  · have hq : 971 < max (floorLog2 num den - 52) (-1074) := by
      have := le_max_left (floorLog2 num den - 52) (-1074)
      omega
    have hq1 : 971 < max (floorLog2 num den - 52) (-1074) + 1 := by omega
    rw [if_pos hq1, if_pos hq]
    simp
  · have h1023 : (2 : ℚ) ^ (1023 : Int) ≤ (num : ℚ) / den := by
      have e : (2 : ℚ) ^ (1023 : Int) = (2 : ℚ) ^ (1023 : Nat) := zpow_natCast 2 1023
      rw [e, show (1023 : Nat) = 53 + 970 from rfl, pow_add]
      rw [e1024] at h
      have : (2 : ℚ) ^ (53 : Nat) = 9007199254740992 := by norm_num
      rw [this]
      linarith
    have hlt : (2 : ℚ) ^ (1023 : Int) < (2 : ℚ) ^ (floorLog2 num den + 1) :=
      lt_of_le_of_lt h1023 f2
    have hfl2 : (1023 : Int) < floorLog2 num den + 1 :=
      (zpow_lt_zpow_iff_right₀ (by norm_num : (1 : ℚ) < 2)).mp hlt
    have hfe : floorLog2 num den = 1023 := by omega
    have hqe : max (floorLog2 num den - 52) (-1074) = 971 := by
      rw [hfe]; rfl
    rw [hfe] at f2
    rw [hqe]
    have hsc : scalePow2 num den 971 = (num, den * 2 ^ 971) := by
      unfold scalePow2
      rw [if_pos (by decide)]
      rfl
    rw [hsc]
    have e2 : (2 : ℚ) ^ ((1023 : Int) + 1) = 18014398509481984 * (2 : ℚ) ^ (970 : Nat) := by
      rw [show ((1023 : Int) + 1) = ((1024 : Nat) : Int) from rfl, zpow_natCast, e1024]
    rw [e2] at f2
    rw [e1024] at h
    have hcast : ((2 ^ 971 : Nat) : ℚ) = 2 * (2 : ℚ) ^ (970 : Nat) := by
      rw [Nat.cast_pow, show (971 : Nat) = 970 + 1 from rfl, pow_succ]
      push_cast
      ring
    generalize (2 : ℚ) ^ (970 : Nat) = P at *
    generalize (2 ^ 971 : Nat) = Pn at *
    have hPn : 0 < Pn := by
      have : (0 : ℚ) < (Pn : ℚ) := by rw [hcast]; linarith
      exact_mod_cast this
    have hle : 18014398509481983 * P * den ≤ (num : ℚ) := by
      have := (le_div_iff₀ hdq).mp h
      linarith
    have hl2 : (num : ℚ) < 18014398509481984 * P * den := (div_lt_iff₀ hdq).mp f2
    have hr : roundHalfEven num (den * Pn) = 9007199254740992 := by
      apply roundHalfEven_top
      · exact Nat.mul_pos hd hPn
      · have : ((18014398509481983 * (den * Pn) : Nat) : ℚ) ≤ ((2 * num : Nat) : ℚ) := by
          push_cast
          rw [hcast]
          nlinarith
        exact_mod_cast this
      · have : ((num : Nat) : ℚ) < ((9007199254740992 * (den * Pn) : Nat) : ℚ) := by
          push_cast
          rw [hcast]
          nlinarith
        exact_mod_cast this
    simp only [hr]
    rw [if_pos (by norm_num), if_pos (by norm_num)]

/-- The comma normalization of digits, a comma and digits puts a period where the
comma was. -/
theorem ReplaceAll_decimal (ds1 ds2 : Str) (h1 : ∀ c ∈ ds1, strconv.isDigit c = true)
    (h2 : ∀ c ∈ ds2, strconv.isDigit c = true) :
    strings.ReplaceAll (ds1 ++ ',' :: ds2) ",".toList ".".toList = ds1 ++ '.' :: ds2 := by
  have hmap : ∀ ds : Str, (∀ c ∈ ds, strconv.isDigit c = true) →
      ds.map (fun c => if c = ',' then '.' else c) = ds := by
    intro ds hds
    induction ds with
    | nil => rfl
    | cons d ds ih =>
      have hd := (isDigit_ne d (hds d (List.mem_cons_self d ds))).2.2.2.2.2.2.2.2.2.2.2
      rw [List.map_cons, ih (fun c hc => hds c (List.mem_cons_of_mem d hc)), if_neg hd]
  rw [ReplaceAll_comma, List.map_append, List.map_cons, hmap ds1 h1, hmap ds2 h2]
  rfl

/-- `getEuroPrice` on a text of digits, a comma and digits: the rounding of the
decimal number to binary64, or the range error of `strconv.ParseFloat`. -/
theorem getEuroPrice_decimal (Get : Str → Except Str http.Response) (url : Str)
    (resp : http.Response) (doc : html.Node) (ds1 ds2 : Str)
    (hget : Get url = .ok resp) (hcode : resp.StatusCode = 200) (hbody : resp.Body = .ok doc)
    (hne : ds1 ≠ []) (h1 : ∀ c ∈ ds1, strconv.isDigit c = true)
    (h2 : ∀ c ∈ ds2, strconv.isDigit c = true)
    (htext : strings.TrimSpace (goquery.Text (goquery.Find doc euroSelector))
      = ds1 ++ ',' :: ds2) :
    getEuroPrice Get url =
      match roundFloat64 false (digitsValue (ds1 ++ ds2)) (10 ^ ds2.length) with
      | some f => .ok f
      | none => .error (.errorf ("error convirtiendo el texto a float: ".toList ++
          strconv.NumError.Error "ParseFloat".toList (ds1 ++ '.' :: ds2) .ErrRange)) := by
  have hnil : ds1 ++ ',' :: ds2 ≠ [] := by simp
  rw [getEuroPrice_of_document Get url resp doc hget hcode hbody, htext, if_neg hnil,
    ReplaceAll_decimal ds1 ds2 h1 h2]
  have hs := Sscanf_decimal false ds1 ds2 hne h1 h2
  simp only [Bool.false_eq_true, if_false, List.nil_append] at hs
  rw [hs]
  cases roundFloat64 false (digitsValue (ds1 ++ ds2)) (10 ^ ds2.length) <;> rfl

/-- What `roundFloat64` returns is a canonical binary64 value. -/
theorem roundFloat64_canonical (neg : Bool) (num den : Nat) (hd : 0 < den) (f : Float64)
    (h : roundFloat64 neg num den = some f) : f.isCanonical = true := by
  obtain ⟨m, e, hf, hcan, _⟩ := roundFloat64_nearest neg num den hd f h
  rw [hf]
  exact hcan

theorem floatParts_round_canonical (p : strconv.floatParts) (f : Float64)
    (h : p.round = some f) : f.isCanonical = true := by
  unfold strconv.floatParts.round at h
  simp only at h
  split at h
  · exact roundFloat64_canonical _ _ _ Nat.one_pos f h
  · refine roundFloat64_canonical _ _ _ (Nat.pow_pos ?_) f h
    split <;> decide

theorem specialInf_canonical (neg : Bool) (k : Nat) (s : Str) (f : Float64) (n : Nat)
    (h : strconv.specialInf neg k s = some (f, n)) : f.isCanonical = true := by
  unfold strconv.specialInf at h
  simp only at h
  repeat' split at h
  all_goals first
    | exact Option.noConfusion h
    | (rw [← (Prod.mk.inj (Option.some.inj h)).1]
       rfl)

theorem special_canonical (s : Str) (f : Float64) (n : Nat)
    (h : strconv.special s = some (f, n)) : f.isCanonical = true := by
  unfold strconv.special at h
  repeat' split at h
  all_goals first
    | exact specialInf_canonical _ _ _ _ _ h
    | exact Option.noConfusion h
    | (rw [← (Prod.mk.inj (Option.some.inj h)).1]
       rfl)

/-- What `strconv.ParseFloat` returns is NaN, an infinity or a canonical finite
value. -/
theorem ParseFloat_canonical (s : Str) (v : Float64) (h : strconv.ParseFloat s = .ok v) :
    v.isCanonical = true := by
  unfold strconv.ParseFloat at h
  split at h
  · rename_i f n hs
    split at h
    · have hv : f = v := by simpa using h
      rw [← hv]
      exact special_canonical s f n hs
    · exact absurd h (by simp)
  · split at h
    · exact absurd h (by simp)
    · rename_i p hp
      split at h
      · exact absurd h (by simp)
      · split at h
        · rename_i f hf
          have hv : f = v := by simpa using h
          rw [← hv]
          exact floatParts_round_canonical p f hf
        · exact absurd h (by simp)

/-- What `math.Ldexp` makes of a canonical value is canonical. -/
theorem Ldexp_canonical (f : Float64) (k : Int) (h : f.isCanonical = true) :
    (math.Ldexp f k).isCanonical = true := by
  unfold math.Ldexp
  split
  · simp only
    repeat' split
    all_goals first
      | exact h
      | rfl
      | (rename_i g hg
         split at hg
         · exact roundFloat64_canonical _ _ _ Nat.one_pos g hg
         · exact roundFloat64_canonical _ _ _ (Nat.pow_pos (by decide)) g hg)
  · exact h

theorem convertFloat_canonical (tok : Str) (v : Float64) (h : fmt.convertFloat tok = .ok v) :
    v.isCanonical = true := by
  unfold fmt.convertFloat at h
  split at h
  · split at h
    · exact Except.noConfusion h
    · rename_i f hf
      split at h
      · exact Except.noConfusion h
      · rename_i m hm
        have hv : math.Ldexp f m = v := by simpa using h
        rw [← hv]
        exact Ldexp_canonical f m (ParseFloat_canonical _ f hf)
  · split at h
    · exact Except.noConfusion h
    · rename_i f hf
      have hv : f = v := by simpa using h
      rw [← hv]
      exact ParseFloat_canonical _ f hf

theorem Sscanf_canonical (s : Str) (v : Float64) (h : fmt.Sscanf s = .ok v) :
    v.isCanonical = true := by
  unfold fmt.Sscanf at h
  repeat' split at h
  all_goals first
    | exact Except.noConfusion h
    | exact convertFloat_canonical _ v h

/-- A value that `getEuroPrice` returns is NaN, an infinity or a canonical finite
binary64 value. -/
theorem getEuroPrice_canonical (Get : Str → Except Str http.Response) (url : Str)
    (v : Float64) (h : getEuroPrice Get url = .ok v) : v.isCanonical = true := by
  unfold getEuroPrice at h
  simp only at h
  repeat' split at h
  all_goals first
    | exact Except.noConfusion h
    | (rename_i f hf
       have hv : f = v := by simpa using h
       rw [← hv]
       exact Sscanf_canonical _ f hf)

/-- On the page with one marked text the selector finds the `strong` of it. -/
theorem Find_pageOf_single (t : Str) :
    goquery.Find (pageOf [t]) euroSelector
      = [element "strong".toList [] [textNode t]] := by
  simp [goquery.Find, pageOf, element, textNode, cascadia.matchAll, cascadia.matchAllList,
    euroSelector, cascadia.Sel.Match, cascadia.Compound.Match, cascadia.matchTag,
    cascadia.matchClass, cascadia.anyAncestor, html.Node.Typ, html.Node.Data, html.Node.Attr,
    html.Node.Children]
  decide

/-- The text of the selection on the page with one marked text is that text. -/
theorem Text_pageOf_single (t : Str) :
    goquery.Text (goquery.Find (pageOf [t]) euroSelector) = t := by
  rw [Find_pageOf_single]
  simp [goquery.Text, goquery.nodesText, goquery.nodeText, textNode, element]

/-- A text without white space is its own trimmed form. -/
theorem TrimSpace_of_no_space (s : Str) (h : ∀ c ∈ s, unicode.IsSpace c = false) :
    strings.TrimSpace s = s := by
  have hl : ∀ t : Str, (∀ c ∈ t, unicode.IsSpace c = false) → strings.TrimLeftSpace t = t := by
    intro t ht
    cases t with
    | nil => rfl
    | cons c r => exact TrimLeftSpace_of_head c r (ht c (List.mem_cons_self c r))
  unfold strings.TrimSpace
  rw [hl s h, hl s.reverse (fun c hc => h c (List.mem_reverse.mp hc)), List.reverse_reverse]

/-- A text without a comma is its own normalized form. -/
theorem ReplaceAll_of_no_comma (s : Str) (h : ',' ∉ s) :
    strings.ReplaceAll s ",".toList ".".toList = s := by
  rw [ReplaceAll_comma]
  induction s with
  | nil => rfl
  | cons c r ih =>
    have hc : c ≠ ',' := fun e => h (by simp [e])
    have hr : ',' ∉ r := fun e => h (List.mem_cons_of_mem c e)
    rw [List.map_cons, ih hr, if_neg hc]

/-- A page that holds one marked text without white space and without a comma:
`getEuroPrice` scans that text as it stands. -/
theorem getEuroPrice_serve (t : Str) (url : Str) (hne : t ≠ [])
    (hsp : ∀ c ∈ t, unicode.IsSpace c = false) (hco : ',' ∉ t) (f : Float64)
    (h : fmt.Sscanf t = .ok f) : getEuroPrice (serve [t]) url = .ok f := by
  rw [getEuroPrice_of_document (serve [t]) url ⟨200, "200 OK".toList, .ok (pageOf [t])⟩
    (pageOf [t]) rfl rfl rfl, Text_pageOf_single, TrimSpace_of_no_space t hsp, if_neg hne,
    ReplaceAll_of_no_comma t hco, h]

theorem isDigit_not_space (c : Char) (h : strconv.isDigit c = true) :
    unicode.IsSpace c = false := by
  have hx1 : 48 ≤ c.toNat ∧ c.toNat ≤ 57 := by
    simpa [strconv.isDigit] using h
  simp only [unicode.IsSpace]
  simp
  omega

/-- The digits `%.8f` prints for a finite value, read back by `getEuroPrice`: the
rounding of `fixedDigits / 10^8` to binary64. -/
theorem getEuroPrice_format_finite (neg : Bool) (m : Nat) (e : Int) (url : Str) (f : Float64)
    (h : roundFloat64 neg (strconv.fixedDigits 8 m e) (10 ^ 8) = some f) :
    getEuroPrice (serve [fmt.formatFloat8 (.Finite neg m e)]) url = .ok f := by
  obtain ⟨i1, i2, i3⟩ := FormatUint_spec (strconv.fixedDigits 8 m e / 10 ^ 8)
  obtain ⟨p1, p2, p3⟩ := padDigits_spec 8 (strconv.fixedDigits 8 m e % 10 ^ 8)
  have hform : fmt.formatFloat8 (.Finite neg m e)
      = (if neg then ['-'] else []) ++ strconv.FormatUint (strconv.fixedDigits 8 m e / 10 ^ 8)
          ++ '.' :: strconv.padDigits 8 (strconv.fixedDigits 8 m e % 10 ^ 8) := by
    simp [fmt.formatFloat8, strconv.FormatFloat]
  generalize strconv.FormatUint (strconv.fixedDigits 8 m e / 10 ^ 8) = ip at *
  generalize strconv.padDigits 8 (strconv.fixedDigits 8 m e % 10 ^ 8) = fr at *
  have hval : digitsValue (ip ++ fr) = strconv.fixedDigits 8 m e := by
    rw [digitsValue_append, i3, p3, p1, Nat.mod_mod]
    exact Nat.div_add_mod' _ _
  have hs := Sscanf_decimal neg ip fr i1 i2 p2
  rw [hval, p1, h] at hs
  rw [hform]
  apply getEuroPrice_serve
  · cases neg <;> simp
  · intro c hc
    simp only [List.mem_append, List.mem_cons] at hc
    rcases hc with (hc | hc) | hc | hc
    · cases neg
      · simp at hc
      · simp at hc; rw [hc]; decide
    · exact isDigit_not_space c (i2 c hc)
    · rw [hc]; decide
    · exact isDigit_not_space c (p2 c hc)
  · intro hc
    simp only [List.mem_append, List.mem_cons] at hc
    rcases hc with (hc | hc) | hc | hc
    · cases neg <;> simp at hc
    · exact absurd (i2 _ hc) (by decide)
    · exact absurd hc (by decide)
    · exact absurd (p2 _ hc) (by decide)
  · exact hs

theorem nat_eq_of_abs (a b : Nat) (h : |(a : ℚ) - (b : ℚ)| ≤ 1 / 2) : a = b := by
  rw [abs_le] at h
  rcases Nat.lt_trichotomy a b with hlt | heq | hgt
  · have : (a : ℚ) + 1 ≤ (b : ℚ) := by exact_mod_cast hlt
    linarith [h.1]
  · exact heq
  · have : (b : ℚ) + 1 ≤ (a : ℚ) := by exact_mod_cast hgt
    linarith [h.2]

/-- The digits of `%.8f`, as a fraction over `10^8`, lie within `0.5e-8` of the
value printed. -/
theorem fixedDigits_near (m : Nat) (e : Int) :
    |(strconv.fixedDigits 8 m e : ℚ) / ((10 ^ 8 : Nat) : ℚ) - (m : ℚ) * (2 : ℚ) ^ e|
      ≤ 1 / (2 * 10 ^ 8) := by
  have h := fixedDigits_abs 8 m e
  have e8 : ((10 ^ 8 : Nat) : ℚ) = 10 ^ 8 := by push_cast; rfl
  rw [e8]
  rw [abs_le] at h ⊢
  constructor
  · rw [le_sub_iff_add_le, le_div_iff₀ (by norm_num)]
    linarith [h.1]
  · rw [sub_le_iff_le_add, div_le_iff₀ (by norm_num)]
    linarith [h.2]

/-- A canonical magnitude is at most `(2^53 - 1) * 2^971`. -/
theorem canonical_le_max (neg : Bool) (m : Nat) (e : Int)
    (hcan : (Float64.Finite neg m e).isCanonical = true) :
    (m : ℚ) * (2 : ℚ) ^ e ≤ 9007199254740991 * (2 : ℚ) ^ (971 : Nat) := by
  obtain ⟨h1, _, h3, _⟩ := (isCanonical_iff neg m e).mp hcan
  have hm : (m : ℚ) ≤ 9007199254740991 := by
    have : m ≤ 9007199254740991 := by omega
    exact_mod_cast this
  have he : (2 : ℚ) ^ e ≤ (2 : ℚ) ^ (971 : Int) := zpow_le_zpow_right₀ (by norm_num) h3
  have e971 : (2 : ℚ) ^ (971 : Int) = (2 : ℚ) ^ (971 : Nat) := zpow_natCast 2 971
  rw [e971] at he
  have hp := zpow_two_pos e
  calc (m : ℚ) * (2 : ℚ) ^ e ≤ 9007199254740991 * (2 : ℚ) ^ e :=
        mul_le_mul_of_nonneg_right hm (le_of_lt hp)
    _ ≤ 9007199254740991 * (2 : ℚ) ^ (971 : Nat) :=
        mul_le_mul_of_nonneg_left he (by norm_num)

/-- The digits `%.8f` prints for a canonical value never overflow when they are
read back. -/
theorem roundtrip_some (neg : Bool) (m : Nat) (e : Int)
    (hcan : (Float64.Finite neg m e).isCanonical = true) :
    ∃ w, roundFloat64 neg (strconv.fixedDigits 8 m e) (10 ^ 8) = some w := by
  cases hr : roundFloat64 neg (strconv.fixedDigits 8 m e) (10 ^ 8) with
  | some w => exact ⟨w, rfl⟩
  | none =>
    exfalso
    have hb := roundFloat64_none neg _ _ (by norm_num) hr
    have hn := fixedDigits_near m e
    have hm := canonical_le_max neg m e hcan
    rw [abs_le] at hn
    have e1 : (2 : ℚ) ^ (1024 : Nat) - (2 : ℚ) ^ (970 : Nat)
        = 9007199254740991 * (2 : ℚ) ^ (971 : Nat) + (2 : ℚ) ^ (970 : Nat) := by
      rw [show (1024 : Nat) = 53 + 971 from rfl, pow_add,
        show (971 : Nat) = 970 + 1 from rfl, pow_succ]
      norm_num
    have hP : (1 : ℚ) ≤ (2 : ℚ) ^ (970 : Nat) := one_le_pow₀ (by norm_num)
    rw [e1] at hb
    have : (1 : ℚ) / (2 * 10 ^ 8) < 1 := by norm_num
    linarith [hn.2]

/-- The value read back is no farther than `1e-8` from the value printed. -/
theorem roundtrip_near (neg : Bool) (m : Nat) (e : Int)
    (hcan : (Float64.Finite neg m e).isCanonical = true) (w : Float64)
    (h : roundFloat64 neg (strconv.fixedDigits 8 m e) (10 ^ 8) = some w) :
    ∃ (mw : Nat) (ew : Int), w = .Finite neg mw ew
      ∧ (Float64.Finite neg mw ew).isCanonical = true
      ∧ (∀ (mg : Nat) (eg : Int), (Float64.Finite false mg eg).isCanonical = true →
          |(mw : ℚ) * (2 : ℚ) ^ ew - (strconv.fixedDigits 8 m e : ℚ) / ((10 ^ 8 : Nat) : ℚ)|
            ≤ |(mg : ℚ) * (2 : ℚ) ^ eg
                - (strconv.fixedDigits 8 m e : ℚ) / ((10 ^ 8 : Nat) : ℚ)|)
      ∧ |(mw : ℚ) * (2 : ℚ) ^ ew - (m : ℚ) * (2 : ℚ) ^ e| ≤ 1 / 10 ^ 8 := by
  obtain ⟨mw, ew, hw, hwc, hnear⟩ := roundFloat64_nearest neg _ _ (by norm_num) w h
  refine ⟨mw, ew, hw, hwc, hnear, ?_⟩
  have hc2 : (Float64.Finite false m e).isCanonical = true :=
    (isCanonical_iff false m e).mpr ((isCanonical_iff neg m e).mp hcan)
  have h1 := hnear m e hc2
  have h2 := fixedDigits_near m e
  have h3 : |(m : ℚ) * (2 : ℚ) ^ e - (strconv.fixedDigits 8 m e : ℚ) / ((10 ^ 8 : Nat) : ℚ)|
      ≤ 1 / (2 * 10 ^ 8) := by
    rw [abs_sub_comm]; exact h2
  have h4 := le_trans h1 h3
  rw [abs_le] at h2 h4 ⊢
  constructor
  · have : (1 : ℚ) / 10 ^ 8 = 1 / (2 * 10 ^ 8) + 1 / (2 * 10 ^ 8) := by norm_num
    linarith [h2.1, h2.2, h4.1, h4.2]
  · have : (1 : ℚ) / 10 ^ 8 = 1 / (2 * 10 ^ 8) + 1 / (2 * 10 ^ 8) := by norm_num
    linarith [h2.1, h2.2, h4.1, h4.2]

/-- From `2^26` on, a canonical value printed with `%.8f` and read back is the
same value: the print is nearer to it than half the gap to its neighbours. -/
theorem roundtrip_exact_large (neg : Bool) (m : Nat) (e : Int)
    (hcan : (Float64.Finite neg m e).isCanonical = true) (he : -26 ≤ e) :
    roundFloat64 neg (strconv.fixedDigits 8 m e) (10 ^ 8) = some (.Finite neg m e) := by
  obtain ⟨h1, h2, h3, h4⟩ := (isCanonical_iff neg m e).mp hcan
  have hm : 2 ^ 52 ≤ m := by
    rcases h4 with h | h
    · exact h
    · omega
  have hmq : (4503599627370496 : ℚ) ≤ (m : ℚ) := by exact_mod_cast hm
  have hpe : (2 : ℚ) ^ (-26 : Int) ≤ (2 : ℚ) ^ e := zpow_le_zpow_right₀ (by norm_num) he
  have e26 : (2 : ℚ) ^ (-26 : Int) = 1 / 67108864 := by
    rw [zpow_neg, show ((26 : Int)) = ((26 : Nat) : Int) from rfl, zpow_natCast]
    norm_num
  rw [e26] at hpe
  have hn := fixedDigits_near m e
  have e8 : ((10 ^ 8 : Nat) : ℚ) = 10 ^ 8 := by push_cast; rfl
  have hV : (67108864 : ℚ) ≤ (m : ℚ) * (2 : ℚ) ^ e := by
    have : (4503599627370496 : ℚ) * (1 / 67108864) ≤ (m : ℚ) * (2 : ℚ) ^ e :=
      mul_le_mul hmq hpe (by norm_num) (by linarith)
    linarith
  have hNpos : 0 < strconv.fixedDigits 8 m e := by
    rcases Nat.eq_zero_or_pos (strconv.fixedDigits 8 m e) with h0 | h0
    · rw [h0] at hn
      rw [abs_le] at hn
      simp at hn
      linarith [hn.1, hn.2]
    · exact h0
  apply roundFloat64_of_near neg _ _ m e hNpos (by norm_num) hcan
  · rw [abs_sub_comm]
    have : (1 : ℚ) / (2 * 10 ^ 8) < (2 : ℚ) ^ e / 2 := by
      have : (1 : ℚ) / (2 * 10 ^ 8) < 1 / 67108864 / 2 := by norm_num
      linarith
    exact lt_of_le_of_lt hn this
  · rcases Nat.lt_or_ge (2 ^ 52) m with hgt | hle
    · exact Or.inl hgt
    · right; right
      have hm52 : m = 2 ^ 52 := le_antisymm hle hm
      have hk : 0 ≤ 52 + e := by omega
      have hval : (m : ℚ) * (2 : ℚ) ^ e = ((2 ^ (52 + e).toNat : Nat) : ℚ) := by
        rw [hm52, ← zpow_nonneg_toNat (52 + e) hk, zpow_add₀ (by norm_num)]
        norm_num
      have hfa := fixedDigits_abs 8 m e
      rw [hval] at hfa ⊢
      have hnat : strconv.fixedDigits 8 m e = 2 ^ (52 + e).toNat * 10 ^ 8 := by
        apply nat_eq_of_abs
        push_cast
        push_cast at hfa
        exact hfa
      rw [hnat, e8]
      push_cast
      have h8 : (100000000 : ℚ) / 10 ^ 8 = 1 := by norm_num
      rw [mul_div_assoc, h8, mul_one]

/-- A value that is the rounding of a decimal with at most 8 fractional digits,
printed with `%.8f` and read back, is the same value. -/
theorem roundtrip_exact_decimal (neg : Bool) (n0 k m : Nat) (e : Int) (hk : k ≤ 8)
    (h : roundFloat64 neg n0 (10 ^ k) = some (.Finite neg m e)) :
    roundFloat64 neg (strconv.fixedDigits 8 m e) (10 ^ 8) = some (.Finite neg m e) := by
  have hkpos : 0 < 10 ^ k := Nat.pow_pos (by decide)
  have hcan := roundFloat64_canonical neg n0 (10 ^ k) hkpos _ h
  by_cases he : -26 ≤ e
  · exact roundtrip_exact_large neg m e hcan he
  · have he27 : e ≤ -27 := by omega
    have hneg : ¬ 0 ≤ e := by omega
    have hulp := roundFloat64_half_ulp neg n0 (10 ^ k) hkpos m e h
    have hpe : (2 : ℚ) ^ e ≤ (2 : ℚ) ^ (-27 : Int) := zpow_le_zpow_right₀ (by norm_num) he27
    have e27 : (2 : ℚ) ^ (-27 : Int) = 1 / 134217728 := by
      rw [zpow_neg, show ((27 : Int)) = ((27 : Nat) : Int) from rfl, zpow_natCast]
      norm_num
    rw [e27] at hpe
    have hsplit : 10 ^ (8 - k) * 10 ^ k = 10 ^ 8 := by
      rw [← pow_add, Nat.sub_add_cancel hk]
    have hfd : strconv.fixedDigits 8 m e = n0 * 10 ^ (8 - k) := by
      unfold strconv.fixedDigits
      rw [if_neg hneg]
      apply roundHalfEven_unique _ _ _ (Nat.pow_pos (by decide))
      have hz := zpow_neg_toNat e hneg
      have e1 : ((m * 10 ^ 8 : Nat) : ℚ) / ((2 ^ (-e).toNat : Nat) : ℚ)
          = (m : ℚ) * (2 : ℚ) ^ e * 10 ^ 8 := by
        rw [hz]; push_cast; ring
      have hkq : (0 : ℚ) < ((10 ^ k : Nat) : ℚ) := by exact_mod_cast hkpos
      have e2 : ((n0 * 10 ^ (8 - k) : Nat) : ℚ)
          = (n0 : ℚ) / ((10 ^ k : Nat) : ℚ) * 10 ^ 8 := by
        have hs : ((10 ^ (8 - k) : Nat) : ℚ) * ((10 ^ k : Nat) : ℚ) = 10 ^ 8 := by
          have := congrArg (fun x : Nat => (x : ℚ)) hsplit
          simpa using this
        rw [← hs]
        push_cast
        field_simp
        ring
      rw [e1, e2, ← sub_mul, abs_mul]
      rw [abs_sub_comm] at hulp
      have h8 : |(10 : ℚ) ^ 8| = 10 ^ 8 := abs_of_pos (by norm_num)
      rw [h8]
      have hb : |(n0 : ℚ) / ((10 ^ k : Nat) : ℚ) - (m : ℚ) * (2 : ℚ) ^ e| ≤ 1 / 134217728 / 2 := by
        linarith
      have : |(n0 : ℚ) / ((10 ^ k : Nat) : ℚ) - (m : ℚ) * (2 : ℚ) ^ e| * 10 ^ 8
          ≤ 1 / 134217728 / 2 * 10 ^ 8 := mul_le_mul_of_nonneg_right hb (by norm_num)
      have h2 : (1 : ℚ) / 134217728 / 2 * 10 ^ 8 < 1 / 2 := by norm_num
      linarith
    rw [hfd, roundFloat64_congr neg (n0 * 10 ^ (8 - k)) (10 ^ 8) n0 (10 ^ k) (by norm_num) hkpos
      (by rw [Nat.mul_assoc, hsplit])]
    exact h

/-! ## The scanner and `strconv.ParseFloat` on a run of digits -/

/-- `scanNumber` on a run of digits reads all of it. -/
theorem scanNumber_integer (buf ds1 : Str) (hne : ds1 ≠ [])
    (h1 : ∀ c ∈ ds1, strconv.isDigit c = true) :
    (fmt.ss.mk buf ds1).scanNumber = ⟨buf ++ ds1, []⟩ := by
  have hnil : ∀ c r, ([] : Str) = c :: r → c ∉ fmt.decimalDigits ++ "_".toList := by
    intro c r h; exact absurd h (by simp)
  have hzero : ∃ pre rst : Str, pre ++ rst = ds1 ∧ (∀ c ∈ rst, strconv.isDigit c = true)
      ∧ (let z := (fmt.ss.mk buf ds1).accept "0".toList
         (if z.1 then z.2.accept "xX".toList else (false, z.2))
          = (false, ⟨buf ++ pre, rst⟩)) := by
    cases ds1 with
    | nil => exact absurd rfl hne
    | cons d ds =>
      by_cases hd : d = '0'
      · refine ⟨[d], ds, rfl, fun c hc => h1 c (by simp [hc]), ?_⟩
        have e1 := accept_of_mem (fmt.ss.mk buf (d :: ds)) "0".toList d ds rfl
          (by rw [hd]; decide)
        simp only [e1, if_true]
        cases ds with
        | nil => exact accept_nil _ _ rfl
        | cons d2 ds' =>
          exact accept_of_not_mem _ _ d2 ds' rfl
            (isDigit_not_mem d2 (h1 d2 (by simp)) _ (by decide))
      · refine ⟨[], d :: ds, rfl, h1, ?_⟩
        have e1 := accept_of_not_mem (fmt.ss.mk buf (d :: ds)) "0".toList d ds rfl
          (by simpa using hd)
        simp only [e1, List.append_nil]
        rfl
  obtain ⟨pre, rst, hpr, hrst, hz⟩ := hzero
  unfold fmt.ss.scanNumber
  simp only at hz ⊢
  rw [hz]
  simp only [Bool.false_eq_true, if_false]
  have e2 : (fmt.ss.mk (buf ++ pre) rst).acceptAll
      (fmt.decimalDigits ++ "_".toList) = ⟨buf ++ pre ++ rst, []⟩ := by
    have := acceptLoop_digits rst hrst [] hnil (buf ++ pre)
    rw [List.append_nil] at this
    exact this
  rw [e2]
  unfold fmt.ss.scanFraction
  rw [accept_nil _ _ rfl]
  simp only [Bool.false_eq_true, if_false]
  unfold fmt.ss.scanExponent
  rw [accept_nil _ _ rfl]
  simp only [Bool.false_eq_true, if_false]
  rw [← hpr]
  simp

/-- The float token of an optional minus sign and digits is the whole input. -/
theorem floatToken_integer (neg : Bool) (ds1 : Str) (hne : ds1 ≠ [])
    (h1 : ∀ c ∈ ds1, strconv.isDigit c = true) :
    (fmt.floatToken ((if neg then ['-'] else []) ++ ds1)).1
      = (if neg then ['-'] else []) ++ ds1 := by
  cases ds1 with
  | nil => exact absurd rfl hne
  | cons d ds =>
    have hd := h1 d (by simp)
    unfold fmt.floatToken
    cases neg with
    | true =>
      simp only [if_true, List.cons_append, List.nil_append]
      rw [accept3_of_not_mem _ _ _ _ '-' (d :: ds) rfl (by decide)]
      simp only [Bool.false_eq_true, if_false]
      rw [accept_of_mem _ fmt.sign '-' (d :: ds) rfl (by decide)]
      simp only [List.nil_append]
      rw [accept3_of_not_mem _ _ _ _ d ds rfl (isDigit_not_mem d hd _ (by decide))]
      simp only [Bool.false_eq_true, if_false]
      have := scanNumber_integer ['-'] (d :: ds) hne h1
      simp only [List.cons_append, List.nil_append] at this
      rw [this]
    | false =>
      simp only [Bool.false_eq_true, if_false, List.nil_append]
      rw [accept3_of_not_mem _ _ _ _ d ds rfl (isDigit_not_mem d hd _ (by decide))]
      simp only [Bool.false_eq_true, if_false]
      rw [accept_of_not_mem _ fmt.sign d ds rfl (isDigit_not_mem d hd _ (by decide))]
      simp only
      rw [accept3_of_not_mem _ _ _ _ d ds rfl (isDigit_not_mem d hd _ (by decide))]
      simp only [Bool.false_eq_true, if_false]
      have := scanNumber_integer [] (d :: ds) hne h1
      simp only [List.nil_append] at this
      rw [this]

/-- `readFloat` on an optional minus sign and digits: the mantissa is the number
the digits denote, the exponent is zero. -/
theorem readFloat_integer (neg : Bool) (ds1 : Str) (hne : ds1 ≠ [])
    (h1 : ∀ c ∈ ds1, strconv.isDigit c = true) :
    strconv.readFloat ((if neg then ['-'] else []) ++ ds1)
      = some ⟨digitsValue ds1, 0, neg, false, ((if neg then ['-'] else []) ++ ds1).length⟩ := by
  obtain ⟨st1, a1, a2, a3, a4, a5, a6, a7⟩ :=
    readMantissa_digits ds1 h1 [] ⟨false, false, 0, 0, 0, false⟩ (fun _ => rfl)
  rw [List.append_nil] at a1
  have hend : strconv.readMantissa false st1 [] = (st1, []) := by
    unfold strconv.readMantissa; rfl
  have hm : strconv.readMantissa false ⟨false, false, 0, 0, 0, false⟩ ds1 = (st1, []) := by
    rw [a1, hend]
  have hsd : st1.sawdigits = true := a4 (Or.inl hne)
  have hman : st1.mantissa = digitsValue ds1 := by
    rw [a5]; simp
  have hund : st1.underscores = false := a3
  have hsdot : st1.sawdot = false := a2
  cases ds1 with
  | nil => exact absurd rfl hne
  | cons d ds =>
    have hd := h1 d (by simp)
    obtain ⟨n1, n2, n3, n4, n5, n6, _⟩ := isDigit_ne d hd
    have hhex : strconv.hasHexPrefix (d :: ds) = false := by
      cases ds with
      | nil => rfl
      | cons d2 ds' =>
        obtain ⟨_, _, _, _, m5, m6, _⟩ := isDigit_ne d2 (h1 d2 (by simp))
        cases ds' with
        | nil => rfl
        | cons y ys =>
          simp only [strconv.hasHexPrefix, m5, m6, or_self, and_false, decide_False]
    have hfin : strconv.readExponent ((if neg then ['-'] else []) ++ (d :: ds))
        neg false st1 []
        = some ⟨digitsValue (d :: ds), 0, neg, false,
            ((if neg then ['-'] else []) ++ (d :: ds)).length⟩ := by
      unfold strconv.readExponent
      simp only [Bool.false_eq_true, if_false, hsdot, hund]
      unfold strconv.readFloatFinish
      simp only [Bool.false_and, Bool.false_eq_true, if_false, List.length_nil, Nat.sub_zero,
        hman]
      simp
    cases neg with
    | true =>
      simp only [if_true, List.cons_append, List.nil_append] at hfin ⊢
      unfold strconv.readFloat
      simp only [or_true, if_true]
      rw [hhex]
      simp only [Bool.false_eq_true, if_false]
      rw [hm]
      simp only [hsd, Bool.not_true, Bool.false_eq_true, if_false]
      simpa using hfin
    | false =>
      simp only [Bool.false_eq_true, if_false, List.nil_append] at hfin ⊢
      unfold strconv.readFloat
      simp only [n3, n4, or_self, if_false]
      rw [hhex]
      simp only [Bool.false_eq_true, if_false]
      rw [hm]
      simp only [hsd, Bool.not_true, Bool.false_eq_true, if_false]
      simpa using hfin

theorem special_integer (neg : Bool) (ds1 : Str) (hne : ds1 ≠ [])
    (h1 : ∀ c ∈ ds1, strconv.isDigit c = true) :
    strconv.special ((if neg then ['-'] else []) ++ ds1) = none := by
  cases ds1 with
  | nil => exact absurd rfl hne
  | cons d ds =>
    have hd := h1 d (by simp)
    obtain ⟨_, _, n3, n4, _, _, n7, n8, n9, n10, _⟩ := isDigit_ne d hd
    cases neg with
    | true =>
      simp only [if_true, List.cons_append, List.nil_append]
      unfold strconv.special
      simp only [or_true, if_true]
      unfold strconv.specialInf
      have : strconv.commonPrefixLenIgnoreCase (d :: ds) "infinity".toList = 0 := by
        have e : "infinity".toList = 'i' :: "nfinity".toList := rfl
        rw [e]
        unfold strconv.commonPrefixLenIgnoreCase
        rw [lowerASCII_digit d hd, if_neg n7]
      simp only [this]
      rfl
    | false =>
      simp only [Bool.false_eq_true, if_false, List.nil_append]
      unfold strconv.special
      simp only [n3, n4, n7, n8, n9, n10, or_self, if_false]

/-- `strconv.ParseFloat` on an optional minus sign and digits: the number the
digits denote, rounded to binary64, or a range error. -/
theorem ParseFloat_integer (neg : Bool) (ds1 : Str) (hne : ds1 ≠ [])
    (h1 : ∀ c ∈ ds1, strconv.isDigit c = true) :
    strconv.ParseFloat ((if neg then ['-'] else []) ++ ds1)
      = match roundFloat64 neg (digitsValue ds1) 1 with
        | some f => .ok f
        | none => .error .ErrRange := by
  unfold strconv.ParseFloat
  rw [special_integer neg ds1 hne h1, readFloat_integer neg ds1 hne h1]
  simp only [ne_eq, not_true_eq_false, if_false]
  have hround : (strconv.floatParts.mk (digitsValue ds1) 0 neg false
      ((if neg then ['-'] else []) ++ ds1).length).round
      = roundFloat64 neg (digitsValue ds1) 1 := by
    unfold strconv.floatParts.round
    simp
  rw [hround]

/-- `fmt.Sscanf` with `%f` on an optional minus sign and digits. -/
theorem Sscanf_integer (neg : Bool) (ds1 : Str) (hne : ds1 ≠ [])
    (h1 : ∀ c ∈ ds1, strconv.isDigit c = true) :
    fmt.Sscanf ((if neg then ['-'] else []) ++ ds1)
      = match roundFloat64 neg (digitsValue ds1) 1 with
        | some f => .ok f
        | none => .error (strconv.NumError.Error "ParseFloat".toList
            ((if neg then ['-'] else []) ++ ds1) .ErrRange) := by
  have hp : 'p' ∉ (if neg then ['-'] else []) ++ ds1 := by
    intro hmem
    simp only [List.mem_append] at hmem
    rcases hmem with h | h
    · cases neg <;> simp at h
    · exact absurd (h1 _ h) (by decide)
  have hhead : ∃ c r, (if neg then ['-'] else []) ++ ds1 = c :: r
      ∧ unicode.IsSpace c = false := by
    cases ds1 with
    | nil => exact absurd rfl hne
    | cons d ds =>
      cases neg with
      | true => exact ⟨'-', _, rfl, by decide⟩
      | false => exact ⟨d, _, rfl, isDigit_not_space d (h1 d (by simp))⟩
  obtain ⟨c, r, hcr, hc⟩ := hhead
  have hS : fmt.Sscanf ((if neg then ['-'] else []) ++ ds1)
      = fmt.convertFloat (fmt.floatToken ((if neg then ['-'] else []) ++ ds1)).1 := by
    rw [hcr]; exact Sscanf_of_head c r hc
  rw [hS, floatToken_integer neg ds1 hne h1, convertFloat_of_no_p _ hp,
    ParseFloat_integer neg ds1 hne h1]
  all_goals (cases roundFloat64 neg (digitsValue ds1) 1 <;> rfl)

/-- The value `getEuroPrice` returns for a plain decimal text: an optional minus
sign, digits and, after a comma, the digits `ds2`; `sep` tells whether the comma
is there.  It is the rounding of the decimal number to binary64. -/
theorem getEuroPrice_plain_decimal (Get : Str → Except Str http.Response) (url : Str)
    (resp : http.Response) (doc : html.Node) (neg sep : Bool) (ds1 ds2 : Str) (v : Float64)
    (hget : Get url = .ok resp) (hcode : resp.StatusCode = 200) (hbody : resp.Body = .ok doc)
    (hne : ds1 ≠ []) (h1 : ∀ c ∈ ds1, strconv.isDigit c = true)
    (h2 : ∀ c ∈ ds2, strconv.isDigit c = true) (hsep : sep = false → ds2 = [])
    (htext : strings.TrimSpace (goquery.Text (goquery.Find doc euroSelector))
      = (if neg then ['-'] else []) ++ ds1 ++ (if sep then ',' :: ds2 else []))
    (hv : getEuroPrice Get url = .ok v) :
    roundFloat64 neg (digitsValue (ds1 ++ ds2)) (10 ^ ds2.length) = some v := by
  have hmap : ∀ ds : Str, (∀ c ∈ ds, strconv.isDigit c = true) →
      ds.map (fun c => if c = ',' then '.' else c) = ds := by
    intro ds hds
    induction ds with
    | nil => rfl
    | cons d ds ih =>
      have hd := (isDigit_ne d (hds d (List.mem_cons_self d ds))).2.2.2.2.2.2.2.2.2.2.2
      rw [List.map_cons, ih (fun c hc => hds c (List.mem_cons_of_mem d hc)), if_neg hd]
  have hsign : (if neg then ['-'] else []).map (fun c => if c = ',' then '.' else c)
      = (if neg then ['-'] else []) := by
    cases neg <;> rfl
  have hnil : (if neg then ['-'] else []) ++ ds1 ++ (if sep then ',' :: ds2 else []) ≠ [] := by
    cases ds1 with
    | nil => exact absurd rfl hne
    | cons d ds => cases neg <;> simp
  rw [getEuroPrice_of_document Get url resp doc hget hcode hbody, htext, if_neg hnil,
    ReplaceAll_comma, List.map_append, List.map_append, hsign, hmap ds1 h1] at hv
  cases sep with
  | true =>
    simp only [if_true, List.map_cons, hmap ds2 h2] at hv
    rw [Sscanf_decimal neg ds1 ds2 hne h1 h2] at hv
    cases hr : roundFloat64 neg (digitsValue (ds1 ++ ds2)) (10 ^ ds2.length) with
    | none => rw [hr] at hv; exact Except.noConfusion hv
    | some f =>
      rw [hr] at hv
      have : f = v := by simpa using hv
      rw [this]
  | false =>
    have hds2 := hsep rfl
    subst hds2
    simp only [Bool.false_eq_true, if_false, List.map_nil, List.append_nil] at hv
    rw [Sscanf_integer neg ds1 hne h1] at hv
    simp only [List.append_nil, List.length_nil, pow_zero]
    cases hr : roundFloat64 neg (digitsValue ds1) 1 with
    | none => rw [hr] at hv; exact Except.noConfusion hv
    | some f =>
      rw [hr] at hv
      have : f = v := by simpa using hv
      rw [this]

/-- The string `%.8f` prints for a finite value: sign, integer digits, a period
and eight digits, which together denote `fixedDigits`. -/
theorem formatFloat8_parts (neg : Bool) (m : Nat) (e : Int) :
    ∃ ip fr : Str, fmt.formatFloat8 (.Finite neg m e)
        = (if neg then ['-'] else []) ++ ip ++ '.' :: fr
      ∧ fr.length = 8
      ∧ decimalValue ip fr = (strconv.fixedDigits 8 m e : ℚ) / ((10 ^ 8 : Nat) : ℚ) := by
  obtain ⟨_, _, i3⟩ := FormatUint_spec (strconv.fixedDigits 8 m e / 10 ^ 8)
  obtain ⟨p1, _, p3⟩ := padDigits_spec 8 (strconv.fixedDigits 8 m e % 10 ^ 8)
  refine ⟨strconv.FormatUint (strconv.fixedDigits 8 m e / 10 ^ 8),
    strconv.padDigits 8 (strconv.fixedDigits 8 m e % 10 ^ 8), ?_, p1, ?_⟩
  · simp [fmt.formatFloat8, strconv.FormatFloat]
  · unfold decimalValue
    rw [digitsValue_append, i3, p3, p1, Nat.mod_mod, Nat.div_add_mod']

/-- A canonical magnitude of at least `2^26` has a binary exponent of at least
`-26`. -/
theorem exp_of_large (neg : Bool) (m : Nat) (e : Int)
    (hcan : (Float64.Finite neg m e).isCanonical = true)
    (h : (67108864 : ℚ) ≤ (m : ℚ) * (2 : ℚ) ^ e) : -26 ≤ e := by
  by_contra hc
  have he : e ≤ -27 := by omega
  obtain ⟨h1, _, _, _⟩ := (isCanonical_iff neg m e).mp hcan
  have hm : (m : ℚ) < 9007199254740992 := by exact_mod_cast h1
  have hpe : (2 : ℚ) ^ e ≤ (2 : ℚ) ^ (-27 : Int) := zpow_le_zpow_right₀ (by norm_num) he
  have e27 : (2 : ℚ) ^ (-27 : Int) = 1 / 134217728 := by
    rw [zpow_neg, show ((27 : Int)) = ((27 : Nat) : Int) from rfl, zpow_natCast]
    norm_num
  rw [e27] at hpe
  have hp := zpow_two_pos e
  have : (m : ℚ) * (2 : ℚ) ^ e < 9007199254740992 * (1 / 134217728) := by
    calc (m : ℚ) * (2 : ℚ) ^ e < 9007199254740992 * (2 : ℚ) ^ e :=
          mul_lt_mul_of_pos_right hm hp
      _ ≤ 9007199254740992 * (1 / 134217728) := mul_le_mul_of_nonneg_left hpe (by norm_num)
  norm_num at this
  linarith

theorem toRat_abs (neg : Bool) (m : Nat) (e : Int) :
    |(Float64.Finite neg m e).toRat| = (m : ℚ) * (2 : ℚ) ^ e := by
  have hp : (0 : ℚ) ≤ (m : ℚ) * (2 : ℚ) ^ e :=
    mul_nonneg (Nat.cast_nonneg m) (le_of_lt (zpow_two_pos e))
  cases neg
  · simp only [Float64.toRat, Bool.false_eq_true, if_false, one_mul]
    exact abs_of_nonneg hp
  · simp only [Float64.toRat, if_true]
    rw [mul_assoc, neg_one_mul, abs_neg]
    exact abs_of_nonneg hp

theorem toRat_sub_abs (neg : Bool) (m1 m2 : Nat) (e1 e2 : Int) :
    |(Float64.Finite neg m1 e1).toRat - (Float64.Finite neg m2 e2).toRat|
      = |(m1 : ℚ) * (2 : ℚ) ^ e1 - (m2 : ℚ) * (2 : ℚ) ^ e2| := by
  cases neg
  · simp only [Float64.toRat, Bool.false_eq_true, if_false, one_mul]
  · simp only [Float64.toRat, if_true]
    rw [mul_assoc, mul_assoc, neg_one_mul, neg_one_mul, neg_sub_neg, abs_sub_comm]

/-! ## C4: an upstream status other than 200 -/

/-- C4.  For every upstream response whose status code is not 200, whatever its
body, `getEuroPrice` fails with the error whose message is "status code error: ",
the decimal numeral of the code, a blank and the status text; the numeral and
the status text are parts of the message, and the handler answers 500. -/
theorem status_not_200_fails (Get : Str → Except Str http.Response) (resp : http.Response)
    (hget : Get urlBCV = .ok resp) (hcode : resp.StatusCode ≠ 200) :
    ∃ msg : Str, getEuroPrice Get urlBCV = .error (.errorf msg)
      ∧ msg = "status code error: ".toList ++ (if resp.StatusCode < 0 then ['-'] else [])
          ++ Nat.toDigits 10 resp.StatusCode.natAbs ++ " ".toList ++ resp.Status
      ∧ Nat.toDigits 10 resp.StatusCode.natAbs <:+: msg ∧ resp.Status <:+: msg
      ∧ (euroHandler Get http.ResponseWriter.new).Code = 500 := by
  have hf : fmt.formatInt resp.StatusCode
      = (if resp.StatusCode < 0 then ['-'] else []) ++ Nat.toDigits 10 resp.StatusCode.natAbs := by
    unfold fmt.formatInt
    rw [FormatUint_toDigits]
    split <;> rfl
  have h : getEuroPrice Get urlBCV = .error (.errorf ("status code error: ".toList
      ++ (if resp.StatusCode < 0 then ['-'] else [])
      ++ Nat.toDigits 10 resp.StatusCode.natAbs ++ " ".toList ++ resp.Status)) := by
    unfold getEuroPrice
    rw [hget]
    simp only [hcode, ne_eq, not_false_eq_true, if_true, hf, List.append_assoc]
  refine ⟨_, h, rfl, ?_, ?_, ?_⟩
  · exact ⟨"status code error: ".toList ++ (if resp.StatusCode < 0 then ['-'] else []),
      " ".toList ++ resp.Status, by simp⟩
  · exact ⟨"status code error: ".toList ++ (if resp.StatusCode < 0 then ['-'] else [])
      ++ Nat.toDigits 10 resp.StatusCode.natAbs ++ " ".toList, [], by simp⟩
  · rw [euroHandler_of_error Get _ h]

/-- C4 at a 404 response: the message is "status code error: 404 404 Not Found",
the handler answers 500. -/
theorem status_not_200_fails_witness :
    ∃ msg : Str, getEuroPrice (serveStatus 404 "404 Not Found".toList) urlBCV
        = .error (.errorf msg)
      ∧ msg = "status code error: 404 404 Not Found".toList
      ∧ "404".toList <:+: msg ∧ "404 Not Found".toList <:+: msg
      ∧ (euroHandler (serveStatus 404 "404 Not Found".toList) http.ResponseWriter.new).Code
          = 500 :=
  status_not_200_fails (serveStatus 404 "404 Not Found".toList)
    ⟨404, "404 Not Found".toList, .ok (pageOf [])⟩ rfl (by decide)

/-! ## C2: the response to a failure -/

/-- C2, as stated, fails: for an upstream 404 the body is not the error's
message, `http.Error` writes a newline after it. -/
theorem error_body_is_not_the_message :
    getEuroPrice (serveStatus 404 "404 Not Found".toList) urlBCV
        = .error (.errorf "status code error: 404 404 Not Found".toList)
      ∧ (euroHandler (serveStatus 404 "404 Not Found".toList) http.ResponseWriter.new).Body
        ≠ "status code error: 404 404 Not Found".toList := by
  decide

/-- C2, amended.  For every failure of `getEuroPrice` the handler answers 500 with
content type text/plain and a body that is the error's message followed by one
newline; that body is no JSON success body. -/
theorem failure_answers_500 (Get : Str → Except Str http.Response) (err : error)
    (h : getEuroPrice Get urlBCV = .error err) :
    (euroHandler Get http.ResponseWriter.new).Code = 500
      ∧ (euroHandler Get http.ResponseWriter.new).Body = err.Error ++ ['\n']
      ∧ (euroHandler Get http.ResponseWriter.new).Get "Content-Type".toList
          = some "text/plain; charset=utf-8".toList
      ∧ ∀ precio : Float64, (euroHandler Get http.ResponseWriter.new).Body
          ≠ "\x7b\"euro_price\": ".toList ++ fmt.formatFloat8 precio ++ "\x7d".toList := by
  rw [euroHandler_of_error Get err h]
  refine ⟨rfl, rfl, rfl, ?_⟩
  intro precio heq
  have := congrArg (fun l => l.reverse.head?) heq
  simp at this

/-- C2, amended, at a page without the marker element. -/
theorem failure_answers_500_witness :
    (euroHandler (serve []) http.ResponseWriter.new).Code = 500
      ∧ (euroHandler (serve []) http.ResponseWriter.new).Body = notFoundMessage ++ ['\n']
      ∧ (euroHandler (serve []) http.ResponseWriter.new).Get "Content-Type".toList
          = some "text/plain; charset=utf-8".toList
      ∧ ∀ precio : Float64, (euroHandler (serve []) http.ResponseWriter.new).Body
          ≠ "\x7b\"euro_price\": ".toList ++ fmt.formatFloat8 precio ++ "\x7d".toList :=
  failure_answers_500 (serve []) (.errorf notFoundMessage) (by decide)

/-! ## C5: the not-found error -/

/-- C5.  `getEuroPrice` fails with the error built from the fixed not-found message
if and only if the response has status 200, its body parses, and no element
matches the selector or the matched text is empty after trimming; the handler
then answers 500 with that non-empty message. -/
theorem not_found_iff (Get : Str → Except Str http.Response) (url : Str) :
    (getEuroPrice Get url = .error (.errorf notFoundMessage) ↔
      ∃ resp doc, Get url = .ok resp ∧ resp.StatusCode = 200 ∧ resp.Body = .ok doc
        ∧ (goquery.Find doc euroSelector = []
            ∨ strings.TrimSpace (goquery.Text (goquery.Find doc euroSelector)) = []))
    ∧ (getEuroPrice Get urlBCV = .error (.errorf notFoundMessage) →
        (euroHandler Get http.ResponseWriter.new).Code = 500
        ∧ (euroHandler Get http.ResponseWriter.new).Body = notFoundMessage ++ ['\n']
        ∧ notFoundMessage ≠ []) := by
  constructor
  · constructor
    · intro h
      cases hG : Get url with
      | error msg =>
        unfold getEuroPrice at h; rw [hG] at h; simp at h
      | ok resp =>
        by_cases hc : resp.StatusCode = 200
        · cases hB : resp.Body with
          | error msg =>
            unfold getEuroPrice at h; rw [hG] at h
            simp [hc, hB, goquery.NewDocumentFromReader] at h
          | ok doc =>
            rw [getEuroPrice_of_document Get url resp doc hG hc hB] at h
            refine ⟨resp, doc, rfl, hc, hB, Or.inr ?_⟩
            by_contra hne
            rw [if_neg hne] at h
            split at h
            · rename_i err _
              have h2 : ("error convirtiendo el texto a float: ".toList ++ err)
                  = notFoundMessage := by simpa using h
              have := congrArg List.head? h2
              simp [notFoundMessage] at this
            · simp at h
        · unfold getEuroPrice at h; rw [hG] at h
          simp only [hc, ne_eq, not_false_eq_true, if_true] at h
          have h2 : ("status code error: ".toList ++ fmt.formatInt resp.StatusCode
              ++ " ".toList ++ resp.Status) = notFoundMessage := by simpa using h
          have := congrArg List.head? h2
          simp [notFoundMessage] at this
    · rintro ⟨resp, doc, hG, hc, hB, hempty⟩
      rw [getEuroPrice_of_document Get url resp doc hG hc hB]
      have ht : strings.TrimSpace (goquery.Text (goquery.Find doc euroSelector)) = [] := by
        rcases hempty with h | h
        · rw [h]; rfl
        · exact h
      rw [if_pos ht]
  · intro h
    rw [euroHandler_of_error Get _ h]
    exact ⟨rfl, rfl, by decide⟩

/-! ## C8: the range of the returned value -/

/-- C8, as stated, fails: for the text "-1,5" `getEuroPrice` returns a negative
value, -1.5. -/
theorem negative_text_is_returned :
    getEuroPrice (serve ["-1,5".toList]) urlBCV = .ok (.Finite true 6755399441055744 (-52))
      ∧ (Float64.Finite true 6755399441055744 (-52)).toRat = -3 / 2 := by
  refine ⟨by decide, ?_⟩
  simp only [Float64.toRat, if_true]
  norm_num

/-- C8, amended.  A value that `getEuroPrice` returns for a text that begins with a
decimal digit or with the decimal comma, and holds no letter `p`, is finite with
a clear sign bit, hence not negative. -/
theorem value_of_unsigned_text (Get : Str → Except Str http.Response) (url : Str)
    (resp : http.Response) (doc : html.Node) (c : Char) (cs : Str) (v : Float64)
    (hget : Get url = .ok resp) (hcode : resp.StatusCode = 200) (hbody : resp.Body = .ok doc)
    (htext : strings.TrimSpace (goquery.Text (goquery.Find doc euroSelector)) = c :: cs)
    (hfirst : strconv.isDigit c = true ∨ c = ',') (hp : 'p' ∉ c :: cs)
    (hv : getEuroPrice Get url = .ok v) :
    ∃ m e, v = .Finite false m e ∧ 0 ≤ v.toRat := by
  rw [getEuroPrice_of_document Get url resp doc hget hcode hbody, htext,
    if_neg (List.cons_ne_nil c cs), ReplaceAll_comma] at hv
  have hsc : fmt.Sscanf (List.map (fun c => if c = ',' then '.' else c) (c :: cs)) = .ok v := by
    split at hv
    · exact absurd hv (by simp)
    · rename_i f hf
      rw [hf]; simpa using hv
  -- the first character of the normalized text
  have hc1 : strconv.isDigit (if c = ',' then '.' else c) = true ∨ (if c = ',' then '.' else c) = '.' := by
    rcases hfirst with h | h
    · left
      have : c ≠ ',' := by intro e; subst e; exact absurd h (by decide)
      simpa [this] using h
    · right; simp [h]
  have hsp : unicode.IsSpace (if c = ',' then '.' else c) = false := by
    rcases hc1 with h | h
    · have hall : ∀ x : Char, strconv.isDigit x = true → unicode.IsSpace x = false := by
        intro x hx
        have hx1 : 48 ≤ x.toNat ∧ x.toNat ≤ 57 := by
          simpa [strconv.isDigit] using hx
        simp only [unicode.IsSpace]
        simp
        omega
      exact hall _ h
    · rw [h]; decide
  rw [List.map_cons, Sscanf_of_head _ _ hsp] at hsc
  have hpre := floatToken_prefix ((if c = ',' then '.' else c)
    :: List.map (fun c => if c = ',' then '.' else c) cs)
  have hp2 : 'p' ∉ List.map (fun c => if c = ',' then '.' else c) (c :: cs) := by
    intro hmem
    obtain ⟨a, ha, hfa⟩ := List.mem_map.mp hmem
    by_cases hac : a = ','
    · simp [hac] at hfa
    · simp only [hac, if_false] at hfa
      exact hp (hfa ▸ ha)
  rw [List.map_cons] at hp2
  have hp3 : 'p' ∉ (fmt.floatToken ((if c = ',' then '.' else c)
      :: List.map (fun c => if c = ',' then '.' else c) cs)).1 :=
    fun h => hp2 (hpre.subset h)
  have hpf := convertFloat_ok_of_no_p _ hp3 v hsc
  cases htok : (fmt.floatToken ((if c = ',' then '.' else c)
      :: List.map (fun c => if c = ',' then '.' else c) cs)).1 with
  | nil =>
    rw [htok] at hpf
    have hnil : strconv.ParseFloat [] = .error .ErrSyntax := by decide
    rw [hnil] at hpf
    exact absurd hpf (by simp)
  | cons a as =>
    rw [htok] at hpf hpre
    have ha : a = (if c = ',' then '.' else c) := by
      obtain ⟨t, ht⟩ := hpre
      simp only [List.cons_append, List.cons.injEq] at ht
      exact ht.1
    rw [ha] at hpf
    obtain ⟨m, e, hm⟩ := ParseFloat_unsigned _ as v hc1 hpf
    refine ⟨m, e, hm, ?_⟩
    rw [hm]
    simp only [Float64.toRat, Bool.false_eq_true, if_false, one_mul]
    positivity

/-- C8, amended, at the text "56,28013760". -/
theorem value_of_unsigned_text_witness :
    ∃ m e, Float64.Finite false 7920725210116258 (-47) = .Finite false m e
      ∧ 0 ≤ (Float64.Finite false 7920725210116258 (-47)).toRat :=
  value_of_unsigned_text (serve ["56,28013760".toList]) urlBCV
    ⟨200, "200 OK".toList, .ok (pageOf ["56,28013760".toList])⟩
    (pageOf ["56,28013760".toList]) '5' "6,28013760".toList _ rfl rfl rfl
    (by decide) (by decide) (by decide) (by decide)

/-! ## C1: the response to a success -/

/-- C1, as stated, fails: for the text "NaN" `getEuroPrice` returns NaN without
error, and the body holds `NaN`, not a number in fixed-point notation. -/
theorem nan_body_is_not_fixed_point :
    getEuroPrice (serve ["NaN".toList]) urlBCV = .ok .NaN
      ∧ (euroHandler (serve ["NaN".toList]) http.ResponseWriter.new).Body
          = "\x7b\"euro_price\": NaN\x7d".toList
      ∧ ¬ ∃ d : Str, isFixedPoint 8 d = true
          ∧ (euroHandler (serve ["NaN".toList]) http.ResponseWriter.new).Body
            = "\x7b\"euro_price\": ".toList ++ d ++ "\x7d".toList := by
  have hb : (euroHandler (serve ["NaN".toList]) http.ResponseWriter.new).Body
      = "\x7b\"euro_price\": ".toList ++ "NaN".toList ++ "\x7d".toList := by decide
  refine ⟨by decide, by decide, ?_⟩
  rintro ⟨d, hd, hbody⟩
  rw [hb, List.append_assoc, List.append_assoc] at hbody
  have h1 := List.append_cancel_left hbody
  have h2 := List.append_cancel_right h1
  rw [← h2] at hd
  exact absurd hd (by decide)

/-- C1, amended.  For every value that `getEuroPrice` returns without error the
handler answers 200 with content type application/json and the body
`{"euro_price": ` + text + `}`; for a finite value the text is the value in
fixed-point notation with exactly 8 digits after the decimal point, correct to
half a unit of the last digit; for the other values it is `NaN`, `+Inf` or
`-Inf`. -/
theorem success_answers_json (Get : Str → Except Str http.Response) (precio : Float64)
    (h : getEuroPrice Get urlBCV = .ok precio) :
    (euroHandler Get http.ResponseWriter.new).Code = 200
      ∧ (euroHandler Get http.ResponseWriter.new).Get "Content-Type".toList
          = some "application/json".toList
      ∧ (euroHandler Get http.ResponseWriter.new).Body
          = "\x7b\"euro_price\": ".toList ++ fmt.formatFloat8 precio ++ "\x7d".toList
      ∧ (∀ neg mant exp, precio = .Finite neg mant exp →
          isFixedPoint 8 (fmt.formatFloat8 precio) = true
          ∧ ∃ ip fr : Str, fmt.formatFloat8 precio = (if neg then ['-'] else []) ++ ip ++ '.' :: fr
              ∧ fr.length = 8
              ∧ |((digitsValue ip : ℚ) + (digitsValue fr : ℚ) / 10 ^ 8)
                  - (mant : ℚ) * (2 : ℚ) ^ exp| ≤ 1 / (2 * 10 ^ 8))
      ∧ (precio.isFinite = false →
          fmt.formatFloat8 precio = "NaN".toList ∨ fmt.formatFloat8 precio = "+Inf".toList
            ∨ fmt.formatFloat8 precio = "-Inf".toList) := by
  rw [euroHandler_of_ok Get precio h]
  refine ⟨rfl, rfl, rfl, ?_, ?_⟩
  · intro neg mant exp hp
    rw [hp]
    exact formatFloat8_finite neg mant exp
  · intro hfin
    cases precio with
    | NaN => exact Or.inl rfl
    | Inf neg => cases neg with
      | true => exact Or.inr (Or.inr rfl)
      | false => exact Or.inr (Or.inl rfl)
    | Finite neg mant exp => exact absurd hfin (by simp [Float64.isFinite])

/-- C1, amended, at the page with the text "56,28013760". -/
theorem success_answers_json_witness :
    (euroHandler (serve ["56,28013760".toList]) http.ResponseWriter.new).Code = 200
      ∧ (euroHandler (serve ["56,28013760".toList]) http.ResponseWriter.new).Body
          = "\x7b\"euro_price\": ".toList
            ++ fmt.formatFloat8 (.Finite false 7920725210116258 (-47)) ++ "\x7d".toList :=
  ⟨(success_answers_json (serve ["56,28013760".toList]) (.Finite false 7920725210116258 (-47))
      (by decide)).1,
   (success_answers_json (serve ["56,28013760".toList]) (.Finite false 7920725210116258 (-47))
      (by decide)).2.2.1⟩

/-! ## C3: the page the program was written for -/

/-- C3, as stated, fails: a page holds `<strong>56,28013760</strong>` inside the
marker `div`, after another marker `div` with `<strong>1</strong>`, and the body is
`{"euro_price": 156.28013760}`. -/
theorem other_match_changes_body :
    (euroHandler (serve ["1".toList, "56,28013760".toList]) http.ResponseWriter.new).Code = 200
      ∧ (euroHandler (serve ["1".toList, "56,28013760".toList]) http.ResponseWriter.new).Body
          = "\x7b\"euro_price\": 156.28013760\x7d".toList
      ∧ (euroHandler (serve ["1".toList, "56,28013760".toList]) http.ResponseWriter.new).Body
          ≠ "\x7b\"euro_price\": 56.28013760\x7d".toList := by
  decide

/-- C3, amended.  For any upstream document, served with status 200, in which the
selector matches exactly one element and that element is
`<strong>56,28013760</strong>`, the handler answers 200 with the body
`{"euro_price": 56.28013760}`. -/
theorem single_match_answers (Get : Str → Except Str http.Response) (resp : http.Response)
    (doc : html.Node) (attrs : List html.Attribute)
    (hget : Get urlBCV = .ok resp) (hcode : resp.StatusCode = 200) (hbody : resp.Body = .ok doc)
    (hfind : goquery.Find doc euroSelector
      = [html.Node.mk .ElementNode "strong".toList attrs [textNode "56,28013760".toList]]) :
    (euroHandler Get http.ResponseWriter.new).Code = 200
      ∧ (euroHandler Get http.ResponseWriter.new).Body
          = "\x7b\"euro_price\": 56.28013760\x7d".toList := by
  have htext : goquery.Text (goquery.Find doc euroSelector) = "56,28013760".toList := by
    rw [hfind]
    simp [goquery.Text, goquery.nodesText, goquery.nodeText, textNode]
  have hval : getEuroPrice Get urlBCV = .ok (.Finite false 7920725210116258 (-47)) := by
    rw [getEuroPrice_of_document Get urlBCV resp doc hget hcode hbody, htext]
    decide
  rw [euroHandler_of_ok Get _ hval]
  exact ⟨rfl, by decide⟩

/-- C3, amended, at the page that holds only that marker element. -/
theorem single_match_answers_witness :
    (euroHandler (serve ["56,28013760".toList]) http.ResponseWriter.new).Code = 200
      ∧ (euroHandler (serve ["56,28013760".toList]) http.ResponseWriter.new).Body
          = "\x7b\"euro_price\": 56.28013760\x7d".toList :=
  single_match_answers (serve ["56,28013760".toList])
    ⟨200, "200 OK".toList, .ok (pageOf ["56,28013760".toList])⟩
    (pageOf ["56,28013760".toList]) [⟨[], "class".toList, []⟩] rfl rfl rfl rfl

/-! ## C9: several matching elements -/

/-- C9, as stated, fails: with the two matching elements `<strong>1</strong>` and
`<strong>2</strong>` the value is 12, with the first one alone it is 1. -/
theorem all_matches_are_parsed :
    getEuroPrice (serve ["1".toList, "2".toList]) urlBCV
        = .ok (.Finite false 6755399441055744 (-49))
      ∧ getEuroPrice (serve ["1".toList]) urlBCV = .ok (.Finite false 4503599627370496 (-52))
      ∧ (Float64.Finite false 6755399441055744 (-49)).toRat = 12
      ∧ (Float64.Finite false 4503599627370496 (-52)).toRat = 1 := by
  refine ⟨by decide, by decide, ?_, ?_⟩ <;>
  · simp only [Float64.toRat, Bool.false_eq_true, if_false]
    norm_num

/-- C9, amended.  The text that `getEuroPrice` trims and parses is the text of the
first matching element followed by the text of every further matching element;
when the text of the first element holds more than white space and ends in white
space, the result equals the result for a document in which only that element
matches. -/
theorem padded_first_match_decides (Get Get1 : Str → Except Str http.Response) (url : Str)
    (resp resp1 : http.Response) (doc doc1 n : html.Node) (rest : List html.Node)
    (pre : Str) (w : Char)
    (hget : Get url = .ok resp) (hcode : resp.StatusCode = 200) (hbody : resp.Body = .ok doc)
    (hget1 : Get1 url = .ok resp1) (hcode1 : resp1.StatusCode = 200)
    (hbody1 : resp1.Body = .ok doc1)
    (hfind : goquery.Find doc euroSelector = n :: rest)
    (hfind1 : goquery.Find doc1 euroSelector = [n])
    (hpad : goquery.nodeText n = pre ++ [w]) (hw : unicode.IsSpace w = true)
    (hcore : strings.TrimSpace (goquery.nodeText n) ≠ []) :
    goquery.Text (goquery.Find doc euroSelector) = goquery.nodeText n ++ goquery.Text rest
      ∧ getEuroPrice Get url = getEuroPrice Get1 url := by
  have ht : goquery.Text (goquery.Find doc euroSelector)
      = goquery.nodeText n ++ goquery.Text rest := by
    rw [hfind]; simp [goquery.Text, goquery.nodesText]
  have ht1 : goquery.Text (goquery.Find doc1 euroSelector) = goquery.nodeText n := by
    rw [hfind1]; simp [goquery.Text, goquery.nodesText]
  refine ⟨ht, ?_⟩
  rw [getEuroPrice_of_document Get url resp doc hget hcode hbody,
    getEuroPrice_of_document Get1 url resp1 doc1 hget1 hcode1 hbody1, ht, ht1, hpad]
  rw [hpad] at hcore
  obtain ⟨h1, h2⟩ := scan_padded_first pre (goquery.Text rest) w hw hcore
  rw [if_neg h2, if_neg hcore, h1]

/-- C9, amended, at a page with the padded texts " 56,28013760 " and " 8,1 ". -/
theorem padded_first_match_decides_witness :
    goquery.Text (goquery.Find (pageOf [" 56,28013760 ".toList, " 8,1 ".toList]) euroSelector)
        = " 56,28013760 ".toList ++ " 8,1 ".toList
      ∧ getEuroPrice (serve [" 56,28013760 ".toList, " 8,1 ".toList]) urlBCV
        = getEuroPrice (serve [" 56,28013760 ".toList]) urlBCV :=
  padded_first_match_decides (serve [" 56,28013760 ".toList, " 8,1 ".toList])
    (serve [" 56,28013760 ".toList]) urlBCV
    ⟨200, "200 OK".toList, .ok (pageOf [" 56,28013760 ".toList, " 8,1 ".toList])⟩
    ⟨200, "200 OK".toList, .ok (pageOf [" 56,28013760 ".toList])⟩
    (pageOf [" 56,28013760 ".toList, " 8,1 ".toList]) (pageOf [" 56,28013760 ".toList])
    (element "strong".toList [] [textNode " 56,28013760 ".toList])
    [element "strong".toList [] [textNode " 8,1 ".toList]]
    " 56,28013760".toList ' ' rfl rfl rfl rfl rfl rfl rfl rfl rfl (by decide) (by decide)

/-! ## C6: text that is no number -/

/-- C6, as stated, fails: the text "1,234,5" has two separators, and `getEuroPrice`
returns 1.234 for it; the handler answers 200. -/
theorem second_separator_is_accepted :
    getEuroPrice (serve ["1,234,5".toList]) urlBCV
        = .ok (.Finite false 5557441940175192 (-52))
      ∧ (euroHandler (serve ["1,234,5".toList]) http.ResponseWriter.new).Code = 200
      ∧ (euroHandler (serve ["1,234,5".toList]) http.ResponseWriter.new).Body
          = "\x7b\"euro_price\": 1.23400000\x7d".toList := by
  decide

/-- C6, amended.  For a non-empty extracted text: when its normalized form does
not begin like a number (an optional sign and a digit, or an optional sign, a
period and a digit, or an optionally signed "inf", or "nan"), `getEuroPrice`
fails with a format error, whose message starts with "error convirtiendo el
texto a float", and the handler answers 500 with that message.  In every case
the outcome is the conversion of the leading float token of the normalized text
alone, what follows the token is not read: "12abc" gives 12 and "1,234,5" gives
1.234 with status 200, while "12ebc", whose token is "12e", fails with the
format error. -/
theorem text_without_number_fails (Get : Str → Except Str http.Response)
    (resp : http.Response) (doc : html.Node)
    (hget : Get urlBCV = .ok resp) (hcode : resp.StatusCode = 200) (hbody : resp.Body = .ok doc)
    (hne : strings.TrimSpace (goquery.Text (goquery.Find doc euroSelector)) ≠ []) :
    (startsNumber (strings.ReplaceAll
        (strings.TrimSpace (goquery.Text (goquery.Find doc euroSelector)))
        ",".toList ".".toList) = false →
      ∃ m : Str, getEuroPrice Get urlBCV
          = .error (.errorf ("error convirtiendo el texto a float: ".toList ++ m))
        ∧ (euroHandler Get http.ResponseWriter.new).Code = 500
        ∧ (euroHandler Get http.ResponseWriter.new).Body
            = "error convirtiendo el texto a float: ".toList ++ m ++ ['\n'])
      ∧ getEuroPrice Get urlBCV
          = (match fmt.convertFloat (fmt.floatToken (strings.ReplaceAll
                (strings.TrimSpace (goquery.Text (goquery.Find doc euroSelector)))
                ",".toList ".".toList)).1 with
             | .error err =>
               .error (.errorf ("error convirtiendo el texto a float: ".toList ++ err))
             | .ok v => .ok v)
      ∧ (strings.TrimSpace (goquery.Text (goquery.Find doc euroSelector)) = "12abc".toList →
          getEuroPrice Get urlBCV = .ok (.Finite false 6755399441055744 (-49))
            ∧ (Float64.Finite false 6755399441055744 (-49)).toRat = 12
            ∧ (euroHandler Get http.ResponseWriter.new).Code = 200)
      ∧ (strings.TrimSpace (goquery.Text (goquery.Find doc euroSelector)) = "1,234,5".toList →
          getEuroPrice Get urlBCV = .ok (.Finite false 5557441940175192 (-52))
            ∧ (euroHandler Get http.ResponseWriter.new).Code = 200
            ∧ (euroHandler Get http.ResponseWriter.new).Body
                = "\x7b\"euro_price\": 1.23400000\x7d".toList)
      ∧ (strings.TrimSpace (goquery.Text (goquery.Find doc euroSelector)) = "12ebc".toList →
          fmt.floatToken "12ebc".toList = ("12e".toList, ⟨"12e".toList, "bc".toList⟩)
            ∧ getEuroPrice Get urlBCV = .error (.errorf
                "error convirtiendo el texto a float: strconv.ParseFloat: parsing \"12e\": invalid syntax".toList)
            ∧ (euroHandler Get http.ResponseWriter.new).Code = 500) := by
  have hg := getEuroPrice_of_document Get urlBCV resp doc hget hcode hbody
  rw [if_neg hne] at hg
  refine ⟨?_, ?_, ?_, ?_, ?_⟩
  · intro hstart
    cases ht : strings.TrimSpace (goquery.Text (goquery.Find doc euroSelector)) with
    | nil => exact absurd ht hne
    | cons c cr =>
      have hc := TrimSpace_head _ c cr ht
      rw [ht] at hg hstart
      rw [ReplaceAll_comma, List.map_cons] at hg hstart
      cases hs : fmt.Sscanf ((if c = ',' then '.' else c)
          :: List.map (fun c => if c = ',' then '.' else c) cr) with
      | ok v =>
        have := Sscanf_starts _ _ v (normalize_not_space c hc) hs
        rw [hstart] at this
        exact absurd this (by simp)
      | error m =>
        rw [hs] at hg
        refine ⟨m, hg, ?_⟩
        rw [euroHandler_of_error Get _ hg]
        exact ⟨rfl, rfl⟩
  · cases ht : strings.TrimSpace (goquery.Text (goquery.Find doc euroSelector)) with
    | nil => exact absurd ht hne
    | cons c cr =>
      have hc := TrimSpace_head _ c cr ht
      rw [ht] at hg
      rw [ReplaceAll_comma, List.map_cons] at hg ⊢
      rw [Sscanf_of_head _ _ (normalize_not_space c hc)] at hg
      exact hg
  · intro ht
    rw [ht] at hg
    have hval : getEuroPrice Get urlBCV = .ok (.Finite false 6755399441055744 (-49)) := by
      rw [hg]; decide
    refine ⟨hval, ?_, ?_⟩
    · simp only [Float64.toRat, Bool.false_eq_true, if_false, one_mul]
      rw [zpow_neg, show ((49 : Int)) = ((49 : Nat) : Int) from rfl, zpow_natCast]
      norm_num
    · rw [euroHandler_of_ok Get _ hval]
  · intro ht
    rw [ht] at hg
    have hval : getEuroPrice Get urlBCV = .ok (.Finite false 5557441940175192 (-52)) := by
      rw [hg]; decide
    rw [euroHandler_of_ok Get _ hval]
    exact ⟨hval, rfl, by decide⟩
  · intro ht
    rw [ht] at hg
    have hval : getEuroPrice Get urlBCV = .error (.errorf
        "error convirtiendo el texto a float: strconv.ParseFloat: parsing \"12e\": invalid syntax".toList) := by
      rw [hg]; decide
    rw [euroHandler_of_error Get _ hval]
    exact ⟨by decide, hval, rfl⟩

/-- C6, amended, at the text "abc". -/
theorem text_without_number_fails_witness :
    ∃ m : Str, getEuroPrice (serve ["abc".toList]) urlBCV
        = .error (.errorf ("error convirtiendo el texto a float: ".toList ++ m))
      ∧ (euroHandler (serve ["abc".toList]) http.ResponseWriter.new).Code = 500
      ∧ (euroHandler (serve ["abc".toList]) http.ResponseWriter.new).Body
          = "error convirtiendo el texto a float: ".toList ++ m ++ ['\n'] :=
  (text_without_number_fails (serve ["abc".toList])
    ⟨200, "200 OK".toList, .ok (pageOf ["abc".toList])⟩ (pageOf ["abc".toList])
    rfl rfl rfl (by decide)).1 (by decide)

/-! ## C7: the value parsed from a decimal text -/

/-- C7, as stated, fails.  The text of a one, 309 zeros, a comma and a zero has
the form digits, comma, digits, yet `getEuroPrice` yields no value for it: the
conversion reports a range error.  And the value parsed from "0,1" is a binary64
number, which differs from the decimal number one tenth. -/
theorem decimal_text_out_of_range :
    getEuroPrice (serve ['1' :: List.replicate 309 '0' ++ ",0".toList]) urlBCV
        = .error (.errorf ("error convirtiendo el texto a float: strconv.ParseFloat: parsing \"".toList
            ++ ('1' :: List.replicate 309 '0' ++ ".0\": value out of range".toList)))
      ∧ getEuroPrice (serve ["0,1".toList]) urlBCV = .ok (.Finite false 7205759403792794 (-56))
      ∧ (Float64.Finite false 7205759403792794 (-56)).toRat ≠ 1 / 10 := by
  refine ⟨?_, by decide, ?_⟩
  · set_option maxRecDepth 100000 in
    set_option exponentiation.threshold 2000 in
    decide
  · simp only [Float64.toRat, Bool.false_eq_true, if_false, one_mul]
    norm_num

/-- C7, amended.  For the text "1,5" the parsed value is 1.5.  For a text of
digits, a comma and digits, with `D` the decimal number read with the comma as
the decimal point: when `D` is at least `2^1024 - 2^970` the call fails with the
range error of the conversion; below that the call returns a finite binary64
value that no other binary64 value beats in distance to `D`, so `D` itself when
binary64 represents it.  The normalization keeps the length of a text and
changes a character only from a comma to a period. -/
theorem decimal_text_value (Get : Str → Except Str http.Response) (url : Str)
    (resp : http.Response) (doc : html.Node)
    (hget : Get url = .ok resp) (hcode : resp.StatusCode = 200) (hbody : resp.Body = .ok doc) :
    (strings.TrimSpace (goquery.Text (goquery.Find doc euroSelector)) = "1,5".toList →
        getEuroPrice Get url = .ok (.Finite false 6755399441055744 (-52))
          ∧ (Float64.Finite false 6755399441055744 (-52)).toRat = 3 / 2)
      ∧ (∀ ds1 ds2 : Str, ds1 ≠ [] → (∀ c ∈ ds1, strconv.isDigit c = true) →
          (∀ c ∈ ds2, strconv.isDigit c = true) →
          strings.TrimSpace (goquery.Text (goquery.Find doc euroSelector)) = ds1 ++ ',' :: ds2 →
          ((2 : ℚ) ^ (1024 : Nat) - (2 : ℚ) ^ (970 : Nat) ≤ decimalValue ds1 ds2
              ∧ getEuroPrice Get url = .error (.errorf
                  ("error convirtiendo el texto a float: strconv.ParseFloat: parsing ".toList
                    ++ strconv.Quote (ds1 ++ '.' :: ds2) ++ ": value out of range".toList)))
            ∨ (decimalValue ds1 ds2 < (2 : ℚ) ^ (1024 : Nat) - (2 : ℚ) ^ (970 : Nat)
              ∧ ∃ (m : Nat) (e : Int), getEuroPrice Get url = .ok (.Finite false m e)
                ∧ (Float64.Finite false m e).isCanonical = true
                ∧ (∀ (mg : Nat) (eg : Int), (Float64.Finite false mg eg).isCanonical = true →
                    |(Float64.Finite false m e).toRat - decimalValue ds1 ds2|
                      ≤ |(Float64.Finite false mg eg).toRat - decimalValue ds1 ds2|)
                ∧ (∀ (mg : Nat) (eg : Int), (Float64.Finite false mg eg).isCanonical = true →
                    (Float64.Finite false mg eg).toRat = decimalValue ds1 ds2 →
                    (Float64.Finite false m e).toRat = decimalValue ds1 ds2)))
      ∧ (∀ s : Str, (strings.ReplaceAll s ",".toList ".".toList).length = s.length
          ∧ ∀ i : Nat, (strings.ReplaceAll s ",".toList ".".toList)[i]?
              = (s[i]?).map (fun c => if c = ',' then '.' else c)) := by
  refine ⟨?_, ?_, ?_⟩
  · intro htext
    refine ⟨?_, ?_⟩
    · have h := getEuroPrice_decimal Get url resp doc "1".toList "5".toList hget hcode hbody
        (by decide) (by decide) (by decide) htext
      rw [h]
      decide
    · simp only [Float64.toRat, Bool.false_eq_true, if_false, one_mul]
      norm_num
  · intro ds1 ds2 hne h1 h2 htext
    have h := getEuroPrice_decimal Get url resp doc ds1 ds2 hget hcode hbody hne h1 h2 htext
    have hden : 0 < 10 ^ ds2.length := Nat.pow_pos (by decide)
    have htr : ∀ (m : Nat) (e : Int), (Float64.Finite false m e).toRat = (m : ℚ) * (2 : ℚ) ^ e := by
      intro m e
      simp only [Float64.toRat, Bool.false_eq_true, if_false, one_mul]
    cases hr : roundFloat64 false (digitsValue (ds1 ++ ds2)) (10 ^ ds2.length) with
    | none =>
      left
      rw [hr] at h
      refine ⟨roundFloat64_none false _ _ hden hr, ?_⟩
      rw [h]
      simp only [strconv.NumError.Error, List.append_assoc]
      rfl
    | some f =>
      right
      rw [hr] at h
      refine ⟨?_, ?_⟩
      · by_contra hcon
        have := roundFloat64_overflow false _ _ hden (not_lt.mp hcon)
        rw [this] at hr
        exact Option.noConfusion hr
      · obtain ⟨m, e, hf, hcan, hnear⟩ := roundFloat64_nearest false _ _ hden f hr
        refine ⟨m, e, ?_, hcan, ?_, ?_⟩
        · rw [h, hf]
        · intro mg eg hg
          rw [htr, htr]
          exact hnear mg eg hg
        · intro mg eg hg hval
          have := hnear mg eg hg
          rw [htr] at hval ⊢
          unfold decimalValue at hval ⊢
          rw [hval, sub_self, abs_zero] at this
          have h0 := abs_nonpos_iff.mp this
          linarith
  · intro s
    rw [ReplaceAll_comma]
    exact ⟨List.length_map _ _, fun i => List.getElem?_map _ _ _⟩

/-- C7, amended, at the text "1,5". -/
theorem decimal_text_value_witness :
    getEuroPrice (serve ["1,5".toList]) urlBCV = .ok (.Finite false 6755399441055744 (-52))
      ∧ (Float64.Finite false 6755399441055744 (-52)).toRat = 3 / 2 :=
  (decimal_text_value (serve ["1,5".toList]) urlBCV
    ⟨200, "200 OK".toList, .ok (pageOf ["1,5".toList])⟩ (pageOf ["1,5".toList])
    rfl rfl rfl).1 (by decide)

/-! ## C10: printing a parsed value and parsing the print -/

/-- C10, as stated, fails.  The text "8,123456785" parses to a value `v` that
prints as "8.12345679", which parses to a value farther than `0.5e-8` from `v`.
And the text "1e-20", which has no fractional digit, parses to a positive value
that prints as "0.00000000", which parses to zero. -/
theorem round_trip_misses :
    getEuroPrice (serve ["8,123456785".toList]) urlBCV
        = .ok (.Finite false 4573099618735791 (-49))
      ∧ fmt.formatFloat8 (.Finite false 4573099618735791 (-49)) = "8.12345679".toList
      ∧ getEuroPrice (serve [fmt.formatFloat8 (.Finite false 4573099618735791 (-49))]) urlBCV
        = .ok (.Finite false 4573099621550541 (-49))
      ∧ 1 / (2 * 10 ^ 8) < |(Float64.Finite false 4573099621550541 (-49)).toRat
          - (Float64.Finite false 4573099618735791 (-49)).toRat|
      ∧ getEuroPrice (serve ["1e-20".toList]) urlBCV
        = .ok (.Finite false 6646139978924579 (-119))
      ∧ fmt.formatFloat8 (.Finite false 6646139978924579 (-119)) = "0.00000000".toList
      ∧ getEuroPrice (serve [fmt.formatFloat8 (.Finite false 6646139978924579 (-119))]) urlBCV
        = .ok (.Finite false 0 (-1074)) := by
  refine ⟨by decide, by decide, by decide, ?_, by decide, by decide, by decide⟩
  simp only [Float64.toRat, Bool.false_eq_true, if_false, one_mul]
  rw [← sub_mul, abs_mul, abs_of_pos (zpow_two_pos (-49))]
  have e49 : (2 : ℚ) ^ (-49 : Int) = 1 / 562949953421312 := by
    rw [zpow_neg, show ((49 : Int)) = ((49 : Nat) : Int) from rfl, zpow_natCast]
    norm_num
  rw [e49]
  norm_num

/-- C10, amended.  A value `v` that `getEuroPrice` returns, printed with `%.8f`
and served as the marked text, is parsed again with success.  NaN and the
infinities come back unchanged.  For a finite `v` the print is a sign, digits, a
period and eight digits, a decimal within `0.5e-8` of the magnitude of `v`; the
value read back is the binary64 value nearest to that decimal, hence within
`1e-8` of `v`.  It is `v` itself when the magnitude of `v` is at least `2^26`,
and when the text `v` was parsed from is a plain decimal (an optional minus
sign, digits and, optionally, a comma and digits) with at most 8 digits after
the comma. -/
theorem round_trip_of_parsed (Get : Str → Except Str http.Response) (url : Str) (v : Float64)
    (hv : getEuroPrice Get url = .ok v) :
    ∃ w : Float64, getEuroPrice (serve [fmt.formatFloat8 v]) url = .ok w
      ∧ (v.isFinite = false → w = v)
      ∧ (∀ (neg : Bool) (m : Nat) (e : Int), v = .Finite neg m e →
          ∃ (ip fr : Str) (mw : Nat) (ew : Int),
            fmt.formatFloat8 v = (if neg then ['-'] else []) ++ ip ++ '.' :: fr
              ∧ fr.length = 8
              ∧ abs (decimalValue ip fr - abs v.toRat) ≤ 1 / (2 * 10 ^ 8)
              ∧ w = .Finite neg mw ew
              ∧ w.isCanonical = true
              ∧ ∀ (mg : Nat) (eg : Int), (Float64.Finite false mg eg).isCanonical = true →
                  abs (abs w.toRat - decimalValue ip fr)
                    ≤ abs ((Float64.Finite false mg eg).toRat - decimalValue ip fr))
      ∧ abs (w.toRat - v.toRat) ≤ 1 / 10 ^ 8
      ∧ ((67108864 : ℚ) ≤ abs v.toRat → w = v)
      ∧ (∀ (resp : http.Response) (doc : html.Node) (neg sep : Bool) (ds1 ds2 : Str),
          Get url = .ok resp → resp.StatusCode = 200 → resp.Body = .ok doc →
          ds1 ≠ [] → (∀ c ∈ ds1, strconv.isDigit c = true) →
          (∀ c ∈ ds2, strconv.isDigit c = true) → (sep = false → ds2 = []) →
          ds2.length ≤ 8 →
          strings.TrimSpace (goquery.Text (goquery.Find doc euroSelector))
            = (if neg then ['-'] else []) ++ ds1 ++ (if sep then ',' :: ds2 else []) →
          w = v) := by
  have hcan := getEuroPrice_canonical Get url v hv
  cases v with
  | NaN =>
    refine ⟨.NaN, ?_, fun _ => rfl, ?_, ?_, fun _ => rfl, ?_⟩
    · exact getEuroPrice_serve "NaN".toList url (by decide) (by decide) (by decide) .NaN
        (by decide)
    · intro neg m e h; exact Float64.noConfusion h
    · simp
    · intros; rfl
  | Inf s =>
    refine ⟨.Inf s, ?_, fun _ => rfl, ?_, ?_, fun _ => rfl, ?_⟩
    · cases s
      · exact getEuroPrice_serve "+Inf".toList url (by decide) (by decide) (by decide)
          (.Inf false) (by decide)
      · exact getEuroPrice_serve "-Inf".toList url (by decide) (by decide) (by decide)
          (.Inf true) (by decide)
    · intro neg m e h; exact Float64.noConfusion h
    · simp
    · intros; rfl
  | Finite s m e =>
    obtain ⟨w, hw⟩ := roundtrip_some s m e hcan
    obtain ⟨mw, ew, hwe, hwc, hnear, hbound⟩ := roundtrip_near s m e hcan w hw
    refine ⟨w, getEuroPrice_format_finite s m e url w hw, ?_, ?_, ?_, ?_, ?_⟩
    · intro h; exact absurd h (by simp [Float64.isFinite])
    · intro neg m1 e1 h
      obtain ⟨ip, fr, f1, f2, f3⟩ := formatFloat8_parts s m e
      have hs : s = neg := by injection h
      refine ⟨ip, fr, mw, ew, ?_, f2, ?_, ?_, ?_, ?_⟩
      · rw [← hs]; exact f1
      · rw [f3, toRat_abs]
        exact fixedDigits_near m e
      · rw [← hs]; exact hwe
      · rw [hwe]; exact hwc
      · intro mg eg hg
        rw [hwe, toRat_abs, f3]
        have : (Float64.Finite false mg eg).toRat = (mg : ℚ) * (2 : ℚ) ^ eg := by
          simp only [Float64.toRat, Bool.false_eq_true, if_false, one_mul]
        rw [this]
        exact hnear mg eg hg
    · rw [hwe, toRat_sub_abs]
      exact hbound
    · intro hlarge
      rw [toRat_abs] at hlarge
      have he := exp_of_large s m e hcan hlarge
      have := roundtrip_exact_large s m e hcan he
      rw [hw] at this
      exact Option.some.inj this
    · intro resp doc neg sep ds1 ds2 hget hcode hbody hne h1 h2 hsep hlen htext
      have hr := getEuroPrice_plain_decimal Get url resp doc neg sep ds1 ds2 _ hget hcode hbody
        hne h1 h2 hsep htext hv
      obtain ⟨m1, e1, hf⟩ := roundFloat64_finite neg _ _ _ hr
      have hs : s = neg := by injection hf
      rw [← hs] at hr
      have := roundtrip_exact_decimal s _ _ m e hlen hr
      rw [hw] at this
      exact Option.some.inj this

/-- C10, amended, at the value parsed from the text "56,28013760". -/
theorem round_trip_of_parsed_witness :
    ∃ w : Float64,
      getEuroPrice (serve [fmt.formatFloat8 (.Finite false 7920725210116258 (-47))]) urlBCV
          = .ok w
        ∧ abs (w.toRat - (Float64.Finite false 7920725210116258 (-47)).toRat) ≤ 1 / 10 ^ 8 := by
  obtain ⟨w, h1, _, _, h4, _⟩ := round_trip_of_parsed (serve ["56,28013760".toList]) urlBCV
    (.Finite false 7920725210116258 (-47)) (by decide)
  exact ⟨w, h1, h4⟩

end EuroScraper
